import Mathlib

/-! SparkGuardCrossCheck: a shallow embedding and its properties

The Go sources embedded here are

* `internal/checker/jplag.go`  (`getPositions`, `readItem`, `parse`),
* `internal/app/process.go`    (`process`),
* `internal/task/service.go`   (`GetEventWorks`, `downloadWorks`, `removeOldWorks`,
  `CheckCacheSize`, ...),
* `internal/task/storage.go`   (the index of cached works).

Conventions.  A `uint64` is a natural number and every operation that can wrap is written
with an explicit `% 2 ^ 64`.  A loop becomes a recursive function on an iteration budget
(fuel); running out of budget is a result of its own, distinct from every result of the
Go code.  A run-time panic of the Go code is the result `Fault.outOfRange`.  A function
whose Go code can panic, or call code that can, returns `Except Fault`, so that a panic of a
callee reaches its callers; nothing in the sources recovers from one.
-/

namespace CrossCheck

/-! ## Definitions -/

/-- Ways in which a computation ends without a return value. -/
inductive Fault where
  /-- index or slice bound out of range: the Go run time panics -/
  | outOfRange
  /-- the iteration budget of the model is used up -/
  | outOfFuel
deriving DecidableEq

deriving instance DecidableEq for Except

/-- Number of values of a `uint64`. -/
def U64 : Nat := 2 ^ 64

/-- The statement `x--` on a `uint64`. -/
def decU64 (x : Nat) : Nat := (x + U64 - 1) % U64

/-! ### `internal/checker/jplag.go`: `getPositions` -/

/-- Values returned by `getPositions`: `(start, size, err)`; `err` tells whether the error is
non-nil. -/
structure Positions where
  start : Nat
  size : Nat
  err : Bool
deriving DecidableEq

/-- First loop of `getPositions` (jplag.go 234-239):
`for ; idx < length && n > 1; idx++ { if runes[idx] == '\n' { n--; m-- } }`.
Returns `(idx, n, m)` at loop exit. -/
def skipLines (runes : List Char) : Nat → Nat → Nat → Nat → Except Fault (Nat × Nat × Nat)
  | 0, idx, n, m =>
    if idx < runes.length ∧ n > 1 then .error .outOfFuel else .ok (idx, n, m)
  | fuel + 1, idx, n, m =>
    if idx < runes.length ∧ n > 1 then
      match runes[idx]? with
      | none => .error .outOfRange
      | some c =>
        if c = '\n' then skipLines runes fuel (idx + 1) (n - 1) (decU64 m)
        else skipLines runes fuel (idx + 1) n m
    else .ok (idx, n, m)

/-- Second loop of `getPositions` (jplag.go 251-255):
`for idx = start; idx < length && m > 1; idx++ { if runes[idx] == '\n' { m-- } }`.
Returns `idx` at loop exit. -/
def skipToEnd (runes : List Char) : Nat → Nat → Nat → Except Fault Nat
  | 0, idx, m =>
    if idx < runes.length ∧ m > 1 then .error .outOfFuel else .ok idx
  | fuel + 1, idx, m =>
    if idx < runes.length ∧ m > 1 then
      match runes[idx]? with
      | none => .error .outOfRange
      | some c =>
        if c = '\n' then skipToEnd runes fuel (idx + 1) (m - 1)
        else skipToEnd runes fuel (idx + 1) m
    else .ok idx

/-- The function `getPositions` (jplag.go 212-258).  `file` is what `os.Open` and `io.ReadAll`
give for the path: `none` when either fails, otherwise the content as the code points of
`[]rune(string(content))`.  Each loop advances `idx` by one per iteration and stops at
`length`, so `length` iterations are a sufficient budget. -/
def getPositions (file : Option (List Char)) (startLine startCol endLine endCol : Nat) :
    Except Fault Positions :=
  match file with
  | none => .ok ⟨0, 0, true⟩
  | some runes =>
    let length := runes.length
    match skipLines runes length 0 startLine endLine with
    | .error f => .error f
    | .ok (idx, _, m) =>
      if idx = length then .ok ⟨0, 0, false⟩
      else
        let start := (idx + startCol) % U64
        let start := if startLine ≠ 1 then decU64 start else start
        match skipToEnd runes length start m with
        | .error f => .error f
        | .ok idx => .ok ⟨start, (idx + U64 - start + endCol) % U64, false⟩

/-- Index just after the `k`-th newline of `cs` (`0` for `k = 0`), `none` when `cs` holds
fewer than `k` newlines.  This is the start of line `k + 1` as the specification words it. -/
def lineStart : List Char → Nat → Option Nat
  | _, 0 => some 0
  | [], _ + 1 => none
  | c :: cs, k + 1 =>
    if c = '\n' then (lineStart cs k).map (· + 1) else (lineStart cs (k + 1)).map (· + 1)

/-- Offset that the specification gives to a span starting on `startLine` at column
`startCol`, when that line starts at index `p`: `p + startCol`, minus one unless
`startLine = 1`, as a `uint64`. -/
def startOffset (startLine startCol p : Nat) : Nat :=
  (if startLine = 1 then p + startCol else p + startCol - 1) % U64

/-- Index reached by a scan that starts at `s` and consumes `k` further newlines, with the
three cases worded as in the specification: `s` itself for `k = 0`, the index just after the
`k`-th newline found from `s` on when there are `k` of them, the content length when they
run out. -/
def scanTarget (content : List Char) (s k : Nat) : Nat :=
  match lineStart (content.drop s) k with
  | some j => s + j
  | none => content.length

/-- Index reached by a forward scan from `s` over `k` further newlines, where a scan that
starts past the end of the content does not move: as `scanTarget`, except that running out
of newlines gives the larger of `s` and the content length. -/
def scanEnd (content : List Char) (s k : Nat) : Nat :=
  match lineStart (content.drop s) k with
  | some j => s + j
  | none => max s content.length

/-- The file of the specification's example: `a b \n c d \n`. -/
def abcd : List Char := ['a', 'b', '\n', 'c', 'd', '\n']

/-! ### Records: `internal/task/model.go`, `internal/checker/model.go` and the messages of
`services/orchestrator` that `process` reads and builds -/

/-- A value of `time.Time` as `time.Now()` gives it: the instant, as whole seconds and the
nanoseconds within the second, and the offset of the local zone at that instant, in seconds
east of UTC. -/
structure Time where
  sec : Nat
  nsec : Nat
  offset : Int
deriving DecidableEq

/-- The call `timestamp.Format(workTimeFormat)` with the layout `2006-01-02 15:04:05`
(storage.go 23, 121, 139): the date and time that the wall clock of the zone of the value
shows, to the second and without the zone.  The text is held as the number of seconds that
this wall clock shows, on the scale of `sec`; two texts of this layout compare as these
numbers do. -/
def Time.Format (t : Time) : Nat := ((t.sec : Int) + t.offset).toNat

/-- The record `task.WorkEntry`.  `Timestamp` is held as the wall-clock text of the value,
the number `Time.Format` gives: this is what the index stores, orders and reads back
(`time.Parse` of the stored text), and nothing reads more of it.  It is not an instant: the
zone and the fraction of the second are lost. -/
structure WorkEntry where
  WorkID : Nat
  Path : String
  Timestamp : Nat
deriving DecidableEq

/-- The record `task.WorkUrl`. -/
structure WorkUrl where
  WorkID : Nat
  Url : String
deriving DecidableEq

/-- The fields of `orchestrator.Task` that the worker reads. -/
structure Task where
  ID : Nat
  EventID : Nat
  WorkID : Nat
deriving DecidableEq

/-- The record `checker.MatchItem`. -/
structure MatchItem where
  Work1File : String
  Work1Start : Nat
  Work1Size : Nat
  Work2File : String
  Work2Start : Nat
  Work2Size : Nat
deriving DecidableEq

/-- The record `checker.ReportItem`.  `Avg` and `Max` are `float64` values that the worker
only copies; they are held as their 64-bit patterns. -/
structure ReportItem where
  Work1ID : Nat
  Work2ID : Nat
  Avg : Nat
  Max : Nat
  Matches : List MatchItem
deriving DecidableEq

/-- The message `orchestrator.SendCrossCheckReportMatches`. -/
structure SendCrossCheckReportMatches where
  FirstWorkPath : String
  FirstWorkStart : Nat
  FirstWorkSize : Nat
  SecondWorkPath : String
  SecondWorkStart : Nat
  SecondWorkSize : Nat
deriving DecidableEq

/-- The message `orchestrator.SendCrossCheckReportRequest`. -/
structure SendCrossCheckReportRequest where
  FirstWorkID : Nat
  SecondWorkID : Nat
  Match : List SendCrossCheckReportMatches
deriving DecidableEq

/-! ### `internal/app/process.go` -/

/-- Calls that `process` makes on `task.Service` and `checker.Checker`, with their
arguments and, for the calls whose only result is an error that `process` logs, whether
that error was nil. -/
inductive Call where
  | GetNewTasksOfCommonEvent
  | GetEventWorks (eventID : Nat)
  | Run (newWorks oldWorks : List String)
  | SendReport (report : SendCrossCheckReportRequest) (ok : Bool)
  | CloseTask (taskID : List Nat) (ok : Bool)
  | CloseTaskWithError (taskID : List Nat) (ok : Bool)
  /-- `returned` is `none` when the call does not return -/
  | CheckCacheSize (returned : Option Bool)
deriving DecidableEq

/-- What the collaborators of `process` answer: the interfaces `task.Service` and
`checker.Checker` seen from `process`.  `none` is a non-nil error; for the calls whose
result is only an error, `true` is a nil error.  The three calls whose code is in the
sources and can fail to return do so with `.error`: `GetEventWorks` (a panic of
`downloadFile`, service.go 237), `Run` (a panic of `readItem`, jplag.go 180) and
`CheckCacheSize` (its loop without end, service.go 454). -/
structure Services where
  GetNewTasksOfCommonEvent : Option (List Task)
  GetEventWorks : Nat → Except Fault (Option (List WorkEntry))
  Run : List String → List String → Except Fault (Option (List ReportItem))
  SendReport : SendCrossCheckReportRequest → Bool
  CloseTask : List Nat → Bool
  CloseTaskWithError : List Nat → Bool
  CheckCacheSize : Except Fault Bool

/-- The loop of process.go 70-77 with the slices of lines 62-67: the paths of `works` are
appended to `newWorks` when the work ID is a key of the map `newWorksID` (here the list of
its keys) and to `oldWorks` otherwise. -/
def splitWorks (newWorksID : List Nat) (works : List WorkEntry) : List String × List String :=
  works.foldl
    (fun (acc : List String × List String) work =>
      if work.WorkID ∈ newWorksID then (acc.1 ++ [work.Path], acc.2)
      else (acc.1, acc.2 ++ [work.Path]))
    ([], [])

/-- The report built in process.go 95-111 from one item of the checker's result. -/
def makeReport (res : ReportItem) : SendCrossCheckReportRequest :=
  { FirstWorkID := res.Work1ID
    SecondWorkID := res.Work2ID
    Match := res.Matches.map fun m =>
      { FirstWorkPath := m.Work1File
        FirstWorkStart := m.Work1Start
        FirstWorkSize := m.Work1Size
        SecondWorkPath := m.Work2File
        SecondWorkStart := m.Work2Start
        SecondWorkSize := m.Work2Size } }

/-- The function `appT.process` (process.go 11-130): the calls it makes, in order, and how
it ends: the value it returns, or `.error` when it does not return because a call it makes
does not (nothing in `process` recovers from a panic, so the calls that would follow are
not made).  The errors of `SendReport`, `CloseTask`, `CloseTaskWithError` and
`CheckCacheSize` are only logged.  `tasks[0]` on an empty batch is a run-time panic. -/
def process (a : Services) : List Call × Except Fault Bool :=
  match a.GetNewTasksOfCommonEvent with
  | none => ([.GetNewTasksOfCommonEvent], .ok false)
  | some tasks =>
    match tasks with
    | [] => ([.GetNewTasksOfCommonEvent], .error .outOfRange)
    | first :: _ =>
      let eventID := first.EventID
      let tasksID := tasks.map (·.ID)
      let newWorksID := tasks.map (·.WorkID)
      match a.GetEventWorks eventID with
      | .error fault => ([.GetNewTasksOfCommonEvent, .GetEventWorks eventID], .error fault)
      | .ok none =>
        ([.GetNewTasksOfCommonEvent, .GetEventWorks eventID,
          .CloseTaskWithError tasksID (a.CloseTaskWithError tasksID)], .ok true)
      | .ok (some works) =>
        if works.length ≤ 1 then
          ([.GetNewTasksOfCommonEvent, .GetEventWorks eventID,
            .CloseTask tasksID (a.CloseTask tasksID)], .ok true)
        else
          let split := splitWorks newWorksID works
          match a.Run split.1 split.2 with
          | .error fault =>
            ([.GetNewTasksOfCommonEvent, .GetEventWorks eventID, .Run split.1 split.2],
              .error fault)
          | .ok none =>
            ([.GetNewTasksOfCommonEvent, .GetEventWorks eventID,
              .Run split.1 split.2, .CloseTaskWithError tasksID (a.CloseTaskWithError tasksID)],
              .ok true)
          | .ok (some result) =>
            match a.CheckCacheSize with
            | .error fault =>
              ([.GetNewTasksOfCommonEvent, .GetEventWorks eventID, .Run split.1 split.2]
                ++ result.map (fun res => Call.SendReport (makeReport res)
                    (a.SendReport (makeReport res)))
                ++ [.CloseTask tasksID (a.CloseTask tasksID), .CheckCacheSize none],
                .error fault)
            | .ok ok =>
              ([.GetNewTasksOfCommonEvent, .GetEventWorks eventID, .Run split.1 split.2]
                ++ result.map (fun res => Call.SendReport (makeReport res)
                    (a.SendReport (makeReport res)))
                ++ [.CloseTask tasksID (a.CloseTask tasksID), .CheckCacheSize (some ok)],
                .ok true)

/-- Acknowledgments among the calls of a run: the `CloseTask` and `CloseTaskWithError`
calls, in order. -/
def acknowledgments (calls : List Call) : List Call :=
  calls.filter fun c =>
    match c with
    | .CloseTask _ _ => true
    | .CloseTaskWithError _ _ => true
    | _ => false

/-- Whether the batch fails in `process`: listing the works of the event returns an error,
or the checker is run (more than one work resolved) and its `Run` returns an error. -/
def batchFails (a : Services) (tasks : List Task) (eventID : Nat) : Bool :=
  match a.GetEventWorks eventID with
  | .error _ => false
  | .ok none => true
  | .ok (some works) =>
    decide (1 < works.length) &&
      match a.Run (splitWorks (tasks.map (·.WorkID)) works).1
          (splitWorks (tasks.map (·.WorkID)) works).2 with
      | .ok none => true
      | _ => false

/-- Whether the calls that `process` makes before it acknowledges the batch return:
`GetEventWorks`, and `Run` when the checker is run (more than one work resolved). -/
def calleesReturn (a : Services) (tasks : List Task) (eventID : Nat) : Bool :=
  match a.GetEventWorks eventID with
  | .error _ => false
  | .ok none => true
  | .ok (some works) =>
    decide (works.length ≤ 1) ||
      match a.Run (splitWorks (tasks.map (·.WorkID)) works).1
          (splitWorks (tasks.map (·.WorkID)) works).2 with
      | .error _ => false
      | .ok _ => true

/-! ### Strings and paths

Go measures and slices a string in bytes.  Here a string is a sequence of units with one
`Char` for each byte; for ASCII text, which is what the engine writes for identifiers and
separators, the two views are the same. -/

/-- The slice expression `s[n:]`: a run-time panic when `n` exceeds `len(s)`. -/
def sliceFrom (s : String) (n : Nat) : Except Fault String :=
  if n ≤ s.length then .ok ⟨s.data.drop n⟩ else .error .outOfRange

/-- The expression `strings.Split(s, "_")[0]`: the text before the first `_`, the whole of
`s` when it holds none. -/
def firstField (s : String) : String := ⟨s.data.takeWhile (fun c => c ≠ '_')⟩

/-- The call `strconv.ParseUint(s, 10, 64)` of the Go library: `none` is a non-nil error
(empty text, a character that is not a decimal digit, or a value of `2 ^ 64` or more). -/
def ParseUint (s : String) : Option Nat :=
  if s.data = [] then none
  else if s.data.all Char.isDigit then
    let v := s.data.foldl (fun acc c => acc * 10 + (c.toNat - '0'.toNat)) 0
    if v < U64 then some v else none
  else none

/-- Fields of a slash-separated path. -/
def splitSlash (cs : List Char) : List (List Char) :=
  cs.foldr
    (fun c acc =>
      if c = '/' then [] :: acc
      else
        match acc with
        | [] => [[c]]
        | x :: xs => (c :: x) :: xs)
    [[]]

/-- One step of `path.Clean` of the Go library on the elements kept so far (last element
first): empty and `.` elements are dropped, `..` removes the element before it, is dropped
at the start of a rooted path and is kept otherwise. -/
def cleanStep (rooted : Bool) (kept : List (List Char)) (elem : List Char) : List (List Char) :=
  if elem = [] ∨ elem = ['.'] then kept
  else if elem = ['.', '.'] then
    match kept with
    | [] => if rooted then [] else [elem]
    | top :: below => if top = ['.', '.'] then elem :: kept else below
  else elem :: kept

/-- The function `path.Clean` of the Go library, from its documentation. -/
def pathClean (p : String) : String :=
  let rooted := p.data.head? = some '/'
  let kept := ((splitSlash p.data).foldl (cleanStep rooted) []).reverse
  let body := String.mk (List.intercalate ['/'] kept)
  if rooted then "/" ++ body else if kept = [] then "." else body

/-- The function `path.Join` of the Go library, from its documentation: the non-empty
elements joined with slashes and cleaned; the empty string when there is none. -/
def pathJoin (elems : List String) : String :=
  match elems.filter (fun e => e ≠ "") with
  | [] => ""
  | kept => pathClean (String.intercalate "/" kept)

/-! ### `internal/task/storage.go`: the index of cached works

The table `sqlWorksTable` is the list of its rows in the order in which a scan visits
them.  Its column `workId` is declared `integer primary key`, which makes it the row id of
SQLite: a scan visits the rows in ascending `workId`. -/

/-- Whether `database/sql` accepts a `uint64` as the argument of a query: it refuses a
value with the high bit set. -/
def sqlArgument (id : Nat) : Bool := decide (id < 2 ^ 63)

/-- The method `storage.GetWork`: the row of the work, `none` for an error: the argument is
refused, or the query has no row. -/
def GetWork (index : List WorkEntry) (id : Nat) : Option WorkEntry :=
  if sqlArgument id then index.find? (fun w => w.WorkID = id) else none

/-- The method `storage.SaveWork`: `none` is an error: the argument `workID` is refused, or
the primary key `workId` is already present; otherwise the row takes its place in the order
of `workId`.  The time is stored as the text `timestamp.Format(workTimeFormat)`. -/
def SaveWork (index : List WorkEntry) (workID : Nat) (path : String) (timestamp : Time) :
    Option (List WorkEntry) :=
  if !sqlArgument workID || index.any (fun w => w.WorkID = workID) then none
  else some (index.orderedInsert (fun a b => a.WorkID ≤ b.WorkID)
    ⟨workID, path, timestamp.Format⟩)

/-- The method `storage.UpdateWorksTimestamp`: the rows of `ids` take the text
`timestamp.Format(workTimeFormat)` as their time. -/
def UpdateWorksTimestamp (index : List WorkEntry) (ids : List Nat) (timestamp : Time) :
    List WorkEntry :=
  index.map fun w => if w.WorkID ∈ ids then { w with Timestamp := timestamp.Format } else w

/-- The method `storage.GetOldWorks`, query `select ... order by time LIMIT $1`: the first
`count` rows in ascending order of the text in the column `time`.  SQL leaves the order of
rows of equal `time` open; they are taken here in scan order. -/
def GetOldWorks (index : List WorkEntry) (count : Nat) : List WorkEntry :=
  (index.insertionSort (fun a b => a.Timestamp ≤ b.Timestamp)).take count

/-- The method `storage.DeleteWorks`, query `delete ... where workId in (ids)`. -/
def DeleteWorks (index : List WorkEntry) (ids : List Nat) : List WorkEntry :=
  index.filter (fun w => decide (w.WorkID ∉ ids))

/-! ### `internal/task/service.go`: resolving the works of an event -/

/-- Outcome of fetching one work: `downloadFile`, `prepareWorkDirectory` and `unzipWork`
in `downloadWork`. -/
inductive Fetch where
  /-- the archive was downloaded and extracted -/
  | done
  /-- the response status was not 200: `ErrNoWork` -/
  | noWork
  /-- another error of the download, of the directory or of the archive -/
  | failed
  /-- the response has status 200 and declares no length: `res.ContentLength` is -1 and
  `make([]byte, res.ContentLength)` in `downloadFile` is a run-time panic (service.go 237) -/
  | lengthUnknown
deriving DecidableEq

/-- What lies outside the process during one call of the service: the answers of the
orchestrator, the outcome of each download and the clock.  `none` is a non-nil error.  An
item of a link response may be nil. -/
structure Remote where
  GetWorksOfEvent : Nat → Option (List Nat)
  GetWorksDownloadLinks : List Nat → Option (List (Option WorkUrl))
  fetch : Nat → String → Fetch
  now : Time

/-- The method `service.GetWorkPath`. -/
def GetWorkPath (root : String) (workID : Nat) : String :=
  pathJoin [root, "works", toString workID]

/-- The method `service.getWorksID`. -/
def getWorksID (r : Remote) (eventID : Nat) : Option (List Nat) :=
  r.GetWorksOfEvent eventID

/-- The method `service.getWorksEntry`: the rows found, the IDs without a row, and the index
after the time of the found rows is updated. -/
def getWorksEntry (r : Remote) (index : List WorkEntry) (ids : List Nat) :
    List WorkEntry × List Nat × List WorkEntry :=
  let works := ids.filterMap (GetWork index)
  let notFound := ids.filter (fun id => (GetWork index id).isNone)
  let found := ids.filter (fun id => (GetWork index id).isSome)
  (works, notFound, UpdateWorksTimestamp index found r.now)

/-- The method `service.getDownloadUrls`: the result has one element for each item of the
response, and the element of a nil item keeps the zero value of `WorkUrl`. -/
def getDownloadUrls (r : Remote) (ids : List Nat) : Option (List WorkUrl) :=
  match r.GetWorksDownloadLinks ids with
  | none => none
  | some items =>
    some (items.map fun item =>
      match item with
      | none => ⟨0, ""⟩
      | some link => ⟨link.WorkID, link.Url⟩)

/-- The method `service.downloadWork`: the entry returned, whether the error is non-nil, and
the index afterwards; `.error` when `downloadFile` panics.  The entry is built from `Path`
and `Timestamp` only (service.go 306-309), so its `WorkID` is the zero value.  A failure of
`SaveWork` is not reported. -/
def downloadWork (r : Remote) (root : String) (index : List WorkEntry) (workID : Nat)
    (url : String) : Except Fault (WorkEntry × Bool × List WorkEntry) :=
  let work : WorkEntry :=
    { WorkID := 0, Path := GetWorkPath root workID, Timestamp := r.now.Format }
  match r.fetch workID url with
  | .done =>
    match SaveWork index workID work.Path r.now with
    | none => .ok (work, false, index)
    | some index1 => .ok (work, false, index1)
  | .lengthUnknown => .error .outOfRange
  | _ => .ok (work, true, index)

/-- The loop of `service.downloadWorks` (service.go 181-193) over the resolved links; a
panic in one download ends it. -/
def downloadEach (r : Remote) (root : String) :
    List WorkUrl → List WorkEntry → List WorkEntry →
      Except Fault (List WorkEntry × List WorkEntry)
  | [], result, index => .ok (result, index)
  | url :: urls, result, index =>
    match downloadWork r root index url.WorkID url.Url with
    | .error fault => .error fault
    | .ok (work, false, index1) => downloadEach r root urls (result ++ [work]) index1
    | .ok (_, true, index1) => downloadEach r root urls result index1

/-- The method `service.downloadWorks`: the entries (`none` for a nil slice), whether the
error is non-nil, and the index afterwards.  The error returned at the end is the variable
of line 174, which is nil there: the errors of the loop are variables of its body. -/
def downloadWorks (r : Remote) (root : String) (index : List WorkEntry) (ids : List Nat) :
    Except Fault (Option (List WorkEntry) × Bool × List WorkEntry) :=
  if ids.length = 0 then .ok (some [], false, index)
  else
    match getDownloadUrls r ids with
    | none => .ok (none, true, index)
    | some urls =>
      match downloadEach r root urls [] index with
      | .error fault => .error fault
      | .ok out => .ok (some out.1, false, out.2)

/-- The method `service.GetEventWorks`: the entries (`none` for a non-nil error) and the index
afterwards. -/
def GetEventWorks (r : Remote) (root : String) (index : List WorkEntry) (eventID : Nat) :
    Except Fault (Option (List WorkEntry) × List WorkEntry) :=
  match getWorksID r eventID with
  | none => .ok (none, index)
  | some ids =>
    match getWorksEntry r index ids with
    | (works, notFound, index1) =>
      if notFound.length = 0 then .ok (some works, index1)
      else
        match downloadWorks r root index1 notFound with
        | .error fault => .error fault
        | .ok (_, true, index2) => .ok (some works, index2)
        | .ok (downloaded, false, index2) => .ok (some (works ++ downloaded.getD []), index2)

/-- A cold cache: an empty index, a group of works 5, 7 and 9 for every event, a link and a
successful download for each of them. -/
def coldRemote : Remote :=
  { GetWorksOfEvent := fun _ => some [5, 7, 9]
    GetWorksDownloadLinks := fun ids => some (ids.map fun id => some ⟨id, "u"⟩)
    fetch := fun _ _ => .done
    now := ⟨100, 0, 0⟩ }

/-! ### `internal/checker/jplag.go`: decoding the result archive -/

/-- The record `checker.SimilarityDTO`; the `float64` values are held as their 64-bit
patterns. -/
structure SimilarityDTO where
  Avg : Nat
  Max : Nat
deriving DecidableEq

/-- The record `checker.MatchDTO`. -/
structure MatchDTO where
  File1 : String
  File2 : String
  Start1 : Nat
  Start2 : Nat
  Start1Col : Nat
  Start2Col : Nat
  End1 : Nat
  End2 : Nat
  End1Col : Nat
  End2Col : Nat
deriving DecidableEq

/-- The record `checker.ResultDTO`. -/
structure ResultDTO where
  ID1 : String
  ID2 : String
  Similarities : SimilarityDTO
  Matches : List MatchDTO
  FirstSimilarity : Nat
  SecondSimilarity : Nat
deriving DecidableEq

/-- An entry `*zip.File` of the result archive: its name and what `f.Open`, `io.ReadAll` and
`json.Unmarshal` give for it, `none` when one of the three returns an error. -/
structure ZipFile where
  Name : String
  decoded : Option ResultDTO
deriving DecidableEq

/-- The test of jplag.go 129-133: an entry that is not read. -/
def isAuxiliary (name : String) : Bool :=
  "files".data.isPrefixOf name.data ||
    name = "options.json" ||
    name = "overview.json" ||
    name = "README.txt" ||
    name = "submissionFileIndex.json"

/-- The body of the loop of `readItem` (jplag.go 177-201) for one match.  `files` gives the
content of the file at a path, as `getPositions` reads it. -/
def readMatch (root : String) (files : String → Option (List Char)) (work1ID work2ID : Nat)
    (f1Skip f2Skip : Nat) (matchDTO : MatchDTO) : Except Fault MatchItem := do
  let work1File ← sliceFrom matchDTO.File1 f1Skip
  let work2File ← sliceFrom matchDTO.File2 f2Skip
  let rest1 ← sliceFrom matchDTO.File1 (f1Skip / 2)
  let rest2 ← sliceFrom matchDTO.File2 (f2Skip / 2)
  let work1Path := pathJoin [GetWorkPath root work1ID, rest1]
  let work2Path := pathJoin [GetWorkPath root work2ID, rest2]
  let pos1 ← getPositions (files work1Path) matchDTO.Start1 matchDTO.Start1Col
    matchDTO.End1 matchDTO.End1Col
  let pos2 ← getPositions (files work2Path) matchDTO.Start2 matchDTO.Start2Col
    matchDTO.End2 matchDTO.End2Col
  pure
    { Work1File := work1File
      Work1Start := pos1.start
      Work1Size := pos1.size
      Work2File := work2File
      Work2Start := pos2.start
      Work2Size := pos2.size }

/-- The loop of `readItem` (jplag.go 177-201) over the matches of an entry: the items are
appended in order, and a panic in one match ends the loop. -/
def readMatches (root : String) (files : String → Option (List Char)) (work1ID work2ID : Nat)
    (f1Skip f2Skip : Nat) : List MatchDTO → Except Fault (List MatchItem)
  | [] => .ok []
  | matchDTO :: rest =>
    match readMatch root files work1ID work2ID f1Skip f2Skip matchDTO with
    | .error e => .error e
    | .ok item =>
      match readMatches root files work1ID work2ID f1Skip f2Skip rest with
      | .error e => .error e
      | .ok items => .ok (item :: items)

/-- The method `jplag.readItem` (jplag.go 127-204): the report (`none` for nil) and whether
the error is non-nil.  `root` is the root of the service behind `GetWorkPath`. -/
def readItem (root : String) (files : String → Option (List Char)) (f : ZipFile) :
    Except Fault (Option ReportItem × Bool) :=
  if isAuxiliary f.Name then .ok (none, false)
  else
    match f.decoded with
    | none => .ok (none, true)
    | some result =>
      match ParseUint (firstField result.ID1) with
      | none => .ok (none, true)
      | some work1ID =>
        match ParseUint (firstField result.ID2) with
        | none => .ok (none, true)
        | some work2ID =>
          let f1Skip := result.ID1.length + 1
          let f2Skip := result.ID2.length + 1
          match readMatches root files work1ID work2ID f1Skip f2Skip result.Matches with
          | .error e => .error e
          | .ok items =>
            .ok (some
              { Work1ID := work1ID
                Work2ID := work2ID
                Avg := result.Similarities.Avg
                Max := result.Similarities.Max
                Matches := items }, false)

/-- The loop of `jplag.parse` (jplag.go 110-121) over the entries of the archive. -/
def parseEach (root : String) (files : String → Option (List Char)) :
    List ZipFile → List ReportItem → Except Fault (List ReportItem)
  | [], reports => .ok reports
  | f :: rest, reports =>
    match readItem root files f with
    | .error e => .error e
    | .ok (some report, _) => parseEach root files rest (reports ++ [report])
    | .ok (none, _) => parseEach root files rest reports

/-- The method `jplag.parse` (jplag.go 100-124): the reports and whether the error is non-nil.
`archive` is `none` when `zip.OpenReader` fails, otherwise the entries in archive order. -/
def parse (root : String) (files : String → Option (List Char)) (archive : Option (List ZipFile)) :
    Except Fault (List ReportItem × Bool) :=
  match archive with
  | none => .ok ([], true)
  | some entries =>
    match parseEach root files entries [] with
    | .error e => .error e
    | .ok reports => .ok (reports, false)

/-- The method `jplag.Run` (jplag.go 40-57): `exec` runs the engine, which writes the result
archive, and `parse` reads it.  `execFails` is a non-nil error of `exec`; the result `none`
is a non-nil error of `Run`, and `.error` is a panic of `parse`. -/
def Run (root : String) (files : String → Option (List Char)) (execFails : Bool)
    (archive : Option (List ZipFile)) : Except Fault (Option (List ReportItem)) :=
  if execFails then .ok none
  else
    match parse root files archive with
    | .error fault => .error fault
    | .ok (_, true) => .ok none
    | .ok (result, false) => .ok (some result)

/-- Whether `readItem` gets as far as building a report for the entry: it is not auxiliary,
it is valid JSON and the prefixes of its two composite IDs parse. -/
def decodable (f : ZipFile) : Bool :=
  !isAuxiliary f.Name &&
    match f.decoded with
    | none => false
    | some result =>
      (ParseUint (firstField result.ID1)).isSome && (ParseUint (firstField result.ID2)).isSome

/-- Whether every match of the entry has file paths at least as long as the composite ID of
their side plus one separator (vacuous for an entry that is not valid JSON). -/
def pathsFit (f : ZipFile) : Bool :=
  match f.decoded with
  | none => true
  | some result =>
    result.Matches.all fun m =>
      decide (result.ID1.length + 1 ≤ m.File1.length) &&
        decide (result.ID2.length + 1 ≤ m.File2.length)

/-- An entry that is valid JSON, with IDs `5_5` and `7_7`, whose one match has file paths
shorter than the IDs. -/
def shortPathEntry : ZipFile :=
  { Name := "5_5-7_7.json"
    decoded := some
      { ID1 := "5_5"
        ID2 := "7_7"
        Similarities := ⟨0, 0⟩
        Matches := [⟨"5_5", "7_7", 1, 1, 1, 1, 1, 1, 2, 2⟩]
        FirstSimilarity := 0
        SecondSimilarity := 0 } }

/-- An entry as the engine writes it: IDs `5_5` and `7_7`, one match between `a.cs` of each
side. -/
def goodEntry : ZipFile :=
  { Name := "5_5-7_7.json"
    decoded := some
      { ID1 := "5_5"
        ID2 := "7_7"
        Similarities := ⟨0, 0⟩
        Matches := [⟨"5_5/a.cs", "7_7/a.cs", 1, 2, 1, 1, 1, 2, 2, 2⟩]
        FirstSimilarity := 0
        SecondSimilarity := 0 } }

/-- An entry that is not valid JSON. -/
def malformedEntry : ZipFile := { Name := "1_1-2_2.json", decoded := none }

/-- A store root `storage` in which `a.cs` of works 5 and 7 holds `a b \n c d \n`. -/
def sampleFiles (path : String) : Option (List Char) :=
  if path = "storage/works/5/5/a.cs" ∨ path = "storage/works/7/7/a.cs" then some abcd else none

/-! ### `internal/task/service.go`, `internal/utils/utils.go`: the quota of the store -/

/-- What lies below the store root: the directories of works (path and recursive byte
size), the bytes outside them (the index file `data.db` and anything else), and the paths
on which `os.RemoveAll` fails, each with the number of bytes below it that cannot be
removed. -/
structure Disk where
  dirs : List (String × Nat)
  other : Nat
  undeletable : List (String × Nat)
deriving DecidableEq

/-- Total byte size of the regular files below the store root. -/
def rootSize (d : Disk) : Nat := (d.dirs.map (·.2)).sum + d.other

/-- The function `utils.GetDirectorySize` on a directory of a work: the byte size of what
lies at the path, converted from `int64` to `uint64`; `none` is the error of a path that
does not exist. -/
def GetDirectorySize (d : Disk) (path : String) : Option Nat :=
  if d.dirs.any (fun x => x.1 = path) then
    some (((d.dirs.filter (fun x => x.1 = path)).map (·.2)).sum % U64)
  else none

/-- The function `os.RemoveAll`: the disk afterwards and whether the error is non-nil.  On
a path that does not exist it does nothing and returns nil.  When it fails it has removed
what it could before it returns the error: of the bytes below the path, at most the `left`
bytes of the entry `(path, left)` of `undeletable` remain. -/
def RemoveAll (d : Disk) (path : String) : Disk × Bool :=
  if d.dirs.any (fun x => x.1 = path) then
    match d.undeletable.lookup path with
    | some left =>
      ({ d with dirs := d.dirs.map (fun x => if x.1 = path then (x.1, min x.2 left) else x) },
        true)
    | none => ({ d with dirs := d.dirs.filter (fun x => x.1 ≠ path) }, false)
  else (d, false)

/-- The store of the service: the index, the disk below the root, and which calls fail:
`utils.GetDirectorySize` on the root, `storage.GetOldWorks`, `storage.DeleteWorks`. -/
structure Store where
  index : List WorkEntry
  disk : Disk
  sizeFails : Bool
  queryFails : Bool
  deleteFails : Bool
deriving DecidableEq

/-- The first loop of `removeOldWorks` (service.go 411-427): the disk and the counter
`removed` after the directories of `works` are measured and deleted. -/
def removeDirs : List WorkEntry → Disk → Nat → Disk × Nat
  | [], d, removed => (d, removed)
  | work :: rest, d, removed =>
    match GetDirectorySize d work.Path with
    | none => removeDirs rest d removed
    | some rm =>
      match RemoveAll d work.Path with
      | (d1, true) => removeDirs rest d1 removed
      | (d1, false) => removeDirs rest d1 ((removed + rm) % U64)

/-- The method `service.removeOldWorks` (service.go 401-441): the bytes reported as freed,
whether the error is non-nil, and the store afterwards. -/
def removeOldWorks (s : Store) : Nat × Bool × Store :=
  if s.queryFails then (0, true, s)
  else
    let works := GetOldWorks s.index 10
    if works.length = 0 then (0, false, s)
    else
      let out := removeDirs works s.disk 0
      let ids := works.map (·.WorkID)
      if s.deleteFails then (out.2, false, { s with disk := out.1 })
      else (out.2, false, { s with disk := out.1, index := DeleteWorks s.index ids })

/-- State of a call of `CheckCacheSize`: it has returned, with an error or not, leaving a
store; or it is at the head of its loop with the guard `limit < size` true after the
iterations it was given. -/
inductive Progress where
  | returned (err : Bool) (s : Store)
  | looping (size : Nat) (s : Store)
deriving DecidableEq

/-- The loop of `CheckCacheSize` (service.go 454-462) run for at most `fuel` iterations from
the running `size` and the store `s`. -/
def checkLoop (limit : Nat) : Nat → Nat → Store → Progress
  | 0, size, s => if limit < size then .looping size s else .returned false s
  | fuel + 1, size, s =>
    if limit < size then
      match removeOldWorks s with
      | (_, true, s1) => .returned true s1
      | (removed, false, s1) => checkLoop limit fuel ((size + U64 - removed) % U64) s1
    else .returned false s

/-- The limit in bytes of service.go 451, from the configured size in megabytes. -/
def limitBytes (sizeMB : Nat) : Nat := sizeMB * 1024 * 1024 % U64

/-- The method `service.CheckCacheSize` (service.go 444-465) for a service of limit `sizeMB`,
its loop run for at most `fuel` iterations. -/
def CheckCacheSize (sizeMB : Nat) (fuel : Nat) (s : Store) : Progress :=
  if s.sizeFails then .returned true s
  else checkLoop (limitBytes sizeMB) fuel (rootSize s.disk % U64) s

/-- A store of limit 50 MB with an empty index and, below its root, one directory of
50 MB and one byte that no record names. -/
def orphanStore : Store :=
  { index := []
    disk := { dirs := [("storage/works/3", 52428801)], other := 0, undeletable := [] }
    sizeFails := false
    queryFails := false
    deleteFails := false }

/-- A store with one record, work 3, whose directory of 50 MB and one byte cannot be
deleted, nor anything below it. -/
def stuckStore : Store :=
  { index := [⟨3, "storage/works/3", 7⟩]
    disk := { dirs := [("storage/works/3", 52428801)], other := 0,
              undeletable := [("storage/works/3", 52428801)] }
    sizeFails := false
    queryFails := false
    deleteFails := false }

/-- A store with three records and directories of 30 MB each. -/
def fullStore : Store :=
  { index := [⟨3, "storage/works/3", 7⟩, ⟨4, "storage/works/4", 5⟩, ⟨5, "storage/works/5", 9⟩]
    disk := { dirs := [("storage/works/3", 31457280), ("storage/works/4", 31457280),
                ("storage/works/5", 31457280)], other := 4096, undeletable := [] }
    sizeFails := false
    queryFails := false
    deleteFails := false }

/-- A remote in which both links of the request `[9, 11]` resolve and only the download of
work 11 succeeds. -/
def partialRemote : Remote :=
  { GetWorksOfEvent := fun _ => some [9, 11]
    GetWorksDownloadLinks := fun _ => some [some ⟨9, "u9"⟩, some ⟨11, "u11"⟩]
    fetch := fun workID _ => if workID = 11 then .done else .failed
    now := ⟨100, 0, 0⟩ }

/-- A remote whose link response for the request `[9, 11]` holds a nil item and the link
of work 11. -/
def nilItemRemote : Remote :=
  { GetWorksOfEvent := fun _ => some [9, 11]
    GetWorksDownloadLinks := fun _ => some [none, some ⟨11, "u11"⟩]
    fetch := fun workID _ => if workID = 11 then .done else .failed
    now := ⟨100, 0, 0⟩ }

/-- Whether a round of eviction over `works` deletes the directory entry `x` of the disk
`d`: its path is the path of one of the works and `os.RemoveAll` does not fail on it. -/
def isDeleted (works : List WorkEntry) (d : Disk) (x : String × Nat) : Bool :=
  decide (x.1 ∈ works.map (·.Path)) && (d.undeletable.lookup x.1).isNone

/-- What a round of eviction over `works` leaves of a directory entry `x` of the disk `d`
that it does not delete: when `os.RemoveAll` is called on it and fails, the bytes that
cannot be removed; otherwise the entry as it is. -/
def leftOver (works : List WorkEntry) (d : Disk) (x : String × Nat) : String × Nat :=
  if x.1 ∈ works.map (·.Path) then
    match d.undeletable.lookup x.1 with
    | some left => (x.1, min x.2 left)
    | none => x
  else x

/-- A store with two records whose deletion from the index fails: the directory of work 3
holds 1010 bytes of which 10 cannot be removed, the directory of work 4 can be removed. -/
def partStore : Store :=
  { index := [⟨3, "storage/works/3", 7⟩, ⟨4, "storage/works/4", 5⟩]
    disk := { dirs := [("storage/works/3", 1010), ("storage/works/4", 2000)], other := 0,
              undeletable := [("storage/works/3", 10)] }
    sizeFails := false
    queryFails := false
    deleteFails := true }

/-- The store at service.go 428, between the two parts of `removeOldWorks`: the directories
of the selected works have gone through the first loop and `DeleteWorks` is not yet
called. -/
def afterRemoveDirs (s : Store) : Store :=
  { s with disk := (removeDirs (GetOldWorks s.index 10) s.disk 0).1 }

/-- Records of the index whose directory is not on the disk. -/
def ghostRecords (s : Store) : List WorkEntry :=
  s.index.filter fun w => (GetDirectorySize s.disk w.Path).isNone

/-- An element that `path.Clean` keeps as a name: it is not empty, not `.`, not `..`, and
holds no slash. -/
def PlainElem (e : List Char) : Prop :=
  e ≠ [] ∧ e ≠ ['.'] ∧ e ≠ ['.', '.'] ∧ '/' ∉ e

/-- Shape of the elements that `path.Clean` has kept (last element first): names, and below
them the `..` elements that lead a path that is not rooted. -/
def CleanStack (rooted : Bool) (kept : List (List Char)) : Prop :=
  ∃ (names : List (List Char)) (n : Nat),
    kept = names ++ List.replicate n ['.', '.'] ∧ (∀ e ∈ names, PlainElem e) ∧
      (rooted = true → n = 0)

/-- The place where `downloadWork` and `unzipItem` put the file `name` of the archive of a
work (service.go 312 and 266): `path.Join(unzipPath, name)` with
`unzipPath = path.Join(GetWorkPath(workID), FormatUint(workID))`. -/
def extractedPath (root : String) (workID : Nat) (name : String) : String :=
  pathJoin [pathJoin [GetWorkPath root workID, toString workID], name]

/-- The collaborators of `process` for a batch naming works 5 and 7 of event 1, with the
three works of the event resolved, when the result archive of the engine holds an entry
with a match path shorter than its ID: `Run` is `jplag.Run` on that archive. -/
def crashServices : Services :=
  { GetNewTasksOfCommonEvent := some [⟨1, 1, 5⟩, ⟨2, 1, 7⟩]
    GetEventWorks := fun _ =>
      .ok (some [⟨5, "storage/works/5", 0⟩, ⟨7, "storage/works/7", 0⟩,
        ⟨9, "storage/works/9", 0⟩])
    Run := fun _ _ => Run "storage" sampleFiles false (some [shortPathEntry])
    SendReport := fun _ => true
    CloseTask := fun _ => true
    CloseTaskWithError := fun _ => true
    CheckCacheSize := .ok true }

/-- A remote in which both links of the request `[9, 11]` resolve, the response for work 9
has status 200 and declares no length, and the download of work 11 succeeds. -/
def chunkedRemote : Remote :=
  { GetWorksOfEvent := fun _ => some [9, 11]
    GetWorksDownloadLinks := fun _ => some [some ⟨9, "u9"⟩, some ⟨11, "u11"⟩]
    fetch := fun workID _ => if workID = 11 then .done else .lengthUnknown
    now := ⟨100, 0, 0⟩ }

/-- The collaborators of `process` for a batch naming works 9 and 11 of event 1 on a cold
cache, when the response to the download of work 9 has status 200 and declares no length:
`GetEventWorks` is `service.GetEventWorks` on that remote. -/
def fetchCrashServices : Services :=
  { GetNewTasksOfCommonEvent := some [⟨1, 1, 9⟩, ⟨2, 1, 11⟩]
    GetEventWorks := fun eventID => (GetEventWorks chunkedRemote "storage" [] eventID).map (·.1)
    Run := fun _ _ => .ok (some [])
    SendReport := fun _ => true
    CloseTask := fun _ => true
    CloseTaskWithError := fun _ => true
    CheckCacheSize := .ok true }

/-! ## Theorems -/

/-! ### Arithmetic of `uint64` counters -/

theorem decU64_pos (m : Nat) (h0 : 0 < m) (hm : m < U64) : decU64 m = m - 1 := by
  unfold decU64 U64 at *
  omega

theorem decU64_iterate (k : Nat) : ∀ m : Nat, m < U64 → k ≤ m → decU64^[k] m = m - k := by
  induction k with
  | zero => intro m _ _; rfl
  | succ k ih =>
    intro m hm hk
    rw [Function.iterate_succ_apply, decU64_pos m (by omega) hm, ih (m - 1) (by omega) (by omega)]
    omega

/-! ### The line scans of `getPositions` -/

theorem lineStart_le : ∀ (cs : List Char) (k j : Nat), lineStart cs k = some j → j ≤ cs.length := by
  intro cs
  induction cs with
  | nil =>
    intro k j h
    cases k with
    | zero => simp [lineStart] at h; omega
    | succ k => simp [lineStart] at h
  | cons c cs ih =>
    intro k j h
    cases k with
    | zero => simp [lineStart] at h; omega
    | succ k =>
      simp only [lineStart] at h
      split at h
      · cases h1 : lineStart cs k with
        | none => simp [h1] at h
        | some i =>
          simp [h1] at h
          have := ih k i h1
          simp; omega
      · cases h1 : lineStart cs (k + 1) with
        | none => simp [h1] at h
        | some i =>
          simp [h1] at h
          have := ih (k + 1) i h1
          simp; omega

theorem lineStart_none_iff : ∀ (cs : List Char) (k : Nat),
    lineStart cs k = none ↔ cs.count '\n' < k := by
  intro cs
  induction cs with
  | nil =>
    intro k
    cases k with
    | zero => simp [lineStart]
    | succ k => simp [lineStart]
  | cons c cs ih =>
    intro k
    cases k with
    | zero => simp [lineStart]
    | succ k =>
      simp only [lineStart]
      by_cases hc : c = '\n'
      · subst hc
        simp [ih k]
      · have hc2 : ¬ (('\n' : Char) = c) := fun h => hc h.symm
        simp [hc, ih (k + 1), List.count_cons, hc2]

theorem drop_cons_of_lt (runes : List Char) (idx : Nat) (h : idx < runes.length) :
    runes[idx]? = some (runes.get ⟨idx, h⟩) ∧
      runes.drop idx = runes.get ⟨idx, h⟩ :: runes.drop (idx + 1) := by
  constructor
  · simp [List.getElem?_eq_getElem h]
  · exact List.drop_eq_getElem_cons h

/-- When the suffix from `idx` holds `k` newlines, the first loop started with `n = k + 1`
stops just after the `k`-th of them with `n = 1`, having decremented `m` `k` times. -/
theorem skipLines_some (runes : List Char) : ∀ (fuel idx k m j : Nat),
    runes.length - idx ≤ fuel → lineStart (runes.drop idx) k = some j →
    skipLines runes fuel idx (k + 1) m = .ok (idx + j, 1, decU64^[k] m) := by
  intro fuel
  induction fuel with
  | zero =>
    intro idx k m j hf h
    have hd : runes.drop idx = [] := by simp; omega
    cases k with
    | zero => simp [lineStart] at h; subst h; simp [skipLines]
    | succ k => simp [hd, lineStart] at h
  | succ fuel ih =>
    intro idx k m j hf h
    cases k with
    | zero => simp [lineStart] at h; subst h; simp [skipLines]
    | succ k =>
      by_cases hlt : idx < runes.length
      · obtain ⟨hget, hdrop⟩ := drop_cons_of_lt runes idx hlt
        rw [hdrop] at h
        simp only [lineStart] at h
        rw [skipLines]
        have hg : idx < runes.length ∧ k + 1 + 1 > 1 := ⟨hlt, by omega⟩
        rw [if_pos hg, hget]
        simp only [Nat.add_sub_cancel]
        split at h
        · rename_i hc
          cases h1 : lineStart (runes.drop (idx + 1)) k with
          | none => rw [h1] at h; cases h
          | some i =>
            rw [h1] at h
            simp only [Option.map_some', Option.some.injEq] at h
            rw [if_pos hc, ih (idx + 1) k (decU64 m) i (by omega) h1, Function.iterate_succ_apply]
            subst h
            rw [Nat.add_assoc, Nat.add_comm 1 i]
        · rename_i hc
          cases h1 : lineStart (runes.drop (idx + 1)) (k + 1) with
          | none => rw [h1] at h; cases h
          | some i =>
            rw [h1] at h
            simp only [Option.map_some', Option.some.injEq] at h
            rw [if_neg hc, ih (idx + 1) (k + 1) m i (by omega) h1]
            subst h
            rw [Nat.add_assoc, Nat.add_comm 1 i]
      · have hd : runes.drop idx = [] := by simp; omega
        simp [hd, lineStart] at h

/-- When the suffix from `idx` holds fewer than `k` newlines, the first loop started with
`n = k + 1` runs to the end of the content. -/
theorem skipLines_none (runes : List Char) : ∀ (fuel idx k m : Nat),
    runes.length - idx ≤ fuel → lineStart (runes.drop idx) k = none →
    ∃ n1 m1, skipLines runes fuel idx (k + 1) m = .ok (max idx runes.length, n1, m1) := by
  intro fuel
  induction fuel with
  | zero =>
    intro idx k m hf _
    have hle : runes.length ≤ idx := by omega
    refine ⟨k + 1, m, ?_⟩
    rw [skipLines, if_neg (by omega), Nat.max_eq_left hle]
  | succ fuel ih =>
    intro idx k m hf h
    cases k with
    | zero => simp only [lineStart] at h; cases h
    | succ k =>
      by_cases hlt : idx < runes.length
      · obtain ⟨hget, hdrop⟩ := drop_cons_of_lt runes idx hlt
        rw [hdrop] at h
        simp only [lineStart] at h
        rw [skipLines]
        have hg : idx < runes.length ∧ k + 1 + 1 > 1 := ⟨hlt, by omega⟩
        rw [if_pos hg, hget]
        simp only [Nat.add_sub_cancel]
        have hmax : max idx runes.length = max (idx + 1) runes.length := by
          rw [Nat.max_eq_right (by omega), Nat.max_eq_right (by omega)]
        split at h
        · rename_i hc
          cases h1 : lineStart (runes.drop (idx + 1)) k with
          | some i => rw [h1] at h; cases h
          | none =>
            rw [if_pos hc, hmax]
            exact ih (idx + 1) k (decU64 m) (by omega) h1
        · rename_i hc
          cases h1 : lineStart (runes.drop (idx + 1)) (k + 1) with
          | some i => rw [h1] at h; cases h
          | none =>
            rw [if_neg hc, hmax]
            exact ih (idx + 1) (k + 1) m (by omega) h1
      · have hle : runes.length ≤ idx := by omega
        refine ⟨k + 1 + 1, m, ?_⟩
        rw [skipLines, if_neg (by omega), Nat.max_eq_left hle]

/-- The second loop started at `idx` with `m = k + 1` stops just after the `k`-th newline
of the suffix from `idx`. -/
theorem skipToEnd_some (runes : List Char) : ∀ (fuel idx k j : Nat),
    runes.length - idx ≤ fuel → lineStart (runes.drop idx) k = some j →
    skipToEnd runes fuel idx (k + 1) = .ok (idx + j) := by
  intro fuel
  induction fuel with
  | zero =>
    intro idx k j hf h
    have hd : runes.drop idx = [] := List.drop_eq_nil_of_le (by omega)
    cases k with
    | zero =>
      simp only [lineStart, Option.some.injEq] at h
      subst h
      rw [skipToEnd, if_neg (by omega), Nat.add_zero]
    | succ k => rw [hd] at h; simp only [lineStart] at h; cases h
  | succ fuel ih =>
    intro idx k j hf h
    cases k with
    | zero =>
      simp only [lineStart, Option.some.injEq] at h
      subst h
      rw [skipToEnd, if_neg (by omega), Nat.add_zero]
    | succ k =>
      by_cases hlt : idx < runes.length
      · obtain ⟨hget, hdrop⟩ := drop_cons_of_lt runes idx hlt
        rw [hdrop] at h
        simp only [lineStart] at h
        rw [skipToEnd]
        have hg : idx < runes.length ∧ k + 1 + 1 > 1 := ⟨hlt, by omega⟩
        rw [if_pos hg, hget]
        simp only [Nat.add_sub_cancel]
        split at h
        · rename_i hc
          cases h1 : lineStart (runes.drop (idx + 1)) k with
          | none => rw [h1] at h; cases h
          | some i =>
            rw [h1] at h
            simp only [Option.map_some', Option.some.injEq] at h
            rw [if_pos hc, ih (idx + 1) k i (by omega) h1]
            subst h
            rw [Nat.add_assoc, Nat.add_comm 1 i]
        · rename_i hc
          cases h1 : lineStart (runes.drop (idx + 1)) (k + 1) with
          | none => rw [h1] at h; cases h
          | some i =>
            rw [h1] at h
            simp only [Option.map_some', Option.some.injEq] at h
            rw [if_neg hc, ih (idx + 1) (k + 1) i (by omega) h1]
            subst h
            rw [Nat.add_assoc, Nat.add_comm 1 i]
      · have hd : runes.drop idx = [] := List.drop_eq_nil_of_le (by omega)
        rw [hd] at h; simp only [lineStart] at h; cases h

/-- The second loop started at `idx` with `m = k + 1` runs to the end of the content, or
does not move when `idx` is already past it, when the suffix from `idx` holds fewer than
`k` newlines. -/
theorem skipToEnd_none (runes : List Char) : ∀ (fuel idx k : Nat),
    runes.length - idx ≤ fuel → lineStart (runes.drop idx) k = none →
    skipToEnd runes fuel idx (k + 1) = .ok (max idx runes.length) := by
  intro fuel
  induction fuel with
  | zero =>
    intro idx k hf _
    have hle : runes.length ≤ idx := by omega
    rw [skipToEnd, if_neg (by omega), Nat.max_eq_left hle]
  | succ fuel ih =>
    intro idx k hf h
    cases k with
    | zero => simp only [lineStart] at h; cases h
    | succ k =>
      by_cases hlt : idx < runes.length
      · obtain ⟨hget, hdrop⟩ := drop_cons_of_lt runes idx hlt
        rw [hdrop] at h
        simp only [lineStart] at h
        rw [skipToEnd]
        have hg : idx < runes.length ∧ k + 1 + 1 > 1 := ⟨hlt, by omega⟩
        rw [if_pos hg, hget]
        simp only [Nat.add_sub_cancel]
        have hmax : max idx runes.length = max (idx + 1) runes.length := by
          rw [Nat.max_eq_right (by omega), Nat.max_eq_right (by omega)]
        split at h
        · rename_i hc
          cases h1 : lineStart (runes.drop (idx + 1)) k with
          | some i => rw [h1] at h; cases h
          | none =>
            rw [if_pos hc, hmax]
            exact ih (idx + 1) k (by omega) h1
        · rename_i hc
          cases h1 : lineStart (runes.drop (idx + 1)) (k + 1) with
          | some i => rw [h1] at h; cases h
          | none =>
            rw [if_neg hc, hmax]
            exact ih (idx + 1) (k + 1) (by omega) h1
      · have hle : runes.length ≤ idx := by omega
        rw [skipToEnd, if_neg (by omega), Nat.max_eq_left hle]

/-- The second loop returns whatever its counter is, once it has `length - idx` iterations
at its disposal. -/
theorem skipToEnd_total (runes : List Char) (fuel idx m : Nat) (hf : runes.length - idx ≤ fuel) :
    ∃ q, skipToEnd runes fuel idx m = .ok q := by
  cases m with
  | zero =>
    refine ⟨idx, ?_⟩
    cases fuel with
    | zero => rw [skipToEnd, if_neg (by omega)]
    | succ fuel => rw [skipToEnd, if_neg (by omega)]
  | succ k =>
    cases h : lineStart (runes.drop idx) k with
    | none => exact ⟨_, skipToEnd_none runes fuel idx k hf h⟩
    | some j => exact ⟨_, skipToEnd_some runes fuel idx k j hf h⟩

theorem scanEnd_ge (content : List Char) (s k : Nat) : s ≤ scanEnd content s k := by
  unfold scanEnd
  split
  · omega
  · exact Nat.le_max_left _ _

theorem skipToEnd_scanEnd (runes : List Char) (fuel idx k : Nat)
    (hf : runes.length - idx ≤ fuel) :
    skipToEnd runes fuel idx (k + 1) = .ok (scanEnd runes idx k) := by
  unfold scanEnd
  cases h : lineStart (runes.drop idx) k with
  | none => exact skipToEnd_none runes fuel idx k hf h
  | some j => exact skipToEnd_some runes fuel idx k j hf h

/-- The start offset computed by `getPositions` (jplag.go 245-248) from the index `p` at
which the first loop stopped. -/
theorem start_eq_startOffset (startLine startCol p : Nat) (hp : startLine ≠ 1 → 1 ≤ p) :
    (if startLine ≠ 1 then decU64 ((p + startCol) % U64) else (p + startCol) % U64)
      = startOffset startLine startCol p := by
  unfold startOffset decU64 U64
  by_cases h : startLine = 1
  · simp [h]
  · have := hp h
    simp only [h, ne_eq, not_false_eq_true, if_true, if_false]
    omega

theorem lineStart_succ_pos : ∀ (cs : List Char) (k j : Nat),
    lineStart cs (k + 1) = some j → 1 ≤ j := by
  intro cs
  induction cs with
  | nil => intro k j h; simp only [lineStart] at h; cases h
  | cons c cs ih =>
    intro k j h
    simp only [lineStart] at h
    split at h
    · cases h1 : lineStart cs k with
      | none => rw [h1] at h; cases h
      | some i =>
        rw [h1] at h
        simp only [Option.map_some', Option.some.injEq] at h
        omega
    · cases h1 : lineStart cs (k + 1) with
      | none => rw [h1] at h; cases h
      | some i =>
        rw [h1] at h
        simp only [Option.map_some', Option.some.injEq] at h
        omega

/-- What `getPositions` returns when the first line of the span starts at an index `p`
inside the content: the start offset of the specification and, for the length, the distance
from it to the index where the second loop stops. -/
theorem getPositions_found (content : List Char) (startLine startCol endLine endCol p : Nat)
    (h1 : 1 ≤ startLine) (hp : lineStart content (startLine - 1) = some p)
    (hlt : p < content.length) :
    ∃ q, skipToEnd content content.length (startOffset startLine startCol p)
          (decU64^[startLine - 1] endLine) = .ok q ∧
      getPositions (some content) startLine startCol endLine endCol
        = .ok ⟨startOffset startLine startCol p,
            (q + U64 - startOffset startLine startCol p + endCol) % U64, false⟩ := by
  obtain ⟨k, rfl⟩ : ∃ k, startLine = k + 1 := ⟨startLine - 1, by omega⟩
  simp only [Nat.add_sub_cancel] at hp ⊢
  have hloop := skipLines_some content content.length 0 k endLine p (by omega)
    (by simpa using hp)
  have hpos : k + 1 ≠ 1 → 1 ≤ p := by
    intro hk
    obtain ⟨k2, rfl⟩ : ∃ k2, k = k2 + 1 := ⟨k - 1, by omega⟩
    exact lineStart_succ_pos content k2 p hp
  obtain ⟨q, hq⟩ := skipToEnd_total content content.length (startOffset (k + 1) startCol p)
    (decU64^[k] endLine) (by omega)
  refine ⟨q, hq, ?_⟩
  simp only [getPositions, hloop, Nat.zero_add, Nat.ne_of_lt hlt, if_false,
    start_eq_startOffset (k + 1) startCol p hpos, hq]

theorem scanEnd_eq_scanTarget (content : List Char) (s k : Nat) (hs : s ≤ content.length) :
    scanEnd content s k = scanTarget content s k := by
  unfold scanEnd scanTarget
  split
  · rfl
  · exact Nat.max_eq_right hs

/-! ### Claims on `getPositions` -/

/-- C3, as stated, fails: on the file `a b \n c d \n` the span (1,1,1,2) is not given
offset 0 by `getPositions`. -/
theorem getPositions_abcd_first_offset_not_zero :
    ¬ (∀ r, getPositions (some abcd) 1 1 1 2 = .ok r → r.start = 0 ∧ r.size = 2) := by
  intro h
  have h2 := h ⟨1, 2, false⟩ (by decide)
  exact absurd h2.1 (by decide)

/-- C3, amended: on the file `a b \n c d \n`, `getPositions` returns offset 1 and length 2
for the span (1,1,1,2) (the column is added to the line start and nothing is subtracted on
line 1) and offset 3 and length 2 for the span (2,1,2,2); neither call returns an error. -/
theorem getPositions_abcd :
    getPositions (some abcd) 1 1 1 2 = .ok ⟨1, 2, false⟩ ∧
    getPositions (some abcd) 2 1 2 2 = .ok ⟨3, 2, false⟩ := by
  constructor <;> decide

/-- C4: for a span with `startLine ≥ 1`, if the content holds fewer than `startLine - 1`
newlines then `getPositions` returns offset 0, length 0 and no error; and if line
`startLine` starts at an index `p` inside the content then `getPositions` returns, with no
error, the offset `p + startCol` when `startLine = 1` and `p + startCol - 1` otherwise
(as a `uint64`, that is modulo `2 ^ 64`; the value itself when it is below `2 ^ 64`). -/
theorem getPositions_start (content : List Char) (startLine startCol endLine endCol : Nat)
    (h1 : 1 ≤ startLine) :
    (content.count '\n' < startLine - 1 →
      getPositions (some content) startLine startCol endLine endCol = .ok ⟨0, 0, false⟩) ∧
    (∀ p, lineStart content (startLine - 1) = some p → p < content.length →
      ∃ r, getPositions (some content) startLine startCol endLine endCol = .ok r ∧
        r.err = false ∧
        r.start = (if startLine = 1 then p + startCol else p + startCol - 1) % U64 ∧
        (startLine = 1 → p = 0 ∧ (startCol < U64 → r.start = startCol)) ∧
        (1 < startLine → p + startCol - 1 < U64 → r.start = p + startCol - 1)) := by
  constructor
  · intro hc
    obtain ⟨k, rfl⟩ : ∃ k, startLine = k + 1 := ⟨startLine - 1, by omega⟩
    simp only [Nat.add_sub_cancel] at hc
    have hnone : lineStart (content.drop 0) k = none := by
      rw [List.drop_zero]; exact (lineStart_none_iff content k).2 hc
    obtain ⟨n1, m1, hloop⟩ := skipLines_none content content.length 0 k endLine (by omega) hnone
    rw [Nat.max_eq_right (Nat.zero_le _)] at hloop
    simp only [getPositions, hloop, if_true]
  · intro p hp hlt
    obtain ⟨q, _, hq⟩ := getPositions_found content startLine startCol endLine endCol p h1 hp hlt
    refine ⟨_, hq, rfl, rfl, ?_, ?_⟩
    · intro h
      subst h
      simp only [Nat.sub_self, lineStart, Option.some.injEq] at hp
      subst hp
      refine ⟨rfl, fun hlt2 => ?_⟩
      simp only [startOffset, if_true, Nat.zero_add]
      exact Nat.mod_eq_of_lt hlt2
    · intro h hlt2
      have hne : startLine ≠ 1 := by omega
      simp only [startOffset, hne, if_false]
      exact Nat.mod_eq_of_lt hlt2

/-- C4 at a concrete input: line 2 of `a b \n c d \n` starts at index 3. -/
theorem getPositions_start_witness :
    ∃ r, getPositions (some abcd) 2 1 2 2 = .ok r ∧ r.err = false ∧
      r.start = (if 2 = 1 then 3 + 1 else 3 + 1 - 1) % U64 ∧
      (2 = 1 → 3 = 0 ∧ (1 < U64 → r.start = 1)) ∧
      (1 < 2 → 3 + 1 - 1 < U64 → r.start = 3 + 1 - 1) :=
  (getPositions_start abcd 2 1 2 2 (by decide)).2 3 (by decide) (by decide)

/-- C5, as stated, fails: on the content `a b` the span (1,5,2,1) starts at offset 5, past
the end; the newlines run out, so the claim takes `q` to be the content length 2, and the
length 1 that `getPositions` returns is not `q + endCol - s`, neither with the subtraction
wrapping modulo `2 ^ 64` nor with it truncated at 0. -/
theorem getPositions_length_start_past_end :
    lineStart ['a', 'b'] (1 - 1) = some 0 ∧
    getPositions (some ['a', 'b']) 1 5 2 1 = .ok ⟨5, 1, false⟩ ∧
    scanTarget ['a', 'b'] 5 (2 - 1) = 2 ∧
    (scanTarget ['a', 'b'] 5 (2 - 1) + 1 + U64 - 5) % U64 ≠ 1 ∧
    scanTarget ['a', 'b'] 5 (2 - 1) + 1 - 5 ≠ 1 := by
  refine ⟨by decide, by decide, by decide, by decide, by decide⟩

/-- C5, amended: for a span with `1 ≤ startLine ≤ endLine` whose first line starts at an
index `p` inside the content, with `s` the start offset, `getPositions` returns the length
`q + endCol - s` (as a `uint64`), where `q` is the index reached by scanning forward from `s`
until `endLine - startLine` further newlines are consumed: the index just after the last of
them when they exist, and, when they run out, the content length if `s` lies within the
content and `s` itself if `s` lies past its end.  When `s` is within the content `q` is the
index the claim names, and a single-line span has length `endCol`. -/
theorem getPositions_length (content : List Char) (startLine startCol endLine endCol p : Nat)
    (h1 : 1 ≤ startLine) (h2 : startLine ≤ endLine) (h3 : endLine < U64)
    (hp : lineStart content (startLine - 1) = some p) (hlt : p < content.length) :
    getPositions (some content) startLine startCol endLine endCol
      = .ok ⟨startOffset startLine startCol p,
          (scanEnd content (startOffset startLine startCol p) (endLine - startLine)
            - startOffset startLine startCol p + endCol) % U64, false⟩ ∧
    (startOffset startLine startCol p ≤ content.length →
      scanEnd content (startOffset startLine startCol p) (endLine - startLine)
        = scanTarget content (startOffset startLine startCol p) (endLine - startLine)) ∧
    (endLine = startLine →
      getPositions (some content) startLine startCol endLine endCol
        = .ok ⟨startOffset startLine startCol p, endCol % U64, false⟩) := by
  obtain ⟨q, hq, hres⟩ :=
    getPositions_found content startLine startCol endLine endCol p h1 hp hlt
  have hm : decU64^[startLine - 1] endLine = (endLine - startLine) + 1 := by
    rw [decU64_iterate (startLine - 1) endLine h3 (by omega)]; omega
  rw [hm, skipToEnd_scanEnd content content.length _ _ (by omega)] at hq
  have hqe : q = scanEnd content (startOffset startLine startCol p) (endLine - startLine) := by
    injection hq with hq; exact hq.symm
  have hge := scanEnd_ge content (startOffset startLine startCol p) (endLine - startLine)
  have hsize : (q + U64 - startOffset startLine startCol p + endCol) % U64
      = (scanEnd content (startOffset startLine startCol p) (endLine - startLine)
          - startOffset startLine startCol p + endCol) % U64 := by
    rw [hqe]
    unfold U64 at *
    omega
  refine ⟨by rw [hres, hsize], fun hs => scanEnd_eq_scanTarget _ _ _ hs, ?_⟩
  intro he
  rw [hres, hsize, he, Nat.sub_self]
  have h0 : scanEnd content (startOffset startLine startCol p) 0
      = startOffset startLine startCol p := by
    simp [scanEnd, lineStart]
  rw [h0, Nat.sub_self, Nat.zero_add]

/-- C5 at a concrete input: the span (1,1,2,2) of `a b \n c d \n` starts at offset 1, the
scan reaches index 3 and the length is 3 + 2 - 1 = 4. -/
theorem getPositions_length_witness :
    getPositions (some abcd) 1 1 2 2
      = .ok ⟨startOffset 1 1 0, (scanEnd abcd (startOffset 1 1 0) (2 - 1)
          - startOffset 1 1 0 + 2) % U64, false⟩ ∧
    (startOffset 1 1 0 ≤ abcd.length →
      scanEnd abcd (startOffset 1 1 0) (2 - 1) = scanTarget abcd (startOffset 1 1 0) (2 - 1)) ∧
    (2 = 1 → getPositions (some abcd) 1 1 2 2 = .ok ⟨startOffset 1 1 0, 2 % U64, false⟩) :=
  getPositions_length abcd 1 1 2 2 0 (by decide) (by decide) (by decide) (by decide) (by decide)

/-! ### Claims on `process` -/

theorem splitWorks_foldl (newWorksID : List Nat) (works : List WorkEntry) :
    ∀ acc : List String × List String,
      works.foldl
        (fun (acc : List String × List String) work =>
          if work.WorkID ∈ newWorksID then (acc.1 ++ [work.Path], acc.2)
          else (acc.1, acc.2 ++ [work.Path])) acc
      = (acc.1 ++ (works.filter (fun w => decide (w.WorkID ∈ newWorksID))).map (·.Path),
         acc.2 ++ (works.filter (fun w => !decide (w.WorkID ∈ newWorksID))).map (·.Path)) := by
  induction works with
  | nil => intro acc; simp
  | cons w ws ih =>
    intro acc
    rw [List.foldl_cons, ih]
    by_cases h : w.WorkID ∈ newWorksID
    · simp [h]
    · simp [h]

theorem splitWorks_eq_filter (newWorksID : List Nat) (works : List WorkEntry) :
    splitWorks newWorksID works
      = ((works.filter (fun w => decide (w.WorkID ∈ newWorksID))).map (·.Path),
         (works.filter (fun w => !decide (w.WorkID ∈ newWorksID))).map (·.Path)) := by
  unfold splitWorks
  rw [splitWorks_foldl]
  simp

theorem filter_length_add (works : List WorkEntry) (f : WorkEntry → Bool) :
    (works.filter f).length + (works.filter (fun w => !f w)).length = works.length := by
  induction works with
  | nil => rfl
  | cons w ws ih =>
    cases h : f w <;> simp [List.filter_cons, h] <;> omega

/-- C6: for every task batch and every list of resolved entries, the new list built by
`process` holds exactly the paths of the entries whose work ID is named by a task of the
batch and the old list exactly the paths of the other entries, both in the order of the
resolved list and each entry in exactly one of them; these two lists are the arguments
`process` passes to the checker, and `process` then returns `true` unless `Run` or
`CheckCacheSize` does not return; and tasks naming works 5 and 7 with resolved entries for
5, 7 and 9 give new = paths of 5 and 7, old = path of 9. -/
theorem process_partition (tasks : List Task) (works : List WorkEntry) :
    splitWorks (tasks.map (·.WorkID)) works
      = ((works.filter (fun w => decide (w.WorkID ∈ tasks.map (·.WorkID)))).map (·.Path),
         (works.filter (fun w => !decide (w.WorkID ∈ tasks.map (·.WorkID)))).map (·.Path)) ∧
    (splitWorks (tasks.map (·.WorkID)) works).1.length
      + (splitWorks (tasks.map (·.WorkID)) works).2.length = works.length ∧
    (∀ (a : Services) (first : Task) (rest : List Task), tasks = first :: rest →
      a.GetNewTasksOfCommonEvent = some tasks →
      a.GetEventWorks first.EventID = .ok (some works) →
      1 < works.length →
      ∃ calls, (process a).1 =
        Call.GetNewTasksOfCommonEvent :: Call.GetEventWorks first.EventID ::
          Call.Run ((works.filter (fun w => decide (w.WorkID ∈ tasks.map (·.WorkID)))).map (·.Path))
            ((works.filter (fun w => !decide (w.WorkID ∈ tasks.map (·.WorkID)))).map (·.Path))
          :: calls ∧
        (process a).2 =
          match a.Run
            ((works.filter (fun w => decide (w.WorkID ∈ tasks.map (·.WorkID)))).map (·.Path))
            ((works.filter (fun w => !decide (w.WorkID ∈ tasks.map (·.WorkID)))).map (·.Path))
          with
          | .error fault => .error fault
          | .ok none => .ok true
          | .ok (some _) =>
            match a.CheckCacheSize with
            | .error fault => .error fault
            | .ok _ => .ok true) ∧
    (∀ (t1 t2 e1 e2 : Nat) (p5 p7 p9 : String) (s5 s7 s9 : Nat),
      splitWorks (([⟨t1, e1, 5⟩, ⟨t2, e2, 7⟩] : List Task).map (·.WorkID))
          [⟨5, p5, s5⟩, ⟨7, p7, s7⟩, ⟨9, p9, s9⟩]
        = ([p5, p7], [p9])) := by
  refine ⟨splitWorks_eq_filter _ _, ?_, ?_, ?_⟩
  · rw [splitWorks_eq_filter]
    simp only [List.length_map]
    exact filter_length_add works _
  · intro a first rest ht hpoll hworks hlen
    subst ht
    have hnot : ¬ works.length ≤ 1 := by omega
    have hs := splitWorks_eq_filter ((first :: rest).map (·.WorkID)) works
    cases hrun : a.Run
        ((works.filter (fun w => decide (w.WorkID ∈ (first :: rest).map (·.WorkID)))).map (·.Path))
        ((works.filter (fun w => !decide (w.WorkID ∈ (first :: rest).map (·.WorkID)))).map (·.Path)) with
    | error fault =>
      refine ⟨[], ?_, ?_⟩ <;>
        simp only [process, hpoll, hworks, hnot, if_false, hs, hrun]
    | ok answer =>
      cases answer with
      | none =>
        refine ⟨[Call.CloseTaskWithError ((first :: rest).map (·.ID))
          (a.CloseTaskWithError ((first :: rest).map (·.ID)))], ?_, ?_⟩ <;>
          simp only [process, hpoll, hworks, hnot, if_false, hs, hrun]
      | some result =>
        cases hcheck : a.CheckCacheSize with
        | error fault =>
          refine ⟨result.map (fun res => Call.SendReport (makeReport res)
              (a.SendReport (makeReport res)))
            ++ [Call.CloseTask ((first :: rest).map (·.ID))
                  (a.CloseTask ((first :: rest).map (·.ID))),
              Call.CheckCacheSize none], ?_, ?_⟩
          · simp only [process, hpoll, hworks, hnot, if_false, hs, hrun, hcheck]
            rfl
          · simp only [process, hpoll, hworks, hnot, if_false, hs, hrun, hcheck]
        | ok ok =>
          refine ⟨result.map (fun res => Call.SendReport (makeReport res)
              (a.SendReport (makeReport res)))
            ++ [Call.CloseTask ((first :: rest).map (·.ID))
                  (a.CloseTask ((first :: rest).map (·.ID))),
              Call.CheckCacheSize (some ok)], ?_, ?_⟩
          · simp only [process, hpoll, hworks, hnot, if_false, hs, hrun, hcheck]
            rfl
          · simp only [process, hpoll, hworks, hnot, if_false, hs, hrun, hcheck]
  · intro t1 t2 e1 e2 p5 p7 p9 s5 s7 s9
    rw [splitWorks_eq_filter]
    simp [List.filter_cons]

/-- C6 at a concrete run: a batch naming works 5 and 7 of event 1, three resolved works. -/
theorem process_partition_witness :
    ∃ calls, (process
        { GetNewTasksOfCommonEvent := some [⟨1, 1, 5⟩, ⟨2, 1, 7⟩]
          GetEventWorks := fun _ => .ok (some [⟨5, "w/5", 0⟩, ⟨7, "w/7", 0⟩, ⟨9, "w/9", 0⟩])
          Run := fun _ _ => .ok (some [])
          SendReport := fun _ => true
          CloseTask := fun _ => true
          CloseTaskWithError := fun _ => true
          CheckCacheSize := .ok true }).1
      = Call.GetNewTasksOfCommonEvent :: Call.GetEventWorks 1 ::
          Call.Run ["w/5", "w/7"] ["w/9"] :: calls ∧
      (process
        { GetNewTasksOfCommonEvent := some [⟨1, 1, 5⟩, ⟨2, 1, 7⟩]
          GetEventWorks := fun _ => .ok (some [⟨5, "w/5", 0⟩, ⟨7, "w/7", 0⟩, ⟨9, "w/9", 0⟩])
          Run := fun _ _ => .ok (some [])
          SendReport := fun _ => true
          CloseTask := fun _ => true
          CloseTaskWithError := fun _ => true
          CheckCacheSize := .ok true }).2 = .ok true :=
  (process_partition [⟨1, 1, 5⟩, ⟨2, 1, 7⟩] [⟨5, "w/5", 0⟩, ⟨7, "w/7", 0⟩, ⟨9, "w/9", 0⟩]).2.2.1
    _ ⟨1, 1, 5⟩ [⟨2, 1, 7⟩] rfl rfl rfl (by decide)

theorem acknowledgments_sendReports (send : SendCrossCheckReportRequest → Bool)
    (result : List ReportItem) :
    acknowledgments
      (result.map (fun res => Call.SendReport (makeReport res) (send (makeReport res)))) = [] := by
  induction result with
  | nil => rfl
  | cons r rs ih =>
    simp only [acknowledgments, List.map_cons, List.filter_cons] at ih ⊢
    exact ih

theorem acknowledgments_run (a : Services) (eventID : Nat) (newWorks oldWorks : List String)
    (result : List ReportItem) (last : List Call) :
    acknowledgments ([Call.GetNewTasksOfCommonEvent, Call.GetEventWorks eventID,
        Call.Run newWorks oldWorks]
      ++ result.map (fun res => Call.SendReport (makeReport res) (a.SendReport (makeReport res)))
      ++ last) = acknowledgments last := by
  have hsend := acknowledgments_sendReports a.SendReport result
  simp only [acknowledgments] at hsend ⊢
  rw [List.filter_append, List.filter_append, hsend]
  rfl

/-- C10 holds only while the calls of `process` return.  Whenever the poll returns a
non-empty batch: if `GetEventWorks` returns, and `Run` returns when the checker is run, then
exactly one of the calls that `process` has made is an acknowledgment; it carries the task
IDs of the batch and is `CloseTaskWithError` when listing the works of the event fails or
the checker's `Run` fails, `CloseTask` otherwise; `process` then returns `true` (unless
`CheckCacheSize`, called after the acknowledgment, does not return), and the outcomes of
`SendReport` have no influence on the acknowledgments.  But if `GetEventWorks` or `Run`
panics, `process` does not return and has sent no acknowledgment at all. -/
theorem process_acknowledges_once (a : Services) (first : Task) (rest : List Task)
    (hpoll : a.GetNewTasksOfCommonEvent = some (first :: rest)) :
    (calleesReturn a (first :: rest) first.EventID = true →
      acknowledgments (process a).1
        = [if batchFails a (first :: rest) first.EventID
            then Call.CloseTaskWithError ((first :: rest).map (·.ID))
              (a.CloseTaskWithError ((first :: rest).map (·.ID)))
            else Call.CloseTask ((first :: rest).map (·.ID))
              (a.CloseTask ((first :: rest).map (·.ID)))] ∧
      ((process a).2 = .ok true ∨
        ∃ fault, a.CheckCacheSize = .error fault ∧ (process a).2 = .error fault) ∧
      ∀ send : SendCrossCheckReportRequest → Bool,
        acknowledgments (process { a with SendReport := send }).1
          = acknowledgments (process a).1) ∧
    (calleesReturn a (first :: rest) first.EventID = false →
      acknowledgments (process a).1 = [] ∧ ∃ fault, (process a).2 = .error fault) := by
  cases hworks : a.GetEventWorks first.EventID with
  | error fault =>
    constructor
    · intro h
      simp [calleesReturn, hworks] at h
    · intro _
      refine ⟨?_, fault, ?_⟩ <;> simp [process, hpoll, hworks, acknowledgments]
  | ok listed =>
    cases listed with
    | none =>
      constructor
      · intro _
        refine ⟨?_, Or.inl ?_, ?_⟩
        · simp [process, hpoll, hworks, acknowledgments, batchFails]
        · simp only [process, hpoll, hworks]
        · intro send
          simp only [process, hpoll, hworks]
      · intro h
        simp [calleesReturn, hworks] at h
    | some works =>
      by_cases hlen : works.length ≤ 1
      · have hnot : ¬ 1 < works.length := by omega
        constructor
        · intro _
          refine ⟨?_, Or.inl ?_, ?_⟩
          · simp [process, hpoll, hworks, hlen, acknowledgments, batchFails, hnot]
          · simp only [process, hpoll, hworks, hlen, if_true]
          · intro send
            simp only [process, hpoll, hworks, hlen, if_true]
        · intro h
          simp [calleesReturn, hworks, hlen] at h
      · have hgt : 1 < works.length := by omega
        cases hrun : a.Run (splitWorks ((first :: rest).map (·.WorkID)) works).1
            (splitWorks ((first :: rest).map (·.WorkID)) works).2 with
        | error fault =>
          have hrun2 := hrun
          simp only [List.map_cons] at hrun2
          constructor
          · intro h
            simp [calleesReturn, hworks, hlen, hrun2] at h
          · intro _
            refine ⟨?_, fault, ?_⟩
            · simp only [process, hpoll, hworks, hlen, if_false, hrun]
              rfl
            · simp only [process, hpoll, hworks, hlen, if_false, hrun]
        | ok answer =>
          have hrun2 := hrun
          simp only [List.map_cons] at hrun2
          constructor
          · intro _
            cases answer with
            | none =>
              refine ⟨?_, Or.inl ?_, ?_⟩
              · simp [process, hpoll, hworks, hlen, hrun, acknowledgments, batchFails, hgt,
                  hrun2]
              · simp only [process, hpoll, hworks, hlen, if_false, hrun]
              · intro send
                simp only [process, hpoll, hworks, hlen, if_false, hrun]
            | some result =>
              have hfail : batchFails a (first :: rest) first.EventID = false := by
                simp [batchFails, hworks, hrun2]
              cases hcheck : a.CheckCacheSize with
              | error fault =>
                refine ⟨?_, Or.inr ⟨fault, rfl, ?_⟩, ?_⟩
                · simp only [process, hpoll, hworks, hlen, if_false, hrun, hcheck, hfail]
                  rw [acknowledgments_run]
                  rfl
                · simp only [process, hpoll, hworks, hlen, if_false, hrun, hcheck]
                · intro send
                  simp only [process, hpoll, hworks, hlen, if_false, hrun, hcheck]
                  rw [acknowledgments_run a,
                    acknowledgments_run { a with SendReport := send }]
              | ok ok =>
                refine ⟨?_, Or.inl ?_, ?_⟩
                · simp only [process, hpoll, hworks, hlen, if_false, hrun, hcheck, hfail]
                  rw [acknowledgments_run]
                  rfl
                · simp only [process, hpoll, hworks, hlen, if_false, hrun, hcheck]
                · intro send
                  simp only [process, hpoll, hworks, hlen, if_false, hrun, hcheck]
                  rw [acknowledgments_run a,
                    acknowledgments_run { a with SendReport := send }]
          · intro h
            simp [calleesReturn, hworks, hlen, hrun2] at h

/-- C10 at two concrete runs of a batch of two tasks and three works.  When the checker
returns an error, the one acknowledgment is `CloseTaskWithError [1, 2]`.  When the result
archive of the engine holds an entry with a match path shorter than its ID, `Run` panics in
`readItem`: `process` ends after the calls of the poll, `GetEventWorks` and `Run`, without
an acknowledgment.  When a work of the event is not cached and the response to its download
has status 200 and declares no length, `GetEventWorks` panics in `downloadFile`: `process`
ends after the calls of the poll and `GetEventWorks`, without an acknowledgment. -/
theorem process_acknowledges_once_witness :
    acknowledgments (process
        { GetNewTasksOfCommonEvent := some [⟨1, 1, 5⟩, ⟨2, 1, 7⟩]
          GetEventWorks := fun _ => .ok (some [⟨5, "w/5", 0⟩, ⟨7, "w/7", 0⟩, ⟨9, "w/9", 0⟩])
          Run := fun _ _ => .ok none
          SendReport := fun _ => true
          CloseTask := fun _ => true
          CloseTaskWithError := fun _ => true
          CheckCacheSize := .ok true }).1 = [Call.CloseTaskWithError [1, 2] true] ∧
    process crashServices
      = ([Call.GetNewTasksOfCommonEvent, Call.GetEventWorks 1,
          Call.Run ["storage/works/5", "storage/works/7"] ["storage/works/9"]],
        .error .outOfRange) ∧
    (acknowledgments (process crashServices).1 = [] ∧
      ∃ fault, (process crashServices).2 = .error fault) ∧
    process fetchCrashServices
      = ([Call.GetNewTasksOfCommonEvent, Call.GetEventWorks 1], .error .outOfRange) ∧
    (acknowledgments (process fetchCrashServices).1 = [] ∧
      ∃ fault, (process fetchCrashServices).2 = .error fault) :=
  ⟨((process_acknowledges_once
      { GetNewTasksOfCommonEvent := some [⟨1, 1, 5⟩, ⟨2, 1, 7⟩]
        GetEventWorks := fun _ => .ok (some [⟨5, "w/5", 0⟩, ⟨7, "w/7", 0⟩, ⟨9, "w/9", 0⟩])
        Run := fun _ _ => .ok none
        SendReport := fun _ => true
        CloseTask := fun _ => true
        CloseTaskWithError := fun _ => true
        CheckCacheSize := .ok true } ⟨1, 1, 5⟩ [⟨2, 1, 7⟩] rfl).1 (by decide)).1,
    by decide,
    (process_acknowledges_once crashServices ⟨1, 1, 5⟩ [⟨2, 1, 7⟩] rfl).2 (by decide),
    by decide,
    (process_acknowledges_once fetchCrashServices ⟨1, 1, 9⟩ [⟨2, 1, 11⟩] rfl).2 (by decide)⟩

/-! ### Claims on the resolution of works -/

/-- C7 fails on the code: the entry that `downloadWork` returns carries the path
`GetWorkPath(w)` but the work ID 0, whatever `w` is (and it returns one unless `downloadFile`
panics); so on a cold cache, with tasks naming works 5 and 7 in a group of works 5, 7 and 9
that are all fetched, `GetEventWorks` returns three entries of work ID 0 and `process` puts
all three paths in the old list and none in the new one. -/
theorem downloadWork_loses_workID :
    (∀ (r : Remote) (root : String) (index : List WorkEntry) (w : Nat) (url : String),
      (∀ out, downloadWork r root index w url = .ok out →
        out.1.WorkID = 0 ∧ out.1.Path = GetWorkPath root w) ∧
      (r.fetch w url ≠ .lengthUnknown → ∃ out, downloadWork r root index w url = .ok out)) ∧
    (GetEventWorks coldRemote "storage" [] 1).map (·.1)
      = .ok (some [⟨0, "storage/works/5", 100⟩, ⟨0, "storage/works/7", 100⟩,
          ⟨0, "storage/works/9", 100⟩]) ∧
    (GetEventWorks coldRemote "storage" [] 1).map
        (fun out => splitWorks (([⟨1, 1, 5⟩, ⟨2, 1, 7⟩] : List Task).map (·.WorkID))
          (out.1.getD []))
      = .ok ([], ["storage/works/5", "storage/works/7", "storage/works/9"]) := by
  refine ⟨?_, by decide, by decide⟩
  intro r root index w url
  unfold downloadWork
  cases hf : r.fetch w url
  · dsimp only
    cases SaveWork index w (GetWorkPath root w) r.now
    · exact ⟨fun out h => (by cases h; exact ⟨rfl, rfl⟩), fun _ => ⟨_, rfl⟩⟩
    · exact ⟨fun out h => (by cases h; exact ⟨rfl, rfl⟩), fun _ => ⟨_, rfl⟩⟩
  · exact ⟨fun out h => (by cases h; exact ⟨rfl, rfl⟩), fun _ => ⟨_, rfl⟩⟩
  · exact ⟨fun out h => (by cases h; exact ⟨rfl, rfl⟩), fun _ => ⟨_, rfl⟩⟩
  · exact ⟨fun out h => (by cases h), fun h => absurd rfl h⟩

/-! ### Claims on the decoding of the result archive -/

theorem skipLines_total (runes : List Char) (fuel idx n m : Nat)
    (hf : runes.length - idx ≤ fuel) : ∃ r, skipLines runes fuel idx n m = .ok r := by
  cases n with
  | zero =>
    refine ⟨(idx, 0, m), ?_⟩
    cases fuel with
    | zero => rw [skipLines, if_neg (by omega)]
    | succ fuel => rw [skipLines, if_neg (by omega)]
  | succ k =>
    cases h : lineStart (runes.drop idx) k with
    | none =>
      obtain ⟨n1, m1, h1⟩ := skipLines_none runes fuel idx k m hf h
      exact ⟨_, h1⟩
    | some j => exact ⟨_, skipLines_some runes fuel idx k m j hf h⟩

/-- The function `getPositions` returns for every file and every span: neither loop reads
out of range or exceeds its budget. -/
theorem getPositions_total (file : Option (List Char)) (startLine startCol endLine endCol : Nat) :
    ∃ r, getPositions file startLine startCol endLine endCol = .ok r := by
  cases file with
  | none => exact ⟨_, rfl⟩
  | some runes =>
    obtain ⟨⟨idx, n, m⟩, h1⟩ := skipLines_total runes runes.length 0 startLine endLine (by omega)
    by_cases hidx : idx = runes.length
    · refine ⟨⟨0, 0, false⟩, ?_⟩
      simp only [getPositions, h1, hidx, if_true]
    · obtain ⟨q, h2⟩ := skipToEnd_total runes runes.length
        (if startLine ≠ 1 then decU64 ((idx + startCol) % U64) else (idx + startCol) % U64)
        m (by omega)
      simp only [getPositions, h1, hidx, if_false, h2]
      exact ⟨_, rfl⟩

theorem sliceFrom_ok (s : String) (n : Nat) (h : n ≤ s.length) :
    sliceFrom s n = .ok ⟨s.data.drop n⟩ := by
  unfold sliceFrom
  rw [if_pos h]

theorem readMatch_ok (root : String) (files : String → Option (List Char))
    (work1ID work2ID f1Skip f2Skip : Nat) (m : MatchDTO)
    (h1 : f1Skip ≤ m.File1.length) (h2 : f2Skip ≤ m.File2.length) :
    ∃ item, readMatch root files work1ID work2ID f1Skip f2Skip m = .ok item := by
  have h3 : f1Skip / 2 ≤ m.File1.length := Nat.le_trans (Nat.div_le_self _ _) h1
  have h4 : f2Skip / 2 ≤ m.File2.length := Nat.le_trans (Nat.div_le_self _ _) h2
  obtain ⟨p1, hp1⟩ := getPositions_total
    (files (pathJoin [GetWorkPath root work1ID, ⟨m.File1.data.drop (f1Skip / 2)⟩]))
    m.Start1 m.Start1Col m.End1 m.End1Col
  obtain ⟨p2, hp2⟩ := getPositions_total
    (files (pathJoin [GetWorkPath root work2ID, ⟨m.File2.data.drop (f2Skip / 2)⟩]))
    m.Start2 m.Start2Col m.End2 m.End2Col
  simp only [readMatch, sliceFrom_ok _ _ h1, sliceFrom_ok _ _ h2, sliceFrom_ok _ _ h3,
    sliceFrom_ok _ _ h4, hp1, hp2, bind, Except.bind, pure, Except.pure]
  exact ⟨_, rfl⟩

theorem readMatches_ok (root : String) (files : String → Option (List Char))
    (work1ID work2ID f1Skip f2Skip : Nat) :
    ∀ ms : List MatchDTO,
      (∀ m ∈ ms, f1Skip ≤ m.File1.length ∧ f2Skip ≤ m.File2.length) →
      ∃ items, readMatches root files work1ID work2ID f1Skip f2Skip ms = .ok items := by
  intro ms
  induction ms with
  | nil => intro _; exact ⟨[], rfl⟩
  | cons m ms ih =>
    intro h
    obtain ⟨h1, h2⟩ := h m (List.mem_cons_self _ _)
    obtain ⟨item, hitem⟩ := readMatch_ok root files work1ID work2ID f1Skip f2Skip m h1 h2
    obtain ⟨items, hitems⟩ := ih (fun x hx => h x (List.mem_cons_of_mem _ hx))
    refine ⟨item :: items, ?_⟩
    simp only [readMatches, hitem, hitems]

/-- An entry that is decodable and whose paths fit gives a report and a nil error. -/
theorem readItem_decodable (root : String) (files : String → Option (List Char)) (f : ZipFile)
    (hd : decodable f = true) (hfit : pathsFit f = true) :
    ∃ report, readItem root files f = .ok (some report, false) := by
  unfold decodable at hd
  unfold pathsFit at hfit
  cases hdec : f.decoded with
  | none => simp [hdec] at hd
  | some result =>
    simp only [hdec, Bool.and_eq_true, Bool.not_eq_true', Option.isSome_iff_exists] at hd
    obtain ⟨haux, ⟨id1, h1⟩, ⟨id2, h2⟩⟩ := hd
    simp only [hdec, List.all_eq_true, Bool.and_eq_true, decide_eq_true_eq] at hfit
    obtain ⟨items, hitems⟩ := readMatches_ok root files id1 id2 (result.ID1.length + 1)
      (result.ID2.length + 1) result.Matches hfit
    simp only [readItem, haux, hdec, h1, h2, hitems, Bool.false_eq_true, if_false]
    exact ⟨_, rfl⟩

/-- An entry that is not decodable gives no report, and `readItem` returns for it. -/
theorem readItem_not_decodable (root : String) (files : String → Option (List Char))
    (f : ZipFile) (hd : decodable f = false) :
    ∃ err, readItem root files f = .ok (none, err) := by
  unfold decodable at hd
  cases haux : isAuxiliary f.Name with
  | true => exact ⟨false, by simp [readItem, haux]⟩
  | false =>
    cases hdec : f.decoded with
    | none => exact ⟨true, by simp [readItem, haux, hdec]⟩
    | some result =>
      cases h1 : ParseUint (firstField result.ID1) with
      | none => exact ⟨true, by simp [readItem, haux, hdec, h1]⟩
      | some id1 =>
        cases h2 : ParseUint (firstField result.ID2) with
        | none => exact ⟨true, by simp [readItem, haux, hdec, h1, h2]⟩
        | some id2 =>
          simp [haux, hdec, h1, h2] at hd

theorem parseEach_reports (root : String) (files : String → Option (List Char)) :
    ∀ (entries : List ZipFile) (acc : List ReportItem),
      (∀ f ∈ entries, decodable f = true → pathsFit f = true) →
      ∃ reports, parseEach root files entries acc = .ok (acc ++ reports) ∧
        List.Forall₂ (fun f r => readItem root files f = .ok (some r, false))
          (entries.filter decodable) reports := by
  intro entries
  induction entries with
  | nil => intro acc _; exact ⟨[], by simp [parseEach], by simp⟩
  | cons f rest ih =>
    intro acc hfit
    have hrest : ∀ g ∈ rest, decodable g = true → pathsFit g = true :=
      fun g hg => hfit g (List.mem_cons_of_mem _ hg)
    cases hd : decodable f with
    | true =>
      obtain ⟨report, hr⟩ :=
        readItem_decodable root files f hd (hfit f (List.mem_cons_self _ _) hd)
      obtain ⟨reports, hp, hall⟩ := ih (acc ++ [report]) hrest
      refine ⟨report :: reports, ?_, ?_⟩
      · simp only [parseEach, hr, hp, List.append_assoc, List.singleton_append]
      · simp only [List.filter_cons, hd, if_true]
        exact List.Forall₂.cons hr hall
    | false =>
      obtain ⟨err, hr⟩ := readItem_not_decodable root files f hd
      obtain ⟨reports, hp, hall⟩ := ih acc hrest
      refine ⟨reports, ?_, ?_⟩
      · simp only [parseEach, hr, hp]
      · simpa [List.filter_cons, hd] using hall

theorem readMatch_short (root : String) (files : String → Option (List Char))
    (work1ID work2ID f1Skip f2Skip : Nat) (m : MatchDTO)
    (h : ¬ (f1Skip ≤ m.File1.length ∧ f2Skip ≤ m.File2.length)) :
    readMatch root files work1ID work2ID f1Skip f2Skip m = .error .outOfRange := by
  by_cases h1 : f1Skip ≤ m.File1.length
  · have h2 : ¬ f2Skip ≤ m.File2.length := fun h2 => h ⟨h1, h2⟩
    simp only [readMatch, sliceFrom, h1, h2, if_true, if_false, bind, Except.bind]
  · simp only [readMatch, sliceFrom, h1, if_false, bind, Except.bind]

theorem readMatches_short (root : String) (files : String → Option (List Char))
    (work1ID work2ID f1Skip f2Skip : Nat) :
    ∀ ms : List MatchDTO,
      (∃ m ∈ ms, ¬ (f1Skip ≤ m.File1.length ∧ f2Skip ≤ m.File2.length)) →
      readMatches root files work1ID work2ID f1Skip f2Skip ms = .error .outOfRange := by
  intro ms
  induction ms with
  | nil => intro h; obtain ⟨m, hm, _⟩ := h; cases hm
  | cons m ms ih =>
    intro h
    by_cases hfit : f1Skip ≤ m.File1.length ∧ f2Skip ≤ m.File2.length
    · obtain ⟨item, hitem⟩ :=
        readMatch_ok root files work1ID work2ID f1Skip f2Skip m hfit.1 hfit.2
      have htail : ∃ x ∈ ms, ¬ (f1Skip ≤ x.File1.length ∧ f2Skip ≤ x.File2.length) := by
        obtain ⟨x, hx, hnot⟩ := h
        rcases List.mem_cons.1 hx with hx | hx
        · subst hx; exact absurd hfit hnot
        · exact ⟨x, hx, hnot⟩
      simp only [readMatches, hitem, ih htail]
    · simp only [readMatches, readMatch_short root files work1ID work2ID f1Skip f2Skip m hfit]

/-- An entry that `readItem` gets to decode and that holds a match with a file path shorter
than the composite ID of its side plus one separator ends `readItem` in a panic. -/
theorem readItem_short (root : String) (files : String → Option (List Char)) (f : ZipFile)
    (hd : decodable f = true) (hfit : pathsFit f = false) :
    readItem root files f = .error .outOfRange := by
  unfold decodable at hd
  unfold pathsFit at hfit
  cases hdec : f.decoded with
  | none => simp [hdec] at hd
  | some result =>
    simp only [hdec, Bool.and_eq_true, Bool.not_eq_true', Option.isSome_iff_exists] at hd
    obtain ⟨haux, ⟨id1, h1⟩, ⟨id2, h2⟩⟩ := hd
    simp only [hdec, List.all_eq_false, Bool.and_eq_true, decide_eq_true_eq] at hfit
    have hshort := readMatches_short root files id1 id2 (result.ID1.length + 1)
      (result.ID2.length + 1) result.Matches hfit
    simp only [readItem, haux, hdec, h1, h2, hshort, Bool.false_eq_true, if_false]

/-- C8 fails on the code: an archive that opens and holds an entry of valid JSON whose match
file path is shorter than its composite ID plus one separator makes `readItem`, and with it
`parse`, end in a run-time panic (slice bounds out of range at jplag.go 180) instead of
returning; the entries after it are not read.  This is so for every entry that `readItem`
gets to decode and that holds such a match. -/
theorem parse_panics_on_short_path (root : String) (files : String → Option (List Char))
    (after : List ZipFile) :
    readItem root files shortPathEntry = .error .outOfRange ∧
    parse root files (some [shortPathEntry]) = .error .outOfRange ∧
    parse root files (some ([malformedEntry] ++ [shortPathEntry] ++ after))
      = .error .outOfRange ∧
    (∀ f : ZipFile, decodable f = true → pathsFit f = false →
      readItem root files f = .error .outOfRange ∧
      parse root files (some (f :: after)) = .error .outOfRange) := by
  refine ⟨rfl, rfl, rfl, ?_⟩
  intro f hd hfit
  have h := readItem_short root files f hd hfit
  exact ⟨h, by simp only [parse, parseEach, h]⟩

/-- A panic in one entry ends the loop of `parse`: when some entry that `readItem` decodes
holds a match path that is too short, nothing is returned. -/
theorem parseEach_panics (root : String) (files : String → Option (List Char)) :
    ∀ (entries : List ZipFile) (acc : List ReportItem),
      (∃ f ∈ entries, decodable f = true ∧ pathsFit f = false) →
      parseEach root files entries acc = .error .outOfRange := by
  intro entries
  induction entries with
  | nil =>
    intro acc h
    obtain ⟨f, hf, _⟩ := h
    exact absurd hf (List.not_mem_nil _)
  | cons f rest ih =>
    intro acc h
    cases hd : decodable f with
    | true =>
      cases hfit : pathsFit f with
      | false =>
        simp only [parseEach, readItem_short root files f hd hfit]
      | true =>
        have hrest : ∃ g ∈ rest, decodable g = true ∧ pathsFit g = false := by
          obtain ⟨g, hg, hgd, hgf⟩ := h
          rcases List.mem_cons.1 hg with h1 | h1
          · subst h1
            rw [hfit] at hgf
            cases hgf
          · exact ⟨g, h1, hgd, hgf⟩
        obtain ⟨report, hr⟩ := readItem_decodable root files f hd hfit
        simp only [parseEach, hr, ih _ hrest]
    | false =>
      have hrest : ∃ g ∈ rest, decodable g = true ∧ pathsFit g = false := by
        obtain ⟨g, hg, hgd, hgf⟩ := h
        rcases List.mem_cons.1 hg with h1 | h1
        · subst h1
          rw [hd] at hgd
          cases hgd
        · exact ⟨g, h1, hgd, hgf⟩
      obtain ⟨err, hr⟩ := readItem_not_decodable root files f hd
      simp only [parseEach, hr, ih _ hrest]

/-- The test of `readItem` on the name of an entry: the names that start with `files` and
the four names of the manifests, and no other. -/
theorem isAuxiliary_iff (name : String) :
    isAuxiliary name = true ↔
      ((∃ rest : String, name = "files" ++ rest) ∨ name = "options.json" ∨
        name = "overview.json" ∨ name = "README.txt" ∨ name = "submissionFileIndex.json") := by
  have hprefix : "files".data.isPrefixOf name.data = true ↔ ∃ rest : String, name = "files" ++ rest := by
    rw [List.isPrefixOf_iff_prefix]
    constructor
    · rintro ⟨t, ht⟩
      exact ⟨⟨t⟩, String.ext (by rw [String.data_append, ← ht])⟩
    · rintro ⟨rest, hrest⟩
      exact ⟨rest.data, by rw [hrest, String.data_append]⟩
  unfold isAuxiliary
  simp only [Bool.or_eq_true, decide_eq_true_eq, hprefix]
  tauto

/-- C9 holds only while `readItem` does not panic.  For every archive that opens: when the
entries that `readItem` decodes carry match file paths at least as long as the composite ID
of their side plus one separator, `parse` returns a nil error and, in archive order, exactly
one report for each entry that `readItem` decodes, these being the entries that are not
auxiliary, hold valid JSON and have two composite IDs with a numeric prefix; every other
entry gives no report and does not stop the decoding: an auxiliary entry (name starting with
`files`, or one of `options.json`, `overview.json`, `README.txt`,
`submissionFileIndex.json`) is not read at all, whatever it holds, and an entry that is not
valid JSON gives an error that `parse` only logs.  But when an entry that `readItem` decodes
holds a match path shorter than that, `readItem` panics and `parse` returns nothing, no
report and no error: so for the archive of a malformed entry and the entry `shortPathEntry`.
The archive of the specification, one malformed and one well-formed entry, gives exactly
one report and a nil error, also with auxiliary entries around them. -/
theorem parse_reports (root : String) (files : String → Option (List Char))
    (entries : List ZipFile) :
    ((∀ f ∈ entries, decodable f = true → pathsFit f = true) →
      ∃ reports, parse root files (some entries) = .ok (reports, false) ∧
        List.Forall₂ (fun f r => readItem root files f = .ok (some r, false))
          (entries.filter decodable) reports ∧
        reports.length = (entries.filter decodable).length) ∧
    ((∃ f ∈ entries, decodable f = true ∧ pathsFit f = false) →
      parse root files (some entries) = .error .outOfRange) ∧
    (∀ f ∈ entries, decodable f = false → ∃ err, readItem root files f = .ok (none, err)) ∧
    (∀ f : ZipFile,
      ((∃ rest : String, f.Name = "files" ++ rest) ∨ f.Name = "options.json" ∨
        f.Name = "overview.json" ∨ f.Name = "README.txt" ∨
        f.Name = "submissionFileIndex.json") →
      readItem root files f = .ok (none, false) ∧ decodable f = false) ∧
    (∀ f : ZipFile,
      ¬ ((∃ rest : String, f.Name = "files" ++ rest) ∨ f.Name = "options.json" ∨
        f.Name = "overview.json" ∨ f.Name = "README.txt" ∨
        f.Name = "submissionFileIndex.json") →
      (f.decoded = none → readItem root files f = .ok (none, true) ∧ decodable f = false) ∧
      (decodable f = true ↔ ∃ result n1 n2, f.decoded = some result ∧
        ParseUint (firstField result.ID1) = some n1 ∧
        ParseUint (firstField result.ID2) = some n2)) ∧
    parse "storage" sampleFiles
        (some [⟨"files/5_5/a.cs", goodEntry.decoded⟩, ⟨"options.json", goodEntry.decoded⟩,
          malformedEntry, ⟨"overview.json", goodEntry.decoded⟩, goodEntry,
          ⟨"README.txt", goodEntry.decoded⟩, ⟨"submissionFileIndex.json", goodEntry.decoded⟩])
      = .ok ([⟨5, 7, 0, 0, [⟨"a.cs", 1, 2, "a.cs", 3, 2⟩]⟩], false) ∧
    parse "storage" sampleFiles (some [malformedEntry, goodEntry])
      = .ok ([⟨5, 7, 0, 0, [⟨"a.cs", 1, 2, "a.cs", 3, 2⟩]⟩], false) ∧
    decodable shortPathEntry = true ∧
    parse "storage" sampleFiles (some [malformedEntry, shortPathEntry]) = .error .outOfRange := by
  refine ⟨?_, ?_, ?_, ?_, ?_, by decide, by decide, by decide, by decide⟩
  · intro hfit
    obtain ⟨reports, hp, hall⟩ := parseEach_reports root files entries [] hfit
    refine ⟨reports, ?_, hall, hall.length_eq.symm⟩
    simp only [parse, hp, List.nil_append]
  · intro h
    simp only [parse, parseEach_panics root files entries [] h]
  · intro f _ hd
    exact readItem_not_decodable root files f hd
  · intro f h
    have haux : isAuxiliary f.Name = true := (isAuxiliary_iff f.Name).2 h
    exact ⟨by simp only [readItem, haux, if_true], by simp [decodable, haux]⟩
  · intro f h
    have haux : isAuxiliary f.Name = false := by
      cases hx : isAuxiliary f.Name with
      | false => rfl
      | true => exact absurd ((isAuxiliary_iff f.Name).1 hx) h
    refine ⟨?_, ?_⟩
    · intro hdec
      exact ⟨by simp only [readItem, haux, hdec, Bool.false_eq_true, if_false],
        by simp [decodable, hdec]⟩
    · unfold decodable
      cases hdec : f.decoded with
      | none => simp [haux]
      | some result =>
        simp only [haux, Bool.not_false, Bool.true_and, Bool.and_eq_true,
          Option.isSome_iff_exists, Option.some.injEq, exists_and_left, exists_eq_left']
        constructor
        · rintro ⟨⟨n1, h1⟩, n2, h2⟩
          exact ⟨n1, h1, n2, h2⟩
        · rintro ⟨n1, h1, n2, h2⟩
          exact ⟨⟨n1, h1⟩, n2, h2⟩

/-- C9 at two concrete archives: an entry that is not valid JSON followed by a well-formed
entry gives exactly one report and a nil error; followed by an entry whose match path is
too short it makes `parse` panic. -/
theorem parse_reports_witness :
    (∃ reports, parse "storage" sampleFiles (some [malformedEntry, goodEntry])
        = .ok (reports, false) ∧ reports.length = 1) ∧
    parse "storage" sampleFiles (some [malformedEntry, shortPathEntry])
      = .error .outOfRange := by
  obtain ⟨h1, _, _, _, _, _⟩ :=
    parse_reports "storage" sampleFiles [malformedEntry, goodEntry]
  obtain ⟨_, h2, _, _, _, _⟩ :=
    parse_reports "storage" sampleFiles [malformedEntry, shortPathEntry]
  obtain ⟨reports, hp, _, hlen⟩ := h1 (by decide)
  exact ⟨⟨reports, hp, hlen.trans (by decide)⟩,
    h2 ⟨shortPathEntry, by decide, by decide, by decide⟩⟩

/-! ### The quota of the store -/

theorem sum_filter_split (dirs : List (String × Nat)) (p : String × Nat → Bool) :
    ((dirs.filter p).map (·.2)).sum + ((dirs.filter (fun x => !p x)).map (·.2)).sum
      = (dirs.map (·.2)).sum := by
  induction dirs with
  | nil => rfl
  | cons x xs ih =>
    cases h : p x <;> simp [List.filter_cons, h] <;> omega

theorem sum_map_min_le (dirs : List (String × Nat)) (path : String) (left : Nat) :
    ((dirs.map (fun x => if x.1 = path then (x.1, min x.2 left) else x)).map (·.2)).sum
      ≤ (dirs.map (·.2)).sum := by
  induction dirs with
  | nil => simp
  | cons x xs ih =>
    by_cases hx : x.1 = path
    · simp only [List.map_cons, List.sum_cons, hx, if_true]
      have := Nat.min_le_left x.2 left
      omega
    · simp only [List.map_cons, List.sum_cons, hx, if_false]
      omega

/-- Measuring a directory and deleting it frees exactly the bytes measured; a deletion that
fails frees some bytes or none, and the bytes it frees are not measured. -/
theorem RemoveAll_size (d : Disk) (path : String) (rm : Nat) (hsz : rootSize d < U64)
    (hm : GetDirectorySize d path = some rm) :
    ((RemoveAll d path).2 = false → rm + rootSize (RemoveAll d path).1 = rootSize d) ∧
    ((RemoveAll d path).2 = true → rootSize (RemoveAll d path).1 ≤ rootSize d) ∧
    (RemoveAll d path).1.undeletable = d.undeletable := by
  unfold GetDirectorySize at hm
  unfold RemoveAll
  split at hm
  · rename_i hany
    rw [if_pos hany]
    injection hm with hm
    cases hl : d.undeletable.lookup path with
    | some left =>
      refine ⟨fun h => (by cases h), fun _ => ?_, rfl⟩
      unfold rootSize
      have := sum_map_min_le d.dirs path left
      simp only
      omega
    | none =>
      refine ⟨fun _ => ?_, fun h => (by cases h), rfl⟩
      have hsplit := sum_filter_split d.dirs (fun x => decide (x.1 = path))
      have hneg : (d.dirs.filter (fun x => !decide (x.1 = path)))
          = d.dirs.filter (fun x => decide (x.1 ≠ path)) := by
        congr 1
        funext x
        by_cases hx : x.1 = path <;> simp [hx]
      rw [hneg] at hsplit
      unfold rootSize at hsz ⊢
      have hlt : ((d.dirs.filter (fun x => decide (x.1 = path))).map (·.2)).sum < U64 := by
        omega
      rw [Nat.mod_eq_of_lt hlt] at hm
      simp only
      omega
  · cases hm

/-- The first loop of `removeOldWorks` adds to `removed` at most the bytes by which it
shrinks the disk. -/
theorem removeDirs_size : ∀ (works : List WorkEntry) (d : Disk) (removed : Nat),
    removed + rootSize d < U64 →
    (removeDirs works d removed).2 + rootSize (removeDirs works d removed).1
      ≤ removed + rootSize d := by
  intro works
  induction works with
  | nil => intro d removed _; exact Nat.le_refl _
  | cons w ws ih =>
    intro d removed hsz
    simp only [removeDirs]
    cases hm : GetDirectorySize d w.Path with
    | none => exact ih d removed hsz
    | some rm =>
      obtain ⟨h1, h2, _⟩ := RemoveAll_size d w.Path rm (by omega) hm
      rcases hr : RemoveAll d w.Path with ⟨d1, err⟩
      rw [hr] at h1 h2
      simp only at h1 h2
      cases err with
      | true =>
        have hle := h2 rfl
        simp only
        exact Nat.le_trans (ih d1 removed (by omega)) (by omega)
      | false =>
        have heq := h1 rfl
        have hmod : (removed + rm) % U64 = removed + rm := Nat.mod_eq_of_lt (by omega)
        simp only [hmod]
        exact Nat.le_trans (ih d1 (removed + rm) (by omega)) (by omega)

/-- One round of eviction: the bytes reported as freed are at most the bytes by which the
store root shrinks, the flags of the store stay, and the error is that of `GetOldWorks`. -/
theorem removeOldWorks_size (s : Store) (hsz : rootSize s.disk < U64) :
    (removeOldWorks s).1 + rootSize (removeOldWorks s).2.2.disk ≤ rootSize s.disk ∧
    (removeOldWorks s).2.1 = s.queryFails ∧
    (removeOldWorks s).2.2.queryFails = s.queryFails ∧
    (removeOldWorks s).2.2.deleteFails = s.deleteFails := by
  unfold removeOldWorks
  cases hq : s.queryFails with
  | true => simp [hq]
  | false =>
    simp only [Bool.false_eq_true, if_false]
    by_cases hw : (GetOldWorks s.index 10).length = 0
    · simp [hw, hq]
    · have hdirs := removeDirs_size (GetOldWorks s.index 10) s.disk 0 (by omega)
      simp only [hw, if_false]
      cases hd : s.deleteFails with
      | true => simp [hq, hd]; omega
      | false => simp [hq, hd]; omega

/-- A round on a non-empty index whose calls succeed removes at least one record; a round
on an empty index changes nothing and reports nothing freed. -/
theorem removeOldWorks_index (s : Store) (hq : s.queryFails = false) :
    (s.index = [] → removeOldWorks s = (0, false, s)) ∧
    (s.index ≠ [] → s.deleteFails = false →
      (removeOldWorks s).2.2.index.length < s.index.length) := by
  constructor
  · intro h
    simp [removeOldWorks, hq, h, GetOldWorks]
  · intro hne hd
    have hlen : (GetOldWorks s.index 10).length ≠ 0 := by
      unfold GetOldWorks
      rw [List.length_take, List.length_insertionSort]
      have : 0 < s.index.length := List.length_pos.2 hne
      omega
    obtain ⟨w, ws, hw⟩ : ∃ w ws, GetOldWorks s.index 10 = w :: ws := by
      cases h : GetOldWorks s.index 10 with
      | nil => rw [h] at hlen; exact absurd rfl hlen
      | cons w ws => exact ⟨w, ws, rfl⟩
    have hmem : w ∈ s.index := by
      have h1 : w ∈ GetOldWorks s.index 10 := by rw [hw]; exact List.mem_cons_self _ _
      unfold GetOldWorks at h1
      exact (List.mem_insertionSort _).1 (List.mem_of_mem_take h1)
    simp only [removeOldWorks, hq, hlen, hd, Bool.false_eq_true, if_false]
    unfold DeleteWorks
    rw [List.length_filter_lt_length_iff_exists]
    refine ⟨w, hmem, ?_⟩
    simp [hw]

/-- Every return of the loop of `CheckCacheSize` that starts with a running size at least
the size of the store root: the error is nil unless `GetOldWorks` fails, and after a nil
error the store root is within the limit. -/
theorem checkLoop_returned (limit : Nat) : ∀ (fuel size : Nat) (s : Store) (err : Bool)
    (s2 : Store), rootSize s.disk ≤ size → size < U64 →
    checkLoop limit fuel size s = .returned err s2 →
    (s.queryFails = false → err = false) ∧ (err = false → rootSize s2.disk ≤ limit) := by
  intro fuel
  induction fuel with
  | zero =>
    intro size s err s2 hle _ h
    rw [checkLoop] at h
    split at h
    · cases h
    · injection h with h1 h2
      subst h1 h2
      exact ⟨fun _ => rfl, fun _ => by omega⟩
  | succ fuel ih =>
    intro size s err s2 hle hlt h
    rw [checkLoop] at h
    split at h
    · obtain ⟨hsize, herr, hq, _⟩ := removeOldWorks_size s (by omega)
      rcases hrm : removeOldWorks s with ⟨removed, e, s1⟩
      rw [hrm] at h hsize herr hq
      simp only at hsize herr hq
      cases e with
      | true =>
        simp only at h
        injection h with h1 h2
        subst h1
        exact ⟨fun hq0 => by rw [hq0] at herr; exact herr, fun h0 => by cases h0⟩
      | false =>
        simp only at h
        have hmod : (size + U64 - removed) % U64 = size - removed := by
          unfold U64 at *
          omega
        rw [hmod] at h
        obtain ⟨ih1, ih2⟩ := ih (size - removed) s1 err s2 (by omega) (by omega) h
        exact ⟨fun hq0 => ih1 (by rw [hq, hq0]), ih2⟩
    · injection h with h1 h2
      subst h1 h2
      exact ⟨fun _ => rfl, fun _ => by omega⟩

/-- With the calls on the index succeeding, as many iterations as the index has records
bring the loop of `CheckCacheSize` either to a return with the store root within the
limit, or to the head of the loop with an empty index. -/
theorem checkLoop_progress (limit : Nat) : ∀ (fuel size : Nat) (s : Store),
    s.index.length ≤ fuel → s.queryFails = false → s.deleteFails = false →
    rootSize s.disk ≤ size → size < U64 →
    (∃ s2, checkLoop limit fuel size s = .returned false s2 ∧ rootSize s2.disk ≤ limit) ∨
    (∃ size2 s2, checkLoop limit fuel size s = .looping size2 s2 ∧ s2.index = []) := by
  intro fuel
  induction fuel with
  | zero =>
    intro size s hlen _ _ hle _
    rw [checkLoop]
    by_cases hg : limit < size
    · rw [if_pos hg]
      exact Or.inr ⟨size, s, rfl, List.length_eq_zero.1 (by omega)⟩
    · rw [if_neg hg]
      exact Or.inl ⟨s, rfl, by omega⟩
  | succ fuel ih =>
    intro size s hlen hq hd hle hlt
    rw [checkLoop]
    by_cases hg : limit < size
    · rw [if_pos hg]
      obtain ⟨hsize, herr, hq1, hd1⟩ := removeOldWorks_size s (by omega)
      obtain ⟨hempty, hshrink⟩ := removeOldWorks_index s hq
      rcases hrm : removeOldWorks s with ⟨removed, e, s1⟩
      rw [hrm] at hsize herr hq1 hd1 hempty hshrink
      simp only at hsize herr hq1 hd1 hshrink
      rw [hq] at herr
      subst herr
      simp only
      have hmod : (size + U64 - removed) % U64 = size - removed := by
        unfold U64 at *
        omega
      rw [hmod]
      have hlen1 : s1.index.length ≤ fuel := by
        by_cases hnil : s.index = []
        · have h0 := hempty hnil
          injection h0 with _ h0
          injection h0 with _ h0
          rw [h0, hnil]
          exact Nat.zero_le _
        · have := hshrink hnil hd
          omega
      exact ih (size - removed) s1 hlen1 (by rw [hq1, hq]) (by rw [hd1, hd]) (by omega)
        (by omega)
    · rw [if_neg hg]
      exact Or.inl ⟨s, rfl, by omega⟩

/-- C1: for every limit and every store whose root holds fewer than `2 ^ 64` bytes: whenever
`CheckCacheSize` returns a nil error, the total size of the store root is at most the limit
in bytes; and when its calls on the root and on the index succeed, after as many rounds of
eviction as the index has records it has either returned so, or stands at the head of its
loop with an index that holds no records. -/
theorem CheckCacheSize_quota (sizeMB : Nat) (s : Store) (hsz : rootSize s.disk < U64) :
    (∀ fuel s2, CheckCacheSize sizeMB fuel s = .returned false s2 →
      rootSize s2.disk ≤ limitBytes sizeMB) ∧
    (s.sizeFails = false → s.queryFails = false → s.deleteFails = false →
      (∃ s2, CheckCacheSize sizeMB s.index.length s = .returned false s2 ∧
        rootSize s2.disk ≤ limitBytes sizeMB) ∨
      (∃ size2 s2, CheckCacheSize sizeMB s.index.length s = .looping size2 s2 ∧
        s2.index = [])) := by
  have hmod : rootSize s.disk % U64 = rootSize s.disk := Nat.mod_eq_of_lt hsz
  constructor
  · intro fuel s2 h
    unfold CheckCacheSize at h
    split at h
    · cases h
    · rw [hmod] at h
      exact (checkLoop_returned (limitBytes sizeMB) fuel (rootSize s.disk) s false s2
        (Nat.le_refl _) hsz h).2 rfl
  · intro hw hq hd
    unfold CheckCacheSize
    simp only [hw, Bool.false_eq_true, if_false, hmod]
    exact checkLoop_progress (limitBytes sizeMB) s.index.length (rootSize s.disk) s
      (Nat.le_refl _) hq hd (Nat.le_refl _) hsz

/-- C1 at a concrete store: three works of 30 MB under a limit of 50 MB. -/
theorem CheckCacheSize_quota_witness :
    CheckCacheSize 50 3 fullStore
      = .returned false { fullStore with index := [], disk := { fullStore.disk with dirs := [] } } ∧
    rootSize ({ fullStore.disk with dirs := [] } : Disk) ≤ limitBytes 50 :=
  ⟨by decide,
    (CheckCacheSize_quota 50 fullStore (by decide)).1 3
      { fullStore with index := [], disk := { fullStore.disk with dirs := [] } } (by decide)⟩

/-- Once the index is empty and the running size exceeds the limit, the loop of
`CheckCacheSize` stays at its head for ever: every round frees nothing. -/
theorem checkLoop_empty_index (limit size : Nat) (s : Store) (hg : limit < size)
    (hlt : size < U64) (hidx : s.index = []) (hq : s.queryFails = false) :
    ∀ fuel, checkLoop limit fuel size s = .looping size s := by
  intro fuel
  induction fuel with
  | zero => rw [checkLoop, if_pos hg]
  | succ fuel ih =>
    have hrm : removeOldWorks s = (0, false, s) := (removeOldWorks_index s hq).1 hidx
    have hsz : (size + U64 - 0) % U64 = size := by
      unfold U64 at *
      omega
    rw [checkLoop, if_pos hg, hrm]
    simp only [hsz]
    exact ih

/-- C2 fails on the code: for a store of limit 50 MB whose index holds no records and whose
root holds an orphan directory of 50 MB and one byte, `CheckCacheSize` does not return,
whatever the number of iterations it is given: each round evicts nothing and leaves the
running size above the limit.  The same happens from a store with records once they are
used up, here one record whose directory cannot be deleted. -/
theorem CheckCacheSize_never_returns (fuel : Nat) :
    CheckCacheSize 50 fuel orphanStore = .looping 52428801 orphanStore ∧
    CheckCacheSize 50 (fuel + 1) stuckStore
      = .looping 52428801 { stuckStore with index := [] } := by
  have hg : limitBytes 50 < 52428801 := by decide
  have hlt : 52428801 < U64 := by decide
  constructor
  · have h : CheckCacheSize 50 fuel orphanStore
        = checkLoop (limitBytes 50) fuel 52428801 orphanStore := rfl
    rw [h]
    exact checkLoop_empty_index (limitBytes 50) 52428801 orphanStore hg hlt rfl rfl fuel
  · have hrm : removeOldWorks stuckStore = (0, false, { stuckStore with index := [] }) := by
      decide
    have hsz : (52428801 + U64 - 0) % U64 = 52428801 := by decide
    have h : CheckCacheSize 50 (fuel + 1) stuckStore
        = checkLoop (limitBytes 50) (fuel + 1) 52428801 stuckStore := rfl
    rw [h, checkLoop, if_pos hg, hrm]
    simp only [hsz]
    exact checkLoop_empty_index (limitBytes 50) 52428801 { stuckStore with index := [] }
      hg hlt rfl rfl fuel

/-! ### Claims on a group with at most one work -/

/-- C11: whenever `GetEventWorks` resolves at most one entry for the event of the batch,
`process` returns `true` and its calls are the poll, `GetEventWorks` and one `CloseTask`
with the task IDs of the batch: the checker is not run, no report is sent, and
`CloseTaskWithError` is not called. -/
theorem process_skips_single_work (a : Services) (first : Task) (rest : List Task)
    (works : List WorkEntry)
    (hpoll : a.GetNewTasksOfCommonEvent = some (first :: rest))
    (hworks : a.GetEventWorks first.EventID = .ok (some works)) (hlen : works.length ≤ 1) :
    process a = ([Call.GetNewTasksOfCommonEvent, Call.GetEventWorks first.EventID,
      Call.CloseTask ((first :: rest).map (·.ID)) (a.CloseTask ((first :: rest).map (·.ID)))],
      .ok true) := by
  simp only [process, hpoll, hworks, hlen, if_true]

/-- C11 at a concrete run: a batch of one task whose event resolves to a single work. -/
theorem process_skips_single_work_witness :
    process
        { GetNewTasksOfCommonEvent := some [⟨1, 1, 5⟩]
          GetEventWorks := fun _ => .ok (some [⟨5, "w/5", 0⟩])
          Run := fun _ _ => .ok none
          SendReport := fun _ => false
          CloseTask := fun _ => true
          CloseTaskWithError := fun _ => true
          CheckCacheSize := .ok true }
      = ([Call.GetNewTasksOfCommonEvent, Call.GetEventWorks 1, Call.CloseTask [1] true],
          .ok true) :=
  process_skips_single_work _ ⟨1, 1, 5⟩ [] [⟨5, "w/5", 0⟩] rfl rfl (by decide)

/-! ### Claims on the download of works -/

/-- The entry and the error of `downloadWork` do not depend on the index: the entry is
built from the path and the clock, and the error is nil exactly when the fetch is done;
`downloadWork` returns unless `downloadFile` panics. -/
theorem downloadWork_result (r : Remote) (root : String) (index : List WorkEntry) (w : Nat)
    (url : String) :
    (r.fetch w url ≠ .lengthUnknown →
      ∃ index1, downloadWork r root index w url
        = .ok (⟨0, GetWorkPath root w, r.now.Format⟩,
            !decide (r.fetch w url = .done), index1)) ∧
    (r.fetch w url = .lengthUnknown → downloadWork r root index w url = .error .outOfRange) := by
  unfold downloadWork
  cases hf : r.fetch w url
  · dsimp only
    cases SaveWork index w (GetWorkPath root w) r.now
    · exact ⟨fun _ => ⟨_, rfl⟩, fun h => by cases h⟩
    · exact ⟨fun _ => ⟨_, rfl⟩, fun h => by cases h⟩
  · exact ⟨fun _ => ⟨_, rfl⟩, fun h => by cases h⟩
  · exact ⟨fun _ => ⟨_, rfl⟩, fun h => by cases h⟩
  · exact ⟨fun h => absurd rfl h, fun _ => rfl⟩

/-- The loop of `downloadWorks` appends, in the order of the links, the entry of every link
whose fetch is done, and skips the others, as long as no download panics. -/
theorem downloadEach_result (r : Remote) (root : String) :
    ∀ (urls : List WorkUrl) (result index : List WorkEntry),
      (∀ u ∈ urls, r.fetch u.WorkID u.Url ≠ .lengthUnknown) →
      ∃ index1, downloadEach r root urls result index
        = .ok (result ++ (urls.filter (fun u => decide (r.fetch u.WorkID u.Url = .done))).map
            (fun u => (⟨0, GetWorkPath root u.WorkID, r.now.Format⟩ : WorkEntry)), index1) := by
  intro urls
  induction urls with
  | nil => intro result index _; exact ⟨index, by simp [downloadEach]⟩
  | cons u us ih =>
    intro result index hall
    obtain ⟨index1, hdw⟩ := (downloadWork_result r root index u.WorkID u.Url).1
      (hall u (List.mem_cons_self _ _))
    have hrest : ∀ v ∈ us, r.fetch v.WorkID v.Url ≠ .lengthUnknown :=
      fun v hv => hall v (List.mem_cons_of_mem _ hv)
    by_cases hf : r.fetch u.WorkID u.Url = .done
    · simp only [hf, decide_True, Bool.not_true] at hdw
      obtain ⟨index2, h2⟩ := ih (result ++ [⟨0, GetWorkPath root u.WorkID, r.now.Format⟩])
        index1 hrest
      refine ⟨index2, ?_⟩
      simp only [downloadEach, hdw, h2, List.filter_cons, hf, decide_True, if_true,
        List.map_cons, List.append_assoc, List.singleton_append]
    · simp only [hf, decide_False, Bool.not_false] at hdw
      obtain ⟨index2, h2⟩ := ih result index1 hrest
      refine ⟨index2, ?_⟩
      simp only [downloadEach, hdw, h2, List.filter_cons, hf, decide_False,
        Bool.false_eq_true, if_false]

/-- A download that panics ends the loop of `downloadWorks`: the links after it are not
fetched and nothing is returned. -/
theorem downloadEach_panics (r : Remote) (root : String) :
    ∀ (urls : List WorkUrl) (result index : List WorkEntry),
      (∃ u ∈ urls, r.fetch u.WorkID u.Url = .lengthUnknown) →
      downloadEach r root urls result index = .error .outOfRange := by
  intro urls
  induction urls with
  | nil =>
    intro result index h
    obtain ⟨u, hu, _⟩ := h
    exact absurd hu (List.not_mem_nil _)
  | cons u us ih =>
    intro result index h
    by_cases hf : r.fetch u.WorkID u.Url = .lengthUnknown
    · have hdw := (downloadWork_result r root index u.WorkID u.Url).2 hf
      simp only [downloadEach, hdw]
    · have hrest : ∃ v ∈ us, r.fetch v.WorkID v.Url = .lengthUnknown := by
        obtain ⟨v, hv, hvf⟩ := h
        rcases List.mem_cons.1 hv with h1 | h1
        · subst h1; exact absurd hvf hf
        · exact ⟨v, h1, hvf⟩
      obtain ⟨index1, hdw⟩ := (downloadWork_result r root index u.WorkID u.Url).1 hf
      cases hdone : !decide (r.fetch u.WorkID u.Url = .done) with
      | true =>
        rw [hdone] at hdw
        simp only [downloadEach, hdw, ih _ _ hrest]
      | false =>
        rw [hdone] at hdw
        simp only [downloadEach, hdw, ih _ _ hrest]

/-- C12 holds only while no download panics.  For every list of requested IDs: when no
download of a resolved link panics, `downloadWorks` returns, in the order of the resolved
links, the entry (path `GetWorkPath` of the work) of every link whose download succeeded
and nothing else, with a nil error, so that a download that returns an error only leaves
out its own entry; an empty request and a failed resolution give no entry; and when the
resolution of `[9, 11]` returns only the link of 11, the result is the entry of 11 alone,
with no error.  But a download whose response has status 200 and no declared length makes
`downloadFile` panic, and then `downloadWorks` returns nothing: with both links of
`[9, 11]` resolved and such a response for 9, work 11 is never fetched. -/
theorem downloadWorks_entries (r : Remote) (root : String) (index : List WorkEntry)
    (ids : List Nat) :
    (∀ urls, ids ≠ [] → getDownloadUrls r ids = some urls →
      (∀ u ∈ urls, r.fetch u.WorkID u.Url ≠ .lengthUnknown) →
      ∃ index1, downloadWorks r root index ids
        = .ok (some ((urls.filter (fun u => decide (r.fetch u.WorkID u.Url = .done))).map
            (fun u => (⟨0, GetWorkPath root u.WorkID, r.now.Format⟩ : WorkEntry))),
            false, index1)) ∧
    (∀ urls, ids ≠ [] → getDownloadUrls r ids = some urls →
      (∃ u ∈ urls, r.fetch u.WorkID u.Url = .lengthUnknown) →
      downloadWorks r root index ids = .error .outOfRange) ∧
    (ids = [] → downloadWorks r root index ids = .ok (some [], false, index)) ∧
    (ids ≠ [] → getDownloadUrls r ids = none →
      downloadWorks r root index ids = .ok (none, true, index)) ∧
    (∀ url, r.GetWorksDownloadLinks [9, 11] = some [some ⟨11, url⟩] → r.fetch 11 url = .done →
      ∃ index1, downloadWorks r root index [9, 11]
        = .ok (some [⟨0, GetWorkPath root 11, r.now.Format⟩], false, index1)) ∧
    chunkedRemote.fetch 11 "u11" = .done ∧
    downloadWorks chunkedRemote "storage" [] [9, 11] = .error .outOfRange := by
  refine ⟨?_, ?_, ?_, ?_, ?_, by decide, by decide⟩
  · intro urls hne hurls hall
    have hlen : ¬ ids.length = 0 := fun h => hne (List.length_eq_zero.1 h)
    obtain ⟨index1, h1⟩ := downloadEach_result r root urls [] index hall
    refine ⟨index1, ?_⟩
    simp only [downloadWorks, hlen, if_false, hurls, h1, List.nil_append]
  · intro urls hne hurls hex
    have hlen : ¬ ids.length = 0 := fun h => hne (List.length_eq_zero.1 h)
    simp only [downloadWorks, hlen, if_false, hurls, downloadEach_panics r root urls [] index hex]
  · intro h
    subst h
    rfl
  · intro hne hurls
    have hlen : ¬ ids.length = 0 := fun h => hne (List.length_eq_zero.1 h)
    simp only [downloadWorks, hlen, if_false, hurls]
  · intro url hlinks hfetch
    have hurls : getDownloadUrls r [9, 11] = some [⟨11, url⟩] := by
      simp only [getDownloadUrls, hlinks, List.map_cons, List.map_nil]
    have hlen : ¬ ([9, 11] : List Nat).length = 0 := by decide
    obtain ⟨index1, h1⟩ := downloadEach_result r root [⟨11, url⟩] [] index (by
      intro u hu
      rw [List.mem_singleton] at hu
      subst hu
      simp [hfetch])
    refine ⟨index1, ?_⟩
    simp only [downloadWorks, hlen, if_false, hurls, h1, List.nil_append,
      List.filter_cons, hfetch, decide_True, if_true, List.filter_nil, List.map_cons,
      List.map_nil]

/-- C12 at a concrete request: both links of `[9, 11]` resolve, the download of 9 returns an
error and the download of 11, which comes after it, succeeds. -/
theorem downloadWorks_entries_witness :
    ∃ index1, downloadWorks partialRemote "storage" [] [9, 11]
      = .ok (some [⟨0, "storage/works/11", 100⟩], false, index1) := by
  obtain ⟨index1, h⟩ := (downloadWorks_entries partialRemote "storage" [] [9, 11]).1
    [⟨9, "u9"⟩, ⟨11, "u11"⟩] (by decide) (by decide) (by decide)
  have hl : (([⟨9, "u9"⟩, ⟨11, "u11"⟩] : List WorkUrl).filter
        (fun u => decide (partialRemote.fetch u.WorkID u.Url = .done))).map
        (fun u => (⟨0, GetWorkPath "storage" u.WorkID, partialRemote.now.Format⟩ : WorkEntry))
      = [⟨0, "storage/works/11", 100⟩] := by decide
  rw [hl] at h
  exact ⟨index1, h⟩

/-- C13 fails on the code: once the links are resolved, the error that `downloadWorks`
returns is nil whatever the downloads did; with both links of `[9, 11]` resolved and the
download of 9 failing, it returns the entry of 11 and a nil error, which is what it returns
when every download succeeds. -/
theorem downloadWorks_error_is_nil :
    (∀ (r : Remote) (root : String) (index : List WorkEntry) (ids : List Nat)
        (urls : List WorkUrl) (out : Option (List WorkEntry) × Bool × List WorkEntry),
      getDownloadUrls r ids = some urls → downloadWorks r root index ids = .ok out →
      out.2.1 = false) ∧
    (∀ (r : Remote) (root : String) (index : List WorkEntry) (ids : List Nat)
        (urls : List WorkUrl), getDownloadUrls r ids = some urls →
      (∀ u ∈ urls, r.fetch u.WorkID u.Url ≠ .lengthUnknown) →
      ∃ out, downloadWorks r root index ids = .ok out ∧ out.2.1 = false) ∧
    partialRemote.fetch 9 "u9" = .failed ∧
    (downloadWorks partialRemote "storage" [] [9, 11]).map (fun out => (out.1, out.2.1))
      = .ok (some [⟨0, "storage/works/11", 100⟩], false) := by
  refine ⟨?_, ?_, by decide, by decide⟩
  · intro r root index ids urls out hurls h
    unfold downloadWorks at h
    split at h
    · cases h
      rfl
    · simp only [hurls] at h
      split at h
      · cases h
      · cases h
        rfl
  · intro r root index ids urls hurls hall
    by_cases hlen : ids.length = 0
    · have h : downloadWorks r root index ids = .ok (some [], false, index) := by
        simp only [downloadWorks, hlen, if_true]
      exact ⟨_, h, rfl⟩
    · obtain ⟨index1, h1⟩ := downloadEach_result r root urls [] index hall
      have h : downloadWorks r root index ids
          = .ok (some ([] ++ (urls.filter
              (fun u => decide (r.fetch u.WorkID u.Url = .done))).map
                (fun u => (⟨0, GetWorkPath root u.WorkID, r.now.Format⟩ : WorkEntry))),
              false, index1) := by
        simp only [downloadWorks, hlen, if_false, hurls, h1]
      exact ⟨_, h, rfl⟩

/-- C14 fails on the code: for a response that holds a nil item, `getDownloadUrls` returns
an element for it, the zero value of `WorkUrl` (work ID 0, empty link), which comes from no
link item of the response.  For a response without nil items the result is exactly the list
of its links. -/
theorem getDownloadUrls_zero_entry :
    getDownloadUrls nilItemRemote [9, 11] = some [⟨0, ""⟩, ⟨11, "u11"⟩] ∧
    (∀ (r : Remote) (ids : List Nat) (links : List WorkUrl),
      r.GetWorksDownloadLinks ids = some (links.map some) → getDownloadUrls r ids = some links) := by
  refine ⟨by decide, ?_⟩
  intro r ids links h
  simp only [getDownloadUrls, h, List.map_map]
  congr 1
  have hid : ∀ ls : List WorkUrl,
      ls.map ((fun item : Option WorkUrl =>
          match item with
          | none => (⟨0, ""⟩ : WorkUrl)
          | some link => ⟨link.WorkID, link.Url⟩) ∘ some) = ls := by
    intro ls
    induction ls with
    | nil => rfl
    | cons l ls ih => simp only [List.map_cons, Function.comp_apply, ih]
  exact hid links

/-! ### Claims on the composite IDs of the result archive -/

theorem digitChar_decimal (d : Nat) (hd : d < 10) :
    (Nat.digitChar d).isDigit = true ∧ Nat.digitChar d ≠ '_' ∧
      (Nat.digitChar d).toNat - '0'.toNat = d := by
  interval_cases d <;> decide

/-- The decimal text that `Nat.toDigitsCore` puts in front of `ds`: a non-empty run of
decimal digits whose value is `n`. -/
theorem toDigitsCore_decimal : ∀ (fuel n : Nat) (ds : List Char), n < fuel →
    ∃ pre, Nat.toDigitsCore 10 fuel n ds = pre ++ ds ∧ pre ≠ [] ∧
      (∀ c ∈ pre, c.isDigit = true ∧ c ≠ '_') ∧
      pre.foldl (fun acc c => acc * 10 + (c.toNat - '0'.toNat)) 0 = n := by
  intro fuel
  induction fuel with
  | zero => intro n ds h; omega
  | succ fuel ih =>
    intro n ds h
    obtain ⟨hdig, hne, hval⟩ := digitChar_decimal (n % 10) (Nat.mod_lt _ (by decide))
    simp only [Nat.toDigitsCore]
    by_cases h0 : n / 10 = 0
    · refine ⟨[Nat.digitChar (n % 10)], by simp [h0], by simp, ?_, ?_⟩
      · intro c hc
        rw [List.mem_singleton] at hc
        subst hc
        exact ⟨hdig, hne⟩
      · simp only [List.foldl_cons, List.foldl_nil, Nat.zero_mul, Nat.zero_add, hval]
        omega
    · obtain ⟨pre, hpre, _, hall, hv⟩ := ih (n / 10) (Nat.digitChar (n % 10) :: ds) (by omega)
      refine ⟨pre ++ [Nat.digitChar (n % 10)], by simp [h0, hpre], by simp, ?_, ?_⟩
      · intro c hc
        rcases List.mem_append.1 hc with hc | hc
        · exact hall c hc
        · rw [List.mem_singleton] at hc
          subst hc
          exact ⟨hdig, hne⟩
      · rw [List.foldl_append, hv]
        simp only [List.foldl_cons, List.foldl_nil, hval]
        omega

theorem toString_decimal (n : Nat) :
    (toString n).data ≠ [] ∧ (∀ c ∈ (toString n).data, c.isDigit = true ∧ c ≠ '_') ∧
      (toString n).data.foldl (fun acc c => acc * 10 + (c.toNat - '0'.toNat)) 0 = n := by
  obtain ⟨pre, hpre, hne, hall, hv⟩ := toDigitsCore_decimal (n + 1) n [] (by omega)
  have hdata : (toString n).data = pre := by
    rw [List.append_nil] at hpre
    exact hpre
  rw [hdata]
  exact ⟨hne, hall, hv⟩

/-- The library call `ParseUint` on the decimal text of a number below `2 ^ 64` gives the
number. -/
theorem ParseUint_toString (n : Nat) (hn : n < U64) : ParseUint (toString n) = some n := by
  obtain ⟨hne, hall, hv⟩ := toString_decimal n
  have hdigits : (toString n).data.all Char.isDigit = true := by
    rw [List.all_eq_true]
    intro c hc
    exact (hall c hc).1
  simp only [ParseUint, hne, if_false, hdigits, if_true, hv, hn]

theorem takeWhile_before_underscore : ∀ (pre rest : List Char), (∀ c ∈ pre, c ≠ '_') →
    (pre ++ '_' :: rest).takeWhile (fun c => decide (c ≠ '_')) = pre := by
  intro pre
  induction pre with
  | nil => intro rest _; simp
  | cons c cs ih =>
    intro rest h
    have hc : c ≠ '_' := h c (List.mem_cons_self _ _)
    have hcs := ih rest (fun x hx => h x (List.mem_cons_of_mem _ hx))
    simp only [List.cons_append, List.takeWhile_cons, hc, ne_eq, not_false_eq_true,
      decide_True, if_true, List.cons.injEq, true_and]
    exact hcs

/-- The prefix that `readItem` parses from a composite ID `<n>_<suffix>` is the decimal
text of `n`. -/
theorem firstField_composite (n : Nat) (suffix : String) :
    firstField (toString n ++ "_" ++ suffix) = toString n := by
  obtain ⟨_, hall, _⟩ := toString_decimal n
  have hdata : (toString n ++ "_" ++ suffix).data = (toString n).data ++ '_' :: suffix.data := by
    simp [String.data_append]
  unfold firstField
  rw [hdata, takeWhile_before_underscore _ _ (fun c hc => (hall c hc).2)]

/-- C15: for an entry that `readItem` reads (not auxiliary, valid JSON): if its composite
IDs are `<n1>_<suffix>` and `<n2>_<suffix>` with `n1`, `n2` decimal numbers below `2 ^ 64`,
every report that `readItem` yields carries the work IDs `n1` and `n2`, and it yields one
whenever the match paths fit; if the prefix of either ID is not a valid decimal `uint64`,
`readItem` yields no report and an error, and `parse` goes on with the remaining entries as
if the entry were not there. -/
theorem readItem_workIDs (root : String) (files : String → Option (List Char)) (f : ZipFile)
    (result : ResultDTO) (hdec : f.decoded = some result) (haux : isAuxiliary f.Name = false) :
    (∀ (n1 n2 : Nat) (s1 s2 : String), n1 < U64 → n2 < U64 →
      result.ID1 = toString n1 ++ "_" ++ s1 → result.ID2 = toString n2 ++ "_" ++ s2 →
      (∀ report err, readItem root files f = .ok (some report, err) →
        report.Work1ID = n1 ∧ report.Work2ID = n2) ∧
      (pathsFit f = true → ∃ report, readItem root files f = .ok (some report, false) ∧
        report.Work1ID = n1 ∧ report.Work2ID = n2)) ∧
    (ParseUint (firstField result.ID1) = none ∨ ParseUint (firstField result.ID2) = none →
      readItem root files f = .ok (none, true) ∧
      (∀ rest acc, parseEach root files (f :: rest) acc = parseEach root files rest acc) ∧
      (∀ rest, parse root files (some (f :: rest)) = parse root files (some rest))) := by
  constructor
  · intro n1 n2 s1 s2 hn1 hn2 hid1 hid2
    have h1 : ParseUint (firstField result.ID1) = some n1 := by
      rw [hid1, firstField_composite, ParseUint_toString n1 hn1]
    have h2 : ParseUint (firstField result.ID2) = some n2 := by
      rw [hid2, firstField_composite, ParseUint_toString n2 hn2]
    have hids : ∀ report err, readItem root files f = .ok (some report, err) →
        report.Work1ID = n1 ∧ report.Work2ID = n2 := by
      intro report err h
      simp only [readItem, haux, hdec, h1, h2, Bool.false_eq_true, if_false] at h
      cases hrm : readMatches root files n1 n2 (result.ID1.length + 1) (result.ID2.length + 1)
          result.Matches with
      | error e => rw [hrm] at h; cases h
      | ok items =>
        rw [hrm] at h
        injection h with h
        injection h with h _
        injection h with h
        subst h
        exact ⟨rfl, rfl⟩
    refine ⟨hids, ?_⟩
    intro hfit
    have hd : decodable f = true := by
      simp [decodable, haux, hdec, h1, h2]
    obtain ⟨report, hr⟩ := readItem_decodable root files f hd hfit
    exact ⟨report, hr, hids report false hr⟩
  · intro h
    have hr : readItem root files f = .ok (none, true) := by
      rcases h with h | h
      · simp only [readItem, haux, hdec, h, Bool.false_eq_true, if_false]
      · cases h1 : ParseUint (firstField result.ID1) with
        | none => simp only [readItem, haux, hdec, h1, Bool.false_eq_true, if_false]
        | some n1 => simp only [readItem, haux, hdec, h1, h, Bool.false_eq_true, if_false]
    refine ⟨hr, ?_, ?_⟩
    · intro rest acc
      simp only [parseEach, hr]
    · intro rest
      simp only [parse, parseEach, hr]

/-- C15 at a concrete entry: IDs `5_5` and `7_7` give the work IDs 5 and 7. -/
theorem readItem_workIDs_witness :
    ∃ report, readItem "storage" sampleFiles goodEntry = .ok (some report, false) ∧
      report.Work1ID = 5 ∧ report.Work2ID = 7 :=
  ((readItem_workIDs "storage" sampleFiles goodEntry _ rfl (by decide)).1 5 7 "5" "7"
    (by decide) (by decide) (by decide) (by decide)).2 (by decide)

/-! ### Claims on the rounds of eviction -/

theorem removeOldWorks_sizeFails (s : Store) :
    (removeOldWorks s).2.2.sizeFails = s.sizeFails := by
  unfold removeOldWorks
  split
  · rfl
  · dsimp only
    split
    · rfl
    · split <;> rfl

/-- A return of the loop of `CheckCacheSize` leaves a store root no larger than before and
does not change whether measuring the root fails. -/
theorem checkLoop_returned_store (limit : Nat) : ∀ (fuel size : Nat) (s : Store) (err : Bool)
    (s2 : Store), rootSize s.disk ≤ size → size < U64 →
    checkLoop limit fuel size s = .returned err s2 →
    rootSize s2.disk ≤ rootSize s.disk ∧ s2.sizeFails = s.sizeFails := by
  intro fuel
  induction fuel with
  | zero =>
    intro size s err s2 _ _ h
    rw [checkLoop] at h
    split at h
    · cases h
    · injection h with h1 h2
      subst h2
      exact ⟨Nat.le_refl _, rfl⟩
  | succ fuel ih =>
    intro size s err s2 hle hlt h
    rw [checkLoop] at h
    split at h
    · obtain ⟨hsize, _, _, _⟩ := removeOldWorks_size s (by omega)
      have hsf := removeOldWorks_sizeFails s
      rcases hrm : removeOldWorks s with ⟨removed, e, s1⟩
      rw [hrm] at h hsize hsf
      simp only at hsize hsf
      cases e with
      | true =>
        simp only at h
        injection h with h1 h2
        subst h2
        exact ⟨by omega, hsf⟩
      | false =>
        simp only at h
        have hmod : (size + U64 - removed) % U64 = size - removed := by
          unfold U64 at *
          omega
        rw [hmod] at h
        obtain ⟨ih1, ih2⟩ := ih (size - removed) s1 err s2 (by omega) (by omega) h
        exact ⟨by omega, by rw [ih2, hsf]⟩
    · injection h with h1 h2
      subst h2
      exact ⟨Nat.le_refl _, rfl⟩

/-- When `GetOldWorks` fails, a return of the loop of `CheckCacheSize` leaves the store as
it was, and a return with an error is repeated with any budget of at least one round. -/
theorem checkLoop_queryFails (limit : Nat) (fuel size : Nat) (s : Store) (err : Bool)
    (s2 : Store) (hq : s.queryFails = true)
    (h : checkLoop limit fuel size s = .returned err s2) :
    s2 = s ∧ (err = true → ∀ fuel2, checkLoop limit (fuel2 + 1) size s = .returned true s) := by
  have hrm : removeOldWorks s = (0, true, s) := by
    simp [removeOldWorks, hq]
  cases fuel with
  | zero =>
    rw [checkLoop] at h
    split at h
    · cases h
    · injection h with h1 h2
      subst h1 h2
      exact ⟨rfl, fun h0 => by cases h0⟩
  | succ fuel =>
    rw [checkLoop] at h
    split at h
    · rename_i hg
      rw [hrm] at h
      simp only at h
      injection h with h1 h2
      subst h2
      refine ⟨rfl, fun _ fuel2 => ?_⟩
      rw [checkLoop, if_pos hg, hrm]
    · injection h with h1 h2
      subst h1 h2
      exact ⟨rfl, fun h0 => by cases h0⟩

/-- C19: if `CheckCacheSize` returns, an immediately following `CheckCacheSize` on the store
it left returns the same error with the store unchanged: it removes no index record and
deletes no directory.  After a nil error it returns before its first round, whatever its
budget; after an error it repeats the failing call and returns. -/
theorem CheckCacheSize_idempotent (sizeMB fuel : Nat) (s s1 : Store) (err : Bool)
    (hsz : rootSize s.disk < U64) (h : CheckCacheSize sizeMB fuel s = .returned err s1) :
    ∀ fuel2, err = false ∨ 1 ≤ fuel2 → CheckCacheSize sizeMB fuel2 s1 = .returned err s1 := by
  have hmod : rootSize s.disk % U64 = rootSize s.disk := Nat.mod_eq_of_lt hsz
  intro fuel2 hf
  unfold CheckCacheSize at h
  cases hsf : s.sizeFails with
  | true =>
    simp only [hsf, if_true] at h
    injection h with h1 h2
    subst h1 h2
    simp only [CheckCacheSize, hsf, if_true]
  | false =>
    simp only [hsf, Bool.false_eq_true, if_false, hmod] at h
    obtain ⟨hq, hlim⟩ := checkLoop_returned (limitBytes sizeMB) fuel (rootSize s.disk) s err s1
      (Nat.le_refl _) hsz h
    obtain ⟨hle, hsf1⟩ := checkLoop_returned_store (limitBytes sizeMB) fuel (rootSize s.disk) s
      err s1 (Nat.le_refl _) hsz h
    cases err with
    | false =>
      have hlim1 := hlim rfl
      have hmod1 : rootSize s1.disk % U64 = rootSize s1.disk := Nat.mod_eq_of_lt (by omega)
      have hg : ¬ limitBytes sizeMB < rootSize s1.disk := by omega
      simp only [CheckCacheSize, hsf1, hsf, Bool.false_eq_true, if_false, hmod1]
      cases fuel2 with
      | zero => rw [checkLoop, if_neg hg]
      | succ k => rw [checkLoop, if_neg hg]
    | true =>
      have hqt : s.queryFails = true := by
        cases hq0 : s.queryFails with
        | true => rfl
        | false => exact absurd (hq hq0) (by decide)
      obtain ⟨hs, hrep⟩ := checkLoop_queryFails (limitBytes sizeMB) fuel (rootSize s.disk) s true
        s1 hqt h
      subst hs
      obtain ⟨k, rfl⟩ : ∃ k, fuel2 = k + 1 := by
        rcases hf with hf | hf
        · cases hf
        · exact ⟨fuel2 - 1, by omega⟩
      simp only [CheckCacheSize, hsf, Bool.false_eq_true, if_false, hmod]
      exact hrep rfl k

/-- C19 at a concrete store: after the call that evicts the three works of `fullStore`, a
second call returns at once with the store as the first call left it. -/
theorem CheckCacheSize_idempotent_witness :
    CheckCacheSize 50 0
        { fullStore with index := [], disk := { fullStore.disk with dirs := [] } }
      = .returned false
        { fullStore with index := [], disk := { fullStore.disk with dirs := [] } } :=
  CheckCacheSize_idempotent 50 3 fullStore _ false (by decide) (by decide) 0 (Or.inl rfl)

theorem GetDirectorySize_none_iff (d : Disk) (path : String) :
    GetDirectorySize d path = none ↔ ∀ x ∈ d.dirs, x.1 ≠ path := by
  unfold GetDirectorySize
  by_cases h : d.dirs.any (fun x => decide (x.1 = path)) = true
  · rw [if_pos h]
    simp only [List.any_eq_true, decide_eq_true_eq] at h
    obtain ⟨x, hx, hp⟩ := h
    constructor
    · intro h0; cases h0
    · intro hall; exact absurd hp (hall x hx)
  · rw [if_neg h]
    simp only [List.any_eq_true, decide_eq_true_eq, not_exists, not_and] at h
    exact ⟨fun _ => h, fun _ => rfl⟩

theorem filter_congr_mem (l : List (String × Nat)) (p q : String × Nat → Bool)
    (h : ∀ x ∈ l, p x = q x) : l.filter p = l.filter q := by
  induction l with
  | nil => rfl
  | cons a as ih =>
    have ha := h a (List.mem_cons_self _ _)
    have has := ih (fun x hx => h x (List.mem_cons_of_mem _ hx))
    simp only [List.filter_cons, ha, has]

theorem isDeleted_cons_ne (w : WorkEntry) (ws : List WorkEntry) (d : Disk) (x : String × Nat)
    (hx : x.1 ≠ w.Path) : isDeleted (w :: ws) d x = isDeleted ws d x := by
  simp [isDeleted, hx]

theorem leftOver_cons_ne (w : WorkEntry) (ws : List WorkEntry) (d : Disk) (x : String × Nat)
    (hx : x.1 ≠ w.Path) : leftOver (w :: ws) d x = leftOver ws d x := by
  simp [leftOver, hx]

theorem isDeleted_undeletable (ws : List WorkEntry) (d d1 : Disk)
    (h : d1.undeletable = d.undeletable) : isDeleted ws d1 = isDeleted ws d := by
  funext x
  simp only [isDeleted, h]

theorem leftOver_undeletable (ws : List WorkEntry) (d d1 : Disk)
    (h : d1.undeletable = d.undeletable) : leftOver ws d1 = leftOver ws d := by
  funext x
  simp only [leftOver, h]

/-- The first loop of `removeOldWorks` in closed form: it deletes the directories whose path
is that of a selected work and on which `os.RemoveAll` succeeds, it adds to `removed` the
sum of their sizes, and of a directory on which `os.RemoveAll` fails it leaves what cannot
be removed. -/
theorem removeDirs_eq : ∀ (works : List WorkEntry) (d : Disk) (removed : Nat),
    removed + rootSize d < U64 →
    removeDirs works d removed
      = ({ d with dirs := (d.dirs.filter (fun x => !isDeleted works d x)).map (leftOver works d) },
         removed + ((d.dirs.filter (isDeleted works d)).map (·.2)).sum) := by
  intro works
  induction works with
  | nil =>
    intro d removed _
    have h0 : isDeleted [] d = fun _ => false := by
      funext x
      simp [isDeleted]
    have h1 : leftOver [] d = id := by
      funext x
      simp [leftOver]
    simp [removeDirs, h0, h1]
  | cons w ws ih =>
    intro d removed hsz
    simp only [removeDirs]
    cases hm : GetDirectorySize d w.Path with
    | none =>
      have hno := (GetDirectorySize_none_iff d w.Path).1 hm
      have hsame : ∀ x ∈ d.dirs, isDeleted (w :: ws) d x = isDeleted ws d x :=
        fun x hx => isDeleted_cons_ne w ws d x (hno x hx)
      have hleft : ∀ x ∈ d.dirs.filter (fun x => !isDeleted ws d x),
          leftOver ws d x = leftOver (w :: ws) d x :=
        fun x hx => (leftOver_cons_ne w ws d x (hno x (List.mem_of_mem_filter hx))).symm
      rw [ih d removed hsz,
        filter_congr_mem d.dirs _ _ hsame,
        filter_congr_mem d.dirs (fun x => !isDeleted (w :: ws) d x)
          (fun x => !isDeleted ws d x) (fun x hx => by simp only [hsame x hx]),
        List.map_congr_left hleft]
    | some rm =>
      obtain ⟨hfree, hshrink, hund1⟩ := RemoveAll_size d w.Path rm (by omega) hm
      have hany : d.dirs.any (fun x => decide (x.1 = w.Path)) = true := by
        unfold GetDirectorySize at hm
        split at hm
        · assumption
        · cases hm
      cases hl : d.undeletable.lookup w.Path with
      | some left =>
        have hr : RemoveAll d w.Path
            = ({ d with
                  dirs := d.dirs.map
                    (fun x => if x.1 = w.Path then (x.1, min x.2 left) else x) }, true) := by
          simp only [RemoveAll, hany, if_true, hl]
        rw [hr] at hshrink hund1
        have hle := hshrink rfl
        simp only at hle
        simp only [hr]
        rw [ih _ removed (by omega),
          isDeleted_undeletable ws d _ hund1, leftOver_undeletable ws d _ hund1]
        have hdel : ∀ x : String × Nat, isDeleted (w :: ws) d x = isDeleted ws d x := by
          intro x
          by_cases hx : x.1 = w.Path
          · simp [isDeleted, hx, hl]
          · exact isDeleted_cons_ne w ws d x hx
        have hdel2 : isDeleted (w :: ws) d = isDeleted ws d := funext hdel
        have hfst : ∀ x : String × Nat,
            isDeleted ws d (if x.1 = w.Path then (x.1, min x.2 left) else x)
              = isDeleted ws d x := by
          intro x
          by_cases hx : x.1 = w.Path
          · simp [isDeleted, hx]
          · simp [hx]
        have hfilter : ∀ (p : String × Nat → Bool),
            (∀ x : String × Nat, p (if x.1 = w.Path then (x.1, min x.2 left) else x) = p x) →
            (d.dirs.map (fun x => if x.1 = w.Path then (x.1, min x.2 left) else x)).filter p
              = (d.dirs.filter p).map
                  (fun x => if x.1 = w.Path then (x.1, min x.2 left) else x) := by
          intro p hp
          rw [List.filter_map]
          congr 1
          apply filter_congr_mem
          intro x _
          exact hp x
        simp only
        rw [hfilter (fun x => !isDeleted ws d x) (fun x => by simp only [hfst x]),
          hfilter (isDeleted ws d) hfst, hdel2, List.map_map, List.map_map]
        congr 1
        · congr 1
          apply List.map_congr_left
          intro x _
          by_cases hx : x.1 = w.Path
          · simp [leftOver, hx, hl, Nat.min_assoc]
          · simp [hx, leftOver_cons_ne w ws d x hx]
        · congr 2
          apply List.map_congr_left
          intro x hx
          have hxd := (List.mem_filter.1 hx).2
          by_cases hp : x.1 = w.Path
          · simp [isDeleted, hp, hl] at hxd
          · simp [hp]
      | none =>
        have hr : RemoveAll d w.Path
            = ({ d with dirs := d.dirs.filter (fun x => decide (x.1 ≠ w.Path)) }, false) := by
          simp only [RemoveAll, hany, if_true, hl]
        rw [hr] at hfree hund1
        have hsize := hfree rfl
        simp only at hsize
        have hrm : rm = ((d.dirs.filter (fun x => decide (x.1 = w.Path))).map (·.2)).sum := by
          have hm2 := hm
          simp only [GetDirectorySize, hany, if_true] at hm2
          injection hm2 with hm2
          have hle := sum_filter_split d.dirs (fun x => decide (x.1 = w.Path))
          have hlt : ((d.dirs.filter (fun x => decide (x.1 = w.Path))).map (·.2)).sum < U64 := by
            unfold rootSize at hsz
            omega
          rw [Nat.mod_eq_of_lt hlt] at hm2
          exact hm2.symm
        have hmod : (removed + rm) % U64 = removed + rm := Nat.mod_eq_of_lt (by omega)
        simp only [hr, hmod]
        rw [ih _ (removed + rm) (by omega),
          isDeleted_undeletable ws d _ hund1, leftOver_undeletable ws d _ hund1]
        simp only
        have hkeep : (d.dirs.filter (fun x => decide (x.1 ≠ w.Path))).filter
              (fun x => !isDeleted ws d x)
            = d.dirs.filter (fun x => !isDeleted (w :: ws) d x) := by
          simp only [List.filter_filter]
          apply filter_congr_mem
          intro x _
          by_cases hx : x.1 = w.Path
          · simp [isDeleted, hx, hl]
          · simp [isDeleted, hx]
        have hgone : (((d.dirs.filter (fun x => decide (x.1 ≠ w.Path))).filter
              (isDeleted ws d)).map (·.2)).sum + rm
            = ((d.dirs.filter (isDeleted (w :: ws) d)).map (·.2)).sum := by
          have hsplit := sum_filter_split (d.dirs.filter (isDeleted (w :: ws) d))
            (fun x => decide (x.1 = w.Path))
          have h1 : (d.dirs.filter (isDeleted (w :: ws) d)).filter (fun x => decide (x.1 = w.Path))
              = d.dirs.filter (fun x => decide (x.1 = w.Path)) := by
            simp only [List.filter_filter]
            apply filter_congr_mem
            intro x _
            by_cases hx : x.1 = w.Path
            · simp [isDeleted, hx, hl]
            · simp [isDeleted, hx]
          have h2 : (d.dirs.filter (isDeleted (w :: ws) d)).filter
                (fun x => !decide (x.1 = w.Path))
              = (d.dirs.filter (fun x => decide (x.1 ≠ w.Path))).filter (isDeleted ws d) := by
            simp only [List.filter_filter]
            apply filter_congr_mem
            intro x _
            by_cases hx : x.1 = w.Path
            · simp [isDeleted, hx, hl]
            · simp [isDeleted, hx]
          rw [h1, h2, ← hrm] at hsplit
          omega
        rw [hkeep, ← hgone]
        congr 1
        · congr 1
          apply List.map_congr_left
          intro x hx
          have hxd := (List.mem_filter.1 hx).2
          by_cases hp : x.1 = w.Path
          · simp [isDeleted, hp, hl] at hxd
          · exact (leftOver_cons_ne w ws d x hp).symm
        · omega

/-- A round of `removeOldWorks` whose query succeeds, in closed form. -/
theorem removeOldWorks_eq (s : Store) (hsz : rootSize s.disk < U64)
    (hq : s.queryFails = false) :
    removeOldWorks s
      = (((s.disk.dirs.filter (isDeleted (GetOldWorks s.index 10) s.disk)).map (·.2)).sum, false,
          { s with
            disk := { s.disk with
              dirs := (s.disk.dirs.filter
                (fun x => !isDeleted (GetOldWorks s.index 10) s.disk x)).map
                  (leftOver (GetOldWorks s.index 10) s.disk) }
            index := if s.deleteFails then s.index
              else DeleteWorks s.index ((GetOldWorks s.index 10).map (·.WorkID)) }) := by
  have hdirs := removeDirs_eq (GetOldWorks s.index 10) s.disk 0 (by omega)
  by_cases hw : (GetOldWorks s.index 10).length = 0
  · have hnil : GetOldWorks s.index 10 = [] := List.length_eq_zero.1 hw
    have h0 : isDeleted [] s.disk = fun _ => false := by
      funext x
      simp [isDeleted]
    have h1 : leftOver [] s.disk = id := by
      funext x
      simp [leftOver]
    cases s with
    | mk index disk sizeFails queryFails deleteFails =>
      cases disk
      simp only at hq hnil h0 h1
      subst hq
      simp [removeOldWorks, hnil, h0, h1, DeleteWorks]
  · cases hd : s.deleteFails <;>
      simp only [removeOldWorks, hq, hd, hw, Bool.false_eq_true, if_false, if_true, hdirs,
        Nat.zero_add]

/-- C20, as stated, fails when the deletion from the index fails: the round on a store with
three works selects all three, deletes their directories and reports their 90 MB, and
returns a nil error with all three records still in the index. -/
theorem removeOldWorks_keeps_records_when_delete_fails :
    (GetOldWorks fullStore.index 10).length = 3 ∧
    (removeOldWorks { fullStore with deleteFails := true }).1 = 94371840 ∧
    (removeOldWorks { fullStore with deleteFails := true }).2.1 = false ∧
    (removeOldWorks { fullStore with deleteFails := true }).2.2.disk.dirs = [] ∧
    (removeOldWorks { fullStore with deleteFails := true }).2.2.index = fullStore.index ∧
    ¬ (∀ w ∈ GetOldWorks fullStore.index 10,
        w ∉ (removeOldWorks { fullStore with deleteFails := true }).2.2.index) := by
  refine ⟨by decide, by decide, by decide, by decide, by decide, ?_⟩
  intro h
  exact h ⟨3, "storage/works/3", 7⟩ (by decide) (by decide)

/-- C20, amended: a round of `removeOldWorks` selects the (up to) 10 oldest records; when
the query fails it reports nothing and the error; otherwise it returns a nil error, it
removes every selected record from the index, whether or not its directory was measured and
deleted, when `DeleteWorks` succeeds, and leaves the index as it was when `DeleteWorks`
fails; it deletes the directories of the selected records on which the deletion succeeds
and reports as freed exactly the sum of the sizes of those directories; of a directory on
which the deletion fails what cannot be removed is left and nothing is reported, so that the
amount reported is at most the amount freed; and `CheckCacheSize` goes on with its running
size lowered by exactly the amount reported. -/
theorem removeOldWorks_round (s : Store) (hsz : rootSize s.disk < U64) :
    (GetOldWorks s.index 10).length ≤ 10 ∧
    (s.queryFails = true → removeOldWorks s = (0, true, s)) ∧
    (s.queryFails = false →
      (removeOldWorks s).2.1 = false ∧
      (s.deleteFails = false →
        (removeOldWorks s).2.2.index
          = DeleteWorks s.index ((GetOldWorks s.index 10).map (·.WorkID)) ∧
        ∀ w ∈ GetOldWorks s.index 10, w ∉ (removeOldWorks s).2.2.index) ∧
      (s.deleteFails = true → (removeOldWorks s).2.2.index = s.index) ∧
      (removeOldWorks s).2.2.disk.dirs
        = (s.disk.dirs.filter (fun x => !isDeleted (GetOldWorks s.index 10) s.disk x)).map
            (leftOver (GetOldWorks s.index 10) s.disk) ∧
      (removeOldWorks s).1
        = ((s.disk.dirs.filter (isDeleted (GetOldWorks s.index 10) s.disk)).map (·.2)).sum ∧
      (removeOldWorks s).1 + rootSize (removeOldWorks s).2.2.disk ≤ rootSize s.disk ∧
      (∀ limit fuel size, limit < size → rootSize s.disk ≤ size → size < U64 →
        checkLoop limit (fuel + 1) size s
          = checkLoop limit fuel (size - (removeOldWorks s).1) (removeOldWorks s).2.2)) := by
  have hlen10 : (GetOldWorks s.index 10).length ≤ 10 := by
    unfold GetOldWorks
    rw [List.length_take]
    exact Nat.min_le_left _ _
  refine ⟨hlen10, ?_, ?_⟩
  · intro hq
    simp [removeOldWorks, hq]
  · intro hq
    have hrm := removeOldWorks_eq s hsz hq
    obtain ⟨hsize, _, _, _⟩ := removeOldWorks_size s hsz
    refine ⟨by rw [hrm], ?_, ?_, by rw [hrm], by rw [hrm], hsize, ?_⟩
    · intro hd
      have hidx : (removeOldWorks s).2.2.index
          = DeleteWorks s.index ((GetOldWorks s.index 10).map (·.WorkID)) := by
        rw [hrm]
        simp only [hd, Bool.false_eq_true, if_false]
      refine ⟨hidx, ?_⟩
      intro w hw hmem
      rw [hidx] at hmem
      simp only [DeleteWorks, List.mem_filter, decide_eq_true_eq, List.mem_map, not_exists,
        not_and] at hmem
      exact hmem.2 w hw rfl
    · intro hd
      rw [hrm]
      simp only [hd, if_true]
    · intro limit fuel size hg hle hlt
      rcases hrm2 : removeOldWorks s with ⟨removed, e, s1⟩
      have he : e = false := by
        have := congrArg (fun t => t.2.1) hrm
        rw [hrm2] at this
        exact this
      subst he
      rw [hrm2] at hsize
      simp only at hsize
      have hmod : (size + U64 - removed) % U64 = size - removed := by
        unfold U64 at *
        omega
      rw [checkLoop, if_pos hg, hrm2]
      simp only [hmod]

/-- C20 at a concrete store: the round on `partStore`, whose deletion from the index fails,
leaves both records in the index, deletes the directory of work 4 and reports its 2000
bytes, and leaves 10 of the 1010 bytes of the directory of work 3, unreported. -/
theorem removeOldWorks_round_witness :
    (removeOldWorks partStore).2.2.index = partStore.index ∧
    (removeOldWorks partStore).2.2.disk.dirs = [("storage/works/3", 10)] ∧
    (removeOldWorks partStore).1 = 2000 := by
  obtain ⟨_, _, h⟩ := removeOldWorks_round partStore (by decide)
  obtain ⟨_, _, h3, h4, h5, _, _⟩ := h rfl
  exact ⟨h3 rfl, h4.trans (by decide), h5.trans (by decide)⟩

theorem GetOldWorks_subset (index : List WorkEntry) (count : Nat) (w : WorkEntry)
    (h : w ∈ GetOldWorks index count) : w ∈ index := by
  unfold GetOldWorks at h
  exact (List.mem_insertionSort _).1 (List.mem_of_mem_take h)

theorem afterRemoveDirs_disk (s : Store) (hsz : rootSize s.disk < U64) :
    (afterRemoveDirs s).disk
      = { s.disk with
          dirs := (s.disk.dirs.filter
            (fun x => !isDeleted (GetOldWorks s.index 10) s.disk x)).map
              (leftOver (GetOldWorks s.index 10) s.disk) } := by
  unfold afterRemoveDirs
  rw [removeDirs_eq (GetOldWorks s.index 10) s.disk 0 (by omega)]

theorem leftOver_fst (works : List WorkEntry) (d : Disk) (x : String × Nat) :
    (leftOver works d x).1 = x.1 := by
  unfold leftOver
  split
  · split <;> rfl
  · rfl

/-- C17, as stated, fails: in the round on a store with three works the directories are
deleted while their records are still in the index.  No record is a ghost before the round;
between the two parts of the round all three are; and when the deletion from the index
fails, `removeOldWorks` ends there, with a nil error and the three ghost records left. -/
theorem removeOldWorks_leaves_ghost_records :
    ghostRecords fullStore = [] ∧
    ghostRecords (afterRemoveDirs fullStore) = fullStore.index ∧
    removeOldWorks { fullStore with deleteFails := true }
      = (94371840, false, afterRemoveDirs { fullStore with deleteFails := true }) ∧
    ghostRecords (removeOldWorks { fullStore with deleteFails := true }).2.2
      = fullStore.index := by
  refine ⟨by decide, by decide, by decide, by decide⟩

/-- C17, amended: in every round of `removeOldWorks` the directories of the selected records
go first and their records are deleted from the index afterwards, in one call.  Between the
two the index is whole although every selected record whose directory can be deleted has
lost it (a ghost record); when the deletion from the index fails the round ends in that
state with a nil error; when it succeeds no selected record is left, and a selected record
whose directory cannot be deleted leaves that directory behind (an orphan), with what could
not be removed of it.  A round whose query fails selects nothing and changes nothing. -/
theorem removeOldWorks_order (s : Store) (hsz : rootSize s.disk < U64) :
    (s.queryFails = true → removeOldWorks s = (0, true, s)) ∧
    (s.queryFails = false →
      (afterRemoveDirs s).index = s.index ∧
      (∀ w ∈ GetOldWorks s.index 10, s.disk.undeletable.lookup w.Path = none →
        w ∈ ghostRecords (afterRemoveDirs s)) ∧
      (s.deleteFails = true →
        (removeOldWorks s).2.2 = afterRemoveDirs s ∧ (removeOldWorks s).2.1 = false) ∧
      (s.deleteFails = false →
        (removeOldWorks s).2.2
          = { afterRemoveDirs s with
              index := DeleteWorks s.index ((GetOldWorks s.index 10).map (·.WorkID)) } ∧
        ∀ w ∈ GetOldWorks s.index 10, w ∉ (removeOldWorks s).2.2.index) ∧
      (∀ w ∈ GetOldWorks s.index 10, (s.disk.undeletable.lookup w.Path).isSome = true →
        (GetDirectorySize s.disk w.Path).isSome = true →
        (GetDirectorySize (removeOldWorks s).2.2.disk w.Path).isSome = true)) := by
  refine ⟨fun hq => by simp [removeOldWorks, hq], ?_⟩
  intro hq
  have hdisk := afterRemoveDirs_disk s hsz
  have hfinal : (removeOldWorks s).2.2
      = if s.deleteFails then afterRemoveDirs s
        else { afterRemoveDirs s with
          index := DeleteWorks s.index ((GetOldWorks s.index 10).map (·.WorkID)) } := by
    by_cases hw : (GetOldWorks s.index 10).length = 0
    · have hnil : GetOldWorks s.index 10 = [] := List.length_eq_zero.1 hw
      cases s with
      | mk index disk sizeFails queryFails deleteFails =>
        simp only at hq hnil
        subst hq
        cases deleteFails <;>
          simp [removeOldWorks, afterRemoveDirs, hnil, removeDirs, DeleteWorks]
    · cases hd : s.deleteFails <;>
        simp only [removeOldWorks, afterRemoveDirs, hq, hd, hw, Bool.false_eq_true, if_false,
          if_true]
  have herr : (removeOldWorks s).2.1 = false := by
    unfold removeOldWorks
    rw [hq]
    simp only [Bool.false_eq_true, if_false]
    split
    · rfl
    · split <;> rfl
  refine ⟨rfl, ?_, ?_, ?_, ?_⟩
  · intro w hw hund
    unfold ghostRecords
    rw [List.mem_filter]
    refine ⟨GetOldWorks_subset _ _ _ hw, ?_⟩
    rw [Option.isNone_iff_eq_none, GetDirectorySize_none_iff, hdisk]
    intro y hy hpath
    simp only [List.mem_map, List.mem_filter] at hy
    obtain ⟨x, ⟨_, hkept⟩, hxy⟩ := hy
    have hx1 : x.1 = w.Path := by
      rw [← hpath, ← hxy, leftOver_fst]
    have hdel : isDeleted (GetOldWorks s.index 10) s.disk x = true := by
      simp only [isDeleted, Bool.and_eq_true, decide_eq_true_eq, hx1, hund, Option.isNone_none,
        and_true]
      exact List.mem_map_of_mem _ hw
    rw [hdel] at hkept
    exact absurd hkept (by decide)
  · intro hd
    rw [hfinal, hd]
    exact ⟨rfl, herr⟩
  · intro hd
    rw [hfinal, hd]
    refine ⟨rfl, ?_⟩
    intro w hw hmem
    simp only [Bool.false_eq_true, if_false, DeleteWorks, List.mem_filter, decide_eq_true_eq,
      List.mem_map, not_exists, not_and] at hmem
    exact hmem.2 w hw rfl
  · intro w hw hund hdir
    have hd2 : (removeOldWorks s).2.2.disk = (afterRemoveDirs s).disk := by
      rw [hfinal]
      split <;> rfl
    rw [hd2, hdisk]
    cases hafter : GetDirectorySize
        { s.disk with
          dirs := (s.disk.dirs.filter
            (fun x => !isDeleted (GetOldWorks s.index 10) s.disk x)).map
              (leftOver (GetOldWorks s.index 10) s.disk) } w.Path with
    | some sz => rfl
    | none =>
      exfalso
      have hnone := (GetDirectorySize_none_iff _ _).1 hafter
      cases hbefore : GetDirectorySize s.disk w.Path with
      | none => rw [hbefore] at hdir; exact absurd hdir (by decide)
      | some sz =>
        have hex : ∃ x ∈ s.disk.dirs, x.1 = w.Path := by
          by_contra hno
          have : GetDirectorySize s.disk w.Path = none :=
            (GetDirectorySize_none_iff _ _).2 (fun x hx hp => hno ⟨x, hx, hp⟩)
          rw [this] at hbefore
          cases hbefore
        obtain ⟨x, hx, hp⟩ := hex
        have hkeep : (!isDeleted (GetOldWorks s.index 10) s.disk x) = true := by
          cases hl : s.disk.undeletable.lookup w.Path with
          | none => rw [hl] at hund; exact absurd hund (by decide)
          | some left => simp [isDeleted, hp, hl]
        exact hnone (leftOver (GetOldWorks s.index 10) s.disk x)
          (List.mem_map_of_mem _ (List.mem_filter.2 ⟨hx, hkeep⟩))
          (by rw [leftOver_fst]; exact hp)

/-- C17 at a concrete store: in the round on `partStore`, whose deletion from the index
fails, the record of work 4 is a ghost once its directory is deleted, the round ends in that
state with a nil error, and the directory of work 3, which cannot be deleted, is still
there; the ghost record of work 4 is left in the index. -/
theorem removeOldWorks_order_witness :
    (⟨4, "storage/works/4", 5⟩ : WorkEntry) ∈ ghostRecords (afterRemoveDirs partStore) ∧
    (removeOldWorks partStore).2.2 = afterRemoveDirs partStore ∧
    (removeOldWorks partStore).2.1 = false ∧
    (GetDirectorySize (removeOldWorks partStore).2.2.disk "storage/works/3").isSome = true ∧
    ghostRecords (removeOldWorks partStore).2.2 = [⟨4, "storage/works/4", 5⟩] := by
  obtain ⟨_, h2, h3, _, h5⟩ := (removeOldWorks_order partStore (by decide)).2 rfl
  exact ⟨h2 ⟨4, "storage/works/4", 5⟩ (by decide) (by decide), (h3 rfl).1, (h3 rfl).2,
    h5 ⟨3, "storage/works/3", 7⟩ (by decide) (by decide) (by decide), by decide⟩

/-! ### Claims on the oldest records of the index -/

theorem splitSlash_ne_nil (cs : List Char) : splitSlash cs ≠ [] := by
  induction cs with
  | nil => simp [splitSlash]
  | cons c cs ih =>
    unfold splitSlash at ih ⊢
    rw [List.foldr_cons]
    split
    · simp
    · split <;> simp

theorem splitSlash_cons (c : Char) (cs : List Char) :
    splitSlash (c :: cs)
      = if c = '/' then [] :: splitSlash cs
        else
          match splitSlash cs with
          | [] => [[c]]
          | x :: xs => (c :: x) :: xs := by
  unfold splitSlash
  rw [List.foldr_cons]

/-- The fields of a path that continues after a slash are the fields before the slash
followed by the fields after it. -/
theorem splitSlash_append (a b : List Char) :
    splitSlash (a ++ '/' :: b) = splitSlash a ++ splitSlash b := by
  induction a with
  | nil =>
    rw [List.nil_append, splitSlash_cons, if_pos rfl]
    rfl
  | cons c cs ih =>
    rw [List.cons_append, splitSlash_cons, splitSlash_cons, ih]
    by_cases hc : c = '/'
    · rw [if_pos hc, if_pos hc]
      rfl
    · rw [if_neg hc, if_neg hc]
      cases hs : splitSlash cs with
      | nil => exact absurd hs (splitSlash_ne_nil cs)
      | cons x xs => rfl

theorem splitSlash_noslash (a : List Char) (h : '/' ∉ a) : splitSlash a = [a] := by
  induction a with
  | nil => rfl
  | cons c cs ih =>
    have hc : c ≠ '/' := fun hc => h (by rw [hc]; exact List.mem_cons_self _ _)
    have hcs : '/' ∉ cs := fun hm => h (List.mem_cons_of_mem _ hm)
    rw [splitSlash_cons, if_neg hc, ih hcs]

theorem mem_splitSlash_noslash : ∀ (cs : List Char) (e : List Char),
    e ∈ splitSlash cs → '/' ∉ e := by
  intro cs
  induction cs with
  | nil =>
    intro e he
    simp only [splitSlash, List.foldr_nil, List.mem_singleton] at he
    subst he
    simp
  | cons c cs ih =>
    intro e he
    rw [splitSlash_cons] at he
    by_cases hc : c = '/'
    · rw [if_pos hc] at he
      rcases List.mem_cons.1 he with h | h
      · subst h; simp
      · exact ih e h
    · rw [if_neg hc] at he
      cases hs : splitSlash cs with
      | nil => exact absurd hs (splitSlash_ne_nil cs)
      | cons x xs =>
        rw [hs] at he ih
        simp only at he
        rcases List.mem_cons.1 he with h | h
        · subst h
          intro hm
          rcases List.mem_cons.1 hm with h1 | h1
          · exact hc h1.symm
          · exact ih x (List.mem_cons_self _ _) h1
        · exact ih e (List.mem_cons_of_mem _ h)

theorem intercalate_cons_cons (e1 e2 : List Char) (es : List (List Char)) :
    List.intercalate ['/'] (e1 :: e2 :: es) = e1 ++ '/' :: List.intercalate ['/'] (e2 :: es) := by
  simp [List.intercalate, List.intersperse]

theorem intercalate_singleton (e : List Char) : List.intercalate ['/'] [e] = e := by
  simp [List.intercalate, List.intersperse]

/-- Splitting what `path.Clean` has joined gives back the elements. -/
theorem splitSlash_intercalate : ∀ kept : List (List Char), kept ≠ [] →
    (∀ e ∈ kept, '/' ∉ e) → splitSlash (List.intercalate ['/'] kept) = kept := by
  intro kept
  induction kept with
  | nil => intro h; exact absurd rfl h
  | cons e es ih =>
    intro _ hall
    cases es with
    | nil =>
      rw [intercalate_singleton]
      exact splitSlash_noslash e (hall e (List.mem_cons_self _ _))
    | cons e2 es2 =>
      rw [intercalate_cons_cons, splitSlash_append,
        splitSlash_noslash e (hall e (List.mem_cons_self _ _)),
        ih (by simp) (fun x hx => hall x (List.mem_cons_of_mem _ hx))]
      rfl

theorem foldl_cleanStep_dotdot (n : Nat) : ∀ k : Nat,
    (List.replicate n ['.', '.']).foldl (cleanStep false) (List.replicate k ['.', '.'])
      = List.replicate (k + n) ['.', '.'] := by
  induction n with
  | zero => intro k; rfl
  | succ n ih =>
    intro k
    rw [List.replicate_succ, List.foldl_cons]
    have hstep : cleanStep false (List.replicate k ['.', '.']) ['.', '.']
        = List.replicate (k + 1) ['.', '.'] := by
      cases k with
      | zero => simp [cleanStep]
      | succ k => simp [cleanStep, List.replicate_succ]
    rw [hstep, ih (k + 1)]
    congr 1
    omega

theorem cleanStep_plain (rooted : Bool) (kept : List (List Char)) (e : List Char)
    (h : PlainElem e) : cleanStep rooted kept e = e :: kept := by
  obtain ⟨h1, h2, h3, _⟩ := h
  simp [cleanStep, h1, h2, h3]

theorem foldl_cleanStep_plain (rooted : Bool) : ∀ (names acc : List (List Char)),
    (∀ e ∈ names, PlainElem e) →
    names.foldl (cleanStep rooted) acc = names.reverse ++ acc := by
  intro names
  induction names with
  | nil => intro acc _; rfl
  | cons e es ih =>
    intro acc h
    rw [List.foldl_cons, cleanStep_plain rooted acc e (h e (List.mem_cons_self _ _)),
      ih (e :: acc) (fun x hx => h x (List.mem_cons_of_mem _ hx))]
    simp

/-- One step of `path.Clean` keeps the shape of the kept elements. -/
theorem cleanStep_stack (rooted : Bool) (kept : List (List Char)) (e : List Char)
    (hk : CleanStack rooted kept) (he : '/' ∉ e) : CleanStack rooted (cleanStep rooted kept e) := by
  obtain ⟨names, n, rfl, hnames, hn⟩ := hk
  by_cases h1 : e = [] ∨ e = ['.']
  · unfold cleanStep
    rw [if_pos h1]
    exact ⟨names, n, rfl, hnames, hn⟩
  · by_cases h2 : e = ['.', '.']
    · subst h2
      cases names with
      | nil =>
        cases n with
        | zero =>
          cases rooted with
          | true => exact ⟨[], 0, by simp [cleanStep], by simp, fun _ => rfl⟩
          | false => exact ⟨[], 1, by simp [cleanStep], by simp, by simp⟩
        | succ n =>
          cases rooted with
          | true => exact absurd (hn rfl) (by simp)
          | false =>
            exact ⟨[], n + 2, by simp [cleanStep, List.replicate_succ], by simp, by simp⟩
      | cons x xs =>
        have hx : x ≠ ['.', '.'] := (hnames x (List.mem_cons_self _ _)).2.2.1
        exact ⟨xs, n, by simp [cleanStep, hx],
          fun y hy => hnames y (List.mem_cons_of_mem _ hy), hn⟩
    · have hp : PlainElem e := ⟨fun h => h1 (Or.inl h), fun h => h1 (Or.inr h), h2, he⟩
      rw [cleanStep_plain rooted _ e hp]
      refine ⟨e :: names, n, rfl, ?_, hn⟩
      intro y hy
      rcases List.mem_cons.1 hy with h | h
      · rw [h]; exact hp
      · exact hnames y h

theorem foldl_cleanStep_stack (rooted : Bool) : ∀ (elems kept : List (List Char)),
    CleanStack rooted kept → (∀ e ∈ elems, '/' ∉ e) →
    CleanStack rooted (elems.foldl (cleanStep rooted) kept) := by
  intro elems
  induction elems with
  | nil => intro kept hk _; exact hk
  | cons e es ih =>
    intro kept hk h
    rw [List.foldl_cons]
    exact ih _ (cleanStep_stack rooted kept e hk (h e (List.mem_cons_self _ _)))
      (fun x hx => h x (List.mem_cons_of_mem _ hx))

/-- The elements that `path.Clean` keeps for a path have the shape `CleanStack`. -/
theorem cleanStack_of_path (rooted : Bool) (cs : List Char) :
    CleanStack rooted ((splitSlash cs).foldl (cleanStep rooted) []) :=
  foldl_cleanStep_stack rooted (splitSlash cs) [] ⟨[], 0, rfl, by simp, fun _ => rfl⟩
    (mem_splitSlash_noslash cs)

/-- Cleaning the kept elements again, bottom first, keeps them all. -/
theorem foldl_cleanStep_reverse (rooted : Bool) (kept : List (List Char))
    (hk : CleanStack rooted kept) : kept.reverse.foldl (cleanStep rooted) [] = kept := by
  obtain ⟨names, n, rfl, hnames, hn⟩ := hk
  rw [List.reverse_append, List.reverse_replicate, List.foldl_append]
  have hbottom : (List.replicate n ['.', '.']).foldl (cleanStep rooted) []
      = List.replicate n ['.', '.'] := by
    cases rooted with
    | true => rw [hn rfl]; rfl
    | false =>
      have h := foldl_cleanStep_dotdot n 0
      simpa using h
  rw [hbottom, foldl_cleanStep_plain rooted names.reverse _
    (fun e he => hnames e (List.mem_reverse.1 he)), List.reverse_reverse]

theorem cleanStack_elem (rooted : Bool) (kept : List (List Char)) (hk : CleanStack rooted kept)
    (e : List Char) (he : e ∈ kept) : e ≠ [] ∧ '/' ∉ e := by
  obtain ⟨names, n, rfl, hnames, _⟩ := hk
  rcases List.mem_append.1 he with h | h
  · exact ⟨(hnames e h).1, (hnames e h).2.2.2⟩
  · rw [List.eq_of_mem_replicate h]
    exact ⟨by simp, by decide⟩

theorem pathClean_data (p : String) :
    (pathClean p).data =
      if p.data.head? = some '/' then
        '/' :: List.intercalate ['/']
          ((splitSlash p.data).foldl (cleanStep (decide (p.data.head? = some '/'))) []).reverse
      else if ((splitSlash p.data).foldl
          (cleanStep (decide (p.data.head? = some '/'))) []).reverse = [] then ['.']
      else List.intercalate ['/']
          ((splitSlash p.data).foldl (cleanStep (decide (p.data.head? = some '/'))) []).reverse := by
  unfold pathClean
  simp only []
  split_ifs <;> simp [String.data_append]

/-- The result of `path.Clean` depends only on whether the path is rooted and on the
elements kept. -/
theorem pathClean_congr (p q : String)
    (hr : p.data.head? = some '/' ↔ q.data.head? = some '/')
    (hf : (splitSlash p.data).foldl (cleanStep (decide (p.data.head? = some '/'))) []
        = (splitSlash q.data).foldl (cleanStep (decide (q.data.head? = some '/'))) []) :
    pathClean p = pathClean q := by
  apply String.ext
  rw [pathClean_data, pathClean_data, hf]
  by_cases h : p.data.head? = some '/'
  · rw [if_pos h, if_pos (hr.1 h)]
  · rw [if_neg h, if_neg (fun h2 => h (hr.2 h2))]

/-- A cleaned path is not empty, is rooted exactly when the path was, and `path.Clean`
keeps for it the elements it kept for the path. -/
theorem pathClean_refold (p : String) :
    (pathClean p).data ≠ [] ∧
    ((pathClean p).data.head? = some '/' ↔ p.data.head? = some '/') ∧
    (splitSlash (pathClean p).data).foldl (cleanStep (decide (p.data.head? = some '/'))) []
      = (splitSlash p.data).foldl (cleanStep (decide (p.data.head? = some '/'))) [] := by
  have hst := cleanStack_of_path (decide (p.data.head? = some '/')) p.data
  have hre := foldl_cleanStep_reverse _ _ hst
  have hel := cleanStack_elem _ _ hst
  rw [pathClean_data]
  generalize (splitSlash p.data).foldl (cleanStep (decide (p.data.head? = some '/'))) [] = st
    at hst hre hel ⊢
  generalize decide (p.data.head? = some '/') = r at hst hre hel ⊢
  have hsplit : st.reverse ≠ [] →
      splitSlash (List.intercalate ['/'] st.reverse) = st.reverse := fun hne =>
    splitSlash_intercalate st.reverse hne
      (fun e he => (hel e (List.mem_reverse.1 he)).2)
  by_cases hr : p.data.head? = some '/'
  · rw [if_pos hr]
    refine ⟨by simp, by simp [hr], ?_⟩
    rw [splitSlash_cons, if_pos rfl, List.foldl_cons]
    have h0 : cleanStep r [] [] = [] := by simp [cleanStep]
    rw [h0]
    by_cases hne : st.reverse = []
    · have hst0 : st = [] := by simpa using hne
      subst hst0
      simp [splitSlash, cleanStep, List.intercalate]
    · rw [hsplit hne, hre]
  · rw [if_neg hr]
    by_cases hne : st.reverse = []
    · rw [if_pos hne]
      have hst0 : st = [] := by simpa using hne
      subst hst0
      refine ⟨by simp, by simp [hr], ?_⟩
      simp [splitSlash, cleanStep]
    · rw [if_neg hne]
      refine ⟨?_, ?_, ?_⟩
      · cases hrev : st.reverse with
        | nil => exact absurd hrev hne
        | cons e es =>
          have he := (hel e (List.mem_reverse.1 (by rw [hrev]; exact List.mem_cons_self _ _))).1
          cases es with
          | nil => rw [intercalate_singleton]; exact he
          | cons e2 es2 =>
            rw [intercalate_cons_cons]
            simp [he]
      · constructor
        · intro hh
          exfalso
          cases hrev : st.reverse with
          | nil => exact absurd hrev hne
          | cons e es =>
            have hmem := hel e (List.mem_reverse.1 (by rw [hrev]; exact List.mem_cons_self _ _))
            rw [hrev] at hh
            cases e with
            | nil => exact hmem.1 rfl
            | cons c cs =>
              have hc : c = '/' := by
                cases es with
                | nil => rw [intercalate_singleton] at hh; simpa using hh
                | cons e2 es2 => rw [intercalate_cons_cons] at hh; simpa using hh
              exact hmem.2 (by rw [hc]; exact List.mem_cons_self _ _)
        · intro hh
          exact absurd hh hr
      · rw [hsplit hne, hre]

/-- Cleaning is idempotent: `path.Clean(path.Clean(p)) = path.Clean(p)`. -/
theorem pathClean_idem (p : String) : pathClean (pathClean p) = pathClean p := by
  obtain ⟨_, h2, h3⟩ := pathClean_refold p
  apply pathClean_congr _ _ h2
  rw [decide_eq_decide.2 h2]
  exact h3

theorem head?_append_of_ne_nil (a b : List Char) (h : a ≠ []) : (a ++ b).head? = a.head? := by
  cases a with
  | nil => exact absurd rfl h
  | cons c cs => rfl

/-- Cleaning the first part of a path before the rest is appended changes nothing:
`path.Clean(path.Clean(x) + "/" + y) = path.Clean(x + "/" + y)` for a non-empty `x`. -/
theorem pathClean_append (x y : String) (hx : x ≠ "") :
    pathClean (pathClean x ++ "/" ++ y) = pathClean (x ++ "/" ++ y) := by
  obtain ⟨h1, h2, h3⟩ := pathClean_refold x
  have hxd : x.data ≠ [] := fun h => hx (String.ext h)
  have hd1 : (pathClean x ++ "/" ++ y).data = (pathClean x).data ++ '/' :: y.data := by
    simp [String.data_append]
  have hd2 : (x ++ "/" ++ y).data = x.data ++ '/' :: y.data := by
    simp [String.data_append]
  have hh1 : (pathClean x ++ "/" ++ y).data.head? = (pathClean x).data.head? := by
    rw [hd1]; exact head?_append_of_ne_nil _ _ h1
  have hh2 : (x ++ "/" ++ y).data.head? = x.data.head? := by
    rw [hd2]; exact head?_append_of_ne_nil _ _ hxd
  have hr : (pathClean x ++ "/" ++ y).data.head? = some '/' ↔
      (x ++ "/" ++ y).data.head? = some '/' := by
    rw [hh1, hh2]; exact h2
  have hdec : decide ((x ++ "/" ++ y).data.head? = some '/')
      = decide (x.data.head? = some '/') := decide_eq_decide.2 (by rw [hh2])
  apply pathClean_congr _ _ hr
  rw [decide_eq_decide.2 hr, hdec, hd1, hd2, splitSlash_append, splitSlash_append,
    List.foldl_append, List.foldl_append, h3]

theorem pathClean_ne_empty (p : String) : pathClean p ≠ "" := by
  intro h
  have h1 := (pathClean_refold p).1
  rw [h] at h1
  exact h1 rfl

theorem pathJoin_pair (a b : String) (ha : a ≠ "") (hb : b ≠ "") :
    pathJoin [a, b] = pathClean (a ++ "/" ++ b) := by
  simp [pathJoin, ha, hb, String.intercalate, String.intercalate.go]

theorem pathJoin_pair_empty (a : String) (ha : a ≠ "") : pathJoin [a, ""] = pathClean a := by
  simp [pathJoin, ha, String.intercalate, String.intercalate.go]

theorem intercalate_go_snoc (s c : String) : ∀ (xs : List String) (acc : String),
    String.intercalate.go acc s (xs ++ [c]) = String.intercalate.go acc s xs ++ s ++ c := by
  intro xs
  induction xs with
  | nil => intro acc; simp [String.intercalate.go]
  | cons x xs ih => intro acc; simp [String.intercalate.go, ih]

theorem intercalate_snoc (s c : String) (xs : List String) (h : xs ≠ []) :
    String.intercalate s (xs ++ [c]) = String.intercalate s xs ++ s ++ c := by
  cases xs with
  | nil => exact absurd rfl h
  | cons x xs => simp [String.intercalate, intercalate_go_snoc]

theorem intercalate_go_ne_empty (s : String) : ∀ (xs : List String) (acc : String),
    acc ≠ "" → String.intercalate.go acc s xs ≠ "" := by
  intro xs
  induction xs with
  | nil => intro acc h; simpa [String.intercalate.go] using h
  | cons x xs ih =>
    intro acc h
    rw [String.intercalate.go]
    apply ih
    intro h2
    have hl := congrArg String.length h2
    simp only [String.length_append] at hl
    have : acc.length = 0 := by
      have h0 : ("" : String).length = 0 := rfl
      omega
    exact h (String.ext (List.length_eq_zero.1 this))

/-- Joining one more element is joining it to the joined path:
`path.Join(x1, ..., xn, c) = path.Join(path.Join(x1, ..., xn), c)` when some `xi` is not
empty. -/
theorem pathJoin_snoc (xs : List String) (c : String) (h : ∃ x ∈ xs, x ≠ "") :
    pathJoin (xs ++ [c]) = pathJoin [pathJoin xs, c] := by
  obtain ⟨x0, hx0, hne0⟩ := h
  have hkept : xs.filter (fun e => decide (e ≠ "")) ≠ [] := by
    intro hnil
    have : x0 ∈ xs.filter (fun e => decide (e ≠ "")) := List.mem_filter.2 ⟨hx0, by simpa using hne0⟩
    rw [hnil] at this
    exact absurd this (List.not_mem_nil _)
  have hxs : pathJoin xs = pathClean (String.intercalate "/" (xs.filter (fun e => decide (e ≠ "")))) := by
    unfold pathJoin
    cases hf : xs.filter (fun e => decide (e ≠ "")) with
    | nil => exact absurd hf hkept
    | cons y ys => rfl
  have hjoined : String.intercalate "/" (xs.filter (fun e => decide (e ≠ ""))) ≠ "" := by
    cases hf : xs.filter (fun e => decide (e ≠ "")) with
    | nil => exact absurd hf hkept
    | cons y ys =>
      have hy : y ≠ "" := by
        have : y ∈ xs.filter (fun e => decide (e ≠ "")) := by rw [hf]; exact List.mem_cons_self _ _
        simpa using (List.mem_filter.1 this).2
      exact intercalate_go_ne_empty "/" ys y hy
  rw [hxs]
  by_cases hc : c = ""
  · subst hc
    rw [pathJoin_pair_empty _ (pathClean_ne_empty _), pathClean_idem]
    unfold pathJoin
    have hf : (xs ++ [""]).filter (fun e => decide (e ≠ "")) = xs.filter (fun e => decide (e ≠ "")) := by
      simp [List.filter_append]
    rw [hf]
    cases hf2 : xs.filter (fun e => decide (e ≠ "")) with
    | nil => exact absurd hf2 hkept
    | cons y ys => rfl
  · rw [pathJoin_pair _ c (pathClean_ne_empty _) hc, pathClean_append _ c hjoined]
    unfold pathJoin
    have hf : (xs ++ [c]).filter (fun e => decide (e ≠ ""))
        = xs.filter (fun e => decide (e ≠ "")) ++ [c] := by
      simp [List.filter_append, hc]
    rw [hf, ← intercalate_snoc "/" c _ hkept]
    cases hf2 : xs.filter (fun e => decide (e ≠ "")) ++ [c] with
    | nil => simp at hf2
    | cons y ys => rfl

/-- The place of an extracted file is `<root>/works/<workID>/<workID>/<name>`, cleaned. -/
theorem extractedPath_eq (root : String) (workID : Nat) (name : String) :
    extractedPath root workID name
      = pathJoin [root, "works", toString workID, toString workID, name] := by
  unfold extractedPath GetWorkPath
  rw [← pathJoin_snoc [root, "works", toString workID] (toString workID)
      ⟨"works", by simp, by decide⟩]
  rw [← pathJoin_snoc ([root, "works", toString workID] ++ [toString workID]) name
      ⟨"works", by simp, by decide⟩]
  rfl

/-- The first loop of `getPositions` never reads out of range, whatever the budget, the
index it starts at and the line counters: each read `runes[idx]` follows the test
`idx < length`. -/
theorem skipLines_reads_in_range (runes : List Char) : ∀ (fuel idx n m : Nat),
    skipLines runes fuel idx n m ≠ .error .outOfRange := by
  intro fuel
  induction fuel with
  | zero =>
    intro idx n m
    rw [skipLines]
    split <;> simp
  | succ fuel ih =>
    intro idx n m
    rw [skipLines]
    by_cases hg : idx < runes.length ∧ n > 1
    · rw [if_pos hg, List.getElem?_eq_getElem hg.1]
      simp only []
      split
      · exact ih _ _ _
      · exact ih _ _ _
    · rw [if_neg hg]
      simp

/-- The second loop of `getPositions` never reads out of range, whatever the budget, the
index it starts at (also one past the end of the content) and the line counter. -/
theorem skipToEnd_reads_in_range (runes : List Char) : ∀ (fuel idx m : Nat),
    skipToEnd runes fuel idx m ≠ .error .outOfRange := by
  intro fuel
  induction fuel with
  | zero =>
    intro idx m
    rw [skipToEnd]
    split <;> simp
  | succ fuel ih =>
    intro idx m
    rw [skipToEnd]
    by_cases hg : idx < runes.length ∧ m > 1
    · rw [if_pos hg, List.getElem?_eq_getElem hg.1]
      simp only []
      split
      · exact ih _ _
      · exact ih _ _
    · rw [if_neg hg]
      simp

/-- The first loop of `getPositions` ends within `length - idx` iterations, at an index
between the one it starts at and the content length. -/
theorem skipLines_exit (runes : List Char) : ∀ (fuel idx n m : Nat),
    runes.length - idx ≤ fuel →
    ∃ j n1 m1, skipLines runes fuel idx n m = .ok (j, n1, m1) ∧ idx ≤ j ∧
      j ≤ max idx runes.length := by
  intro fuel
  induction fuel with
  | zero =>
    intro idx n m hf
    refine ⟨idx, n, m, ?_, Nat.le_refl _, Nat.le_max_left _ _⟩
    rw [skipLines, if_neg (by omega)]
  | succ fuel ih =>
    intro idx n m hf
    rw [skipLines]
    by_cases hg : idx < runes.length ∧ n > 1
    · rw [if_pos hg, List.getElem?_eq_getElem hg.1]
      simp only []
      have hmax : max (idx + 1) runes.length = max idx runes.length := by
        rw [Nat.max_def, Nat.max_def]
        split <;> split <;> omega
      split
      · obtain ⟨j, n1, m1, h, h1, h2⟩ := ih (idx + 1) (n - 1) (decU64 m) (by omega)
        exact ⟨j, n1, m1, h, by omega, by rw [← hmax]; exact h2⟩
      · obtain ⟨j, n1, m1, h, h1, h2⟩ := ih (idx + 1) n m (by omega)
        exact ⟨j, n1, m1, h, by omega, by rw [← hmax]; exact h2⟩
    · rw [if_neg hg]
      exact ⟨idx, n, m, rfl, Nat.le_refl _, Nat.le_max_left _ _⟩

/-- The second loop of `getPositions` ends within `length - idx` iterations (none when it
starts at or past the end), at an index between the one it starts at and the content
length. -/
theorem skipToEnd_exit (runes : List Char) : ∀ (fuel idx m : Nat),
    runes.length - idx ≤ fuel →
    ∃ j, skipToEnd runes fuel idx m = .ok j ∧ idx ≤ j ∧ j ≤ max idx runes.length := by
  intro fuel
  induction fuel with
  | zero =>
    intro idx m hf
    refine ⟨idx, ?_, Nat.le_refl _, Nat.le_max_left _ _⟩
    rw [skipToEnd, if_neg (by omega)]
  | succ fuel ih =>
    intro idx m hf
    rw [skipToEnd]
    by_cases hg : idx < runes.length ∧ m > 1
    · rw [if_pos hg, List.getElem?_eq_getElem hg.1]
      simp only []
      have hmax : max (idx + 1) runes.length = max idx runes.length := by
        rw [Nat.max_def, Nat.max_def]
        split <;> split <;> omega
      split
      · obtain ⟨j, h, h1, h2⟩ := ih (idx + 1) (m - 1) (by omega)
        exact ⟨j, h, by omega, by rw [← hmax]; exact h2⟩
      · obtain ⟨j, h, h1, h2⟩ := ih (idx + 1) m (by omega)
        exact ⟨j, h, by omega, by rw [← hmax]; exact h2⟩
    · rw [if_neg hg]
      exact ⟨idx, rfl, Nat.le_refl _, Nat.le_max_left _ _⟩

/-- C21: for every file content and all values of `startLine`, `startCol`, `endLine` and
`endCol` (every `uint64` value among them), neither scan of `getPositions` reads out of
range, from whatever index and counters it starts: a read at an index that is not below the
content length is the result `outOfRange` of the model, which never occurs.  Each scan ends
within `length - idx` iterations, at an index between its start and the content length (it
makes no iteration when it starts at or past the end), so `getPositions` returns, with a
nil error, for every content and span.  The cases named in the claim are evaluated on
concrete contents: all values 0 (the start offset wraps to `2 ^ 64 - 1`), a column past the
end, `endLine < startLine` (the counter `m` wraps to `2 ^ 64 - 1` in the first scan and the
second scan runs to the end), the empty content, and all values `2 ^ 64 - 1`. -/
theorem getPositions_never_out_of_range (runes : List Char)
    (startLine startCol endLine endCol : Nat) :
    (∀ fuel idx n m, skipLines runes fuel idx n m ≠ .error .outOfRange) ∧
    (∀ fuel idx m, skipToEnd runes fuel idx m ≠ .error .outOfRange) ∧
    (∀ fuel idx n m, runes.length - idx ≤ fuel →
      ∃ j n1 m1, skipLines runes fuel idx n m = .ok (j, n1, m1) ∧ idx ≤ j ∧
        j ≤ max idx runes.length) ∧
    (∀ fuel idx m, runes.length - idx ≤ fuel →
      ∃ j, skipToEnd runes fuel idx m = .ok j ∧ idx ≤ j ∧ j ≤ max idx runes.length) ∧
    (∃ r, getPositions (some runes) startLine startCol endLine endCol = .ok r ∧
      r.err = false) ∧
    getPositions (some abcd) 0 0 0 0 = .ok ⟨U64 - 1, 0, false⟩ ∧
    getPositions (some abcd) 1 100 1 1 = .ok ⟨100, 1, false⟩ ∧
    skipLines ['a', '\n', 'b', '\n', 'c'] 5 0 3 1 = .ok (4, 1, U64 - 1) ∧
    getPositions (some ['a', '\n', 'b', '\n', 'c']) 3 1 1 1 = .ok ⟨4, 2, false⟩ ∧
    getPositions (some []) 7 7 7 7 = .ok ⟨0, 0, false⟩ ∧
    getPositions (some abcd) (U64 - 1) (U64 - 1) (U64 - 1) (U64 - 1) = .ok ⟨0, 0, false⟩ := by
  refine ⟨skipLines_reads_in_range runes, skipToEnd_reads_in_range runes, skipLines_exit runes,
    skipToEnd_exit runes, ?_, by decide, by decide, by decide, by decide, by decide, by decide⟩
  obtain ⟨idx, n, m, h1, _, _⟩ :=
    skipLines_exit runes runes.length 0 startLine endLine (by omega)
  by_cases hidx : idx = runes.length
  · refine ⟨⟨0, 0, false⟩, ?_, rfl⟩
    simp only [getPositions, h1, hidx, if_true]
  · obtain ⟨q, h2, _, _⟩ := skipToEnd_exit runes runes.length
      (if startLine ≠ 1 then decU64 ((idx + startCol) % U64) else (idx + startCol) % U64)
      m (by omega)
    simp only [getPositions, h1, hidx, if_false, h2]
    exact ⟨_, rfl, rfl⟩

end CrossCheck
